import Mathlib

/-!
# gokit: verification development

Shallow embedding of `utils/genericx/map.go` (the generic `SyncMap`) with
theorems about its sequential behaviour, of `protocols/modbus` (`crc.go`,
`modbus.go`, `response.go`, `request.go`) with theorems about the checksum, the
requests and the parsing of responses, and of `utils/intx/int64.go` with
theorems about the decimal text of an `Int64String`.  The definitions of the
packages come first, the theorems after them.

## Model

* An `*entry[V]` is an address (a `Nat`) into a heap `List (Ptr V)`; the heap
  cell is the content of the atomic pointer `entry.p`.  Two maps that hold the
  same `*entry` hold the same address, so a write through one is seen through
  the other, as in the source.
* A Go `map[K]*entry[V]` is a `GoMap K`: the nil map, or a list of bindings.
  Reading and deleting on the nil map are harmless, assigning into it panics.
* A panic is modelled by `none`.
* Operations run one after another, so `mu.Lock()`/`mu.Unlock()` are dropped
  and every compare-and-swap loop succeeds in its first iteration.
* `reflect.DeepEqual` on values is decidable equality on `V`; the zero value
  of `V` is `default`.
* The `previous any` of `Swap` is an `Option V`, `none` being the nil
  interface.
* The visitor of `Range` is a pure function; `Range` returns the list of the
  calls it makes to the visitor.  Go leaves the order of a `range` over a map
  open, so `Range` takes the order as an argument.
* `misses` is a `Nat`: the counter stays below `len(m.dirty)`.
-/

set_option linter.unusedSectionVars false

namespace genericx

variable {K V : Type}

/-! ## Data model -/

/-- Content of the atomic pointer `entry.p`: the nil pointer, the `expunged`
sentinel, or a pointer to a value. -/
inductive Ptr (V : Type) where
  | nil : Ptr V
  | expunged : Ptr V
  | val (v : V) : Ptr V
  deriving DecidableEq, Repr

/-- A Go `map[K]*entry[V]`; the entries are heap addresses. -/
inductive GoMap (K : Type) where
  | nil : GoMap K
  | mk (l : List (K × Nat)) : GoMap K
  deriving DecidableEq, Repr

/-- Lookup in a list of bindings. -/
def lookupKey [DecidableEq K] : List (K × Nat) → K → Option Nat
  | [], _ => none
  | (a, e) :: t, k => if a = k then some e else lookupKey t k

/-- Assignment in a list of bindings: replaces the binding of `k`, or adds one. -/
def insertKey [DecidableEq K] : List (K × Nat) → K → Nat → List (K × Nat)
  | [], k, e => [(k, e)]
  | (a, x) :: t, k, e => if a = k then (a, e) :: t else (a, x) :: insertKey t k e

/-- Removal of the binding of `k` from a list of bindings. -/
def deleteKey [DecidableEq K] : List (K × Nat) → K → List (K × Nat)
  | [], _ => []
  | (a, x) :: t, k => if a = k then deleteKey t k else (a, x) :: deleteKey t k

/-- Go `e, ok := m[k]`; `none` is `ok = false`. -/
def GoMap.get [DecidableEq K] : GoMap K → K → Option Nat
  | .nil, _ => none
  | .mk l, k => lookupKey l k

/-- Go `len(m)`. -/
def GoMap.len : GoMap K → Nat
  | .nil => 0
  | .mk l => l.length

/-- Go `m[k] = e`; assignment to an entry of the nil map panics. -/
def GoMap.set [DecidableEq K] : GoMap K → K → Nat → Option (GoMap K)
  | .nil, _, _ => none
  | .mk l, k, e => some (.mk (insertKey l k e))

/-- Go `delete(m, k)`; a no-op on the nil map. -/
def GoMap.delete [DecidableEq K] : GoMap K → K → GoMap K
  | .nil, _ => .nil
  | .mk l, k => .mk (deleteKey l k)

/-- The bindings a `for k, e := range m` loop goes through. -/
def GoMap.entries : GoMap K → List (K × Nat)
  | .nil => []
  | .mk l => l

/-- The struct `readOnly`. -/
structure readOnly (K : Type) where
  m : GoMap K
  amended : Bool
  deriving DecidableEq, Repr

/-- The struct `SyncMap` (without the mutex), together with the heap that
holds the entries its maps point to. -/
structure SyncMap (K V : Type) where
  read : Option (readOnly K)
  dirty : GoMap K
  misses : Nat
  heap : List (Ptr V)
  deriving DecidableEq, Repr

/-- `NewSyncMap`: `&SyncMap[K, V]{}`. -/
def NewSyncMap : SyncMap K V :=
  { read := none, dirty := .nil, misses := 0, heap := [] }

/-- `newEntry`: allocates a fresh entry holding `i`; returns its address. -/
def newEntry (h : List (Ptr V)) (i : V) : Nat × List (Ptr V) :=
  (h.length, h ++ [Ptr.val i])

/-- `SyncMap.loadReadOnly`. -/
def SyncMap.loadReadOnly (m : SyncMap K V) : readOnly K :=
  match m.read with
  | some p => p
  | none => { m := .nil, amended := false }

/-! ## Operations on one entry -/

/-- The pointer `e.p.Load()`. -/
def entry.p (h : List (Ptr V)) (e : Nat) : Ptr V := h.getD e Ptr.nil

/-- `entry.load`. -/
def entry.load [Inhabited V] (h : List (Ptr V)) (e : Nat) : V × Bool :=
  match entry.p h e with
  | .val v => (v, true)
  | _ => (default, false)

/-- `entry.tryCompareAndSwap`. -/
def entry.tryCompareAndSwap [DecidableEq V] (h : List (Ptr V)) (e : Nat) (old new : V) :
    Bool × List (Ptr V) :=
  match entry.p h e with
  | .val v => if v = old then (true, h.set e (.val new)) else (false, h)
  | _ => (false, h)

/-- `entry.unexpungeLocked`: `e.p.CompareAndSwap(expunged, nil)`. -/
def entry.unexpungeLocked (h : List (Ptr V)) (e : Nat) : Bool × List (Ptr V) :=
  match entry.p h e with
  | .expunged => (true, h.set e .nil)
  | _ => (false, h)

/-- `entry.swapLocked`: `e.p.Swap(i)`, returning the old pointer. -/
def entry.swapLocked (h : List (Ptr V)) (e : Nat) (i : V) : Ptr V × List (Ptr V) :=
  (entry.p h e, h.set e (.val i))

/-- `entry.tryLoadOrStore`, returning `(actual, loaded, ok)`. -/
def entry.tryLoadOrStore [Inhabited V] (h : List (Ptr V)) (e : Nat) (i : V) :
    (V × Bool × Bool) × List (Ptr V) :=
  match entry.p h e with
  | .expunged => ((default, false, false), h)
  | .val v => ((v, true, true), h)
  | .nil => ((i, false, true), h.set e (.val i))

/-- `entry.delete`. -/
def entry.delete [Inhabited V] (h : List (Ptr V)) (e : Nat) : (V × Bool) × List (Ptr V) :=
  match entry.p h e with
  | .val v => ((v, true), h.set e .nil)
  | _ => ((default, false), h)

/-- `entry.trySwap`, returning the old pointer and `ok`. -/
def entry.trySwap (h : List (Ptr V)) (e : Nat) (i : V) : (Ptr V × Bool) × List (Ptr V) :=
  match entry.p h e with
  | .expunged => ((.nil, false), h)
  | p => ((p, true), h.set e (.val i))

/-- `entry.tryExpungeLocked`. -/
def entry.tryExpungeLocked (h : List (Ptr V)) (e : Nat) : Bool × List (Ptr V) :=
  match entry.p h e with
  | .nil => (true, h.set e .expunged)
  | .expunged => (true, h)
  | .val _ => (false, h)

/-- The pair `(previous, loaded)` that `Swap` builds from the old pointer `v`:
`(nil, false)` when `v == nil`, `(*v, true)` otherwise.  The sentinel does not
point to a value, so dereferencing it is a failure. -/
def previousOf : Ptr V → Option (Option V × Bool)
  | .nil => some (none, false)
  | .val x => some (some x, true)
  | .expunged => none

/-! ## Operations on the map -/

/-- `SyncMap.missLocked`. -/
def SyncMap.missLocked (m : SyncMap K V) : SyncMap K V :=
  if m.misses + 1 < m.dirty.len then
    { m with misses := m.misses + 1 }
  else
    { m with read := some { m := m.dirty, amended := false }, dirty := .nil, misses := 0 }

/-- The loop of `dirtyLocked` over the bindings of `read.m`, on the heap and
the bindings of the new dirty map. -/
def dirtyLoop [DecidableEq K] :
    List (K × Nat) → List (Ptr V) × List (K × Nat) → List (Ptr V) × List (K × Nat)
  | [], acc => acc
  | (k, e) :: t, (h, d) =>
    let r := entry.tryExpungeLocked h e
    if r.1 then dirtyLoop t (r.2, d) else dirtyLoop t (r.2, insertKey d k e)

/-- `SyncMap.dirtyLocked`. -/
def SyncMap.dirtyLocked [DecidableEq K] (m : SyncMap K V) : SyncMap K V :=
  match m.dirty with
  | .mk _ => m
  | .nil =>
    let r := dirtyLoop m.loadReadOnly.m.entries (m.heap, [])
    { m with dirty := .mk r.2, heap := r.1 }

/-- `SyncMap.Load`. -/
def SyncMap.Load [DecidableEq K] [Inhabited V] (m : SyncMap K V) (key : K) :
    (V × Bool) × SyncMap K V :=
  let read := m.loadReadOnly
  match read.m.get key with
  | some e => (entry.load m.heap e, m)
  | none =>
    if read.amended then
      let read := m.loadReadOnly
      match read.m.get key with
      | some e => (entry.load m.heap e, m)
      | none =>
        if read.amended then
          let r := m.dirty.get key
          let m1 := m.missLocked
          match r with
          | some e => (entry.load m1.heap e, m1)
          | none => ((default, false), m1)
        else ((default, false), m)
    else ((default, false), m)

/-- The last branch of the locked paths of `Swap` and `LoadOrStore`: the key
is in neither map, so a new entry goes into the dirty map, which is created
first when the snapshot is not amended. -/
def SyncMap.storeNew [DecidableEq K] (m : SyncMap K V) (key : K) (value : V) :
    Option (SyncMap K V) :=
  let read := m.loadReadOnly
  let m1 : SyncMap K V :=
    if read.amended then m
    else { m.dirtyLocked with read := some { m := read.m, amended := true } }
  let r := newEntry m1.heap value
  match m1.dirty.set key r.1 with
  | none => none
  | some d => some { m1 with dirty := d, heap := r.2 }

/-- The part of `SyncMap.Swap` that runs under the lock. -/
def SyncMap.swapSlow [DecidableEq K] (m : SyncMap K V) (key : K) (value : V) :
    Option ((Option V × Bool) × SyncMap K V) :=
  let read := m.loadReadOnly
  match read.m.get key with
  | some e =>
    let u := entry.unexpungeLocked m.heap e
    match (if u.1 then m.dirty.set key e else some m.dirty) with
    | none => none
    | some d =>
      let s := entry.swapLocked u.2 e value
      match previousOf s.1 with
      | none => none
      | some r => some (r, { m with dirty := d, heap := s.2 })
  | none =>
    match m.dirty.get key with
    | some e =>
      let s := entry.swapLocked m.heap e value
      match previousOf s.1 with
      | none => none
      | some r => some (r, { m with heap := s.2 })
    | none =>
      match m.storeNew key value with
      | none => none
      | some m1 => some ((none, false), m1)

/-- `SyncMap.Swap`, returning `(previous, loaded)`; `previous` is a Go `any`,
`none` being the nil interface. -/
def SyncMap.Swap [DecidableEq K] (m : SyncMap K V) (key : K) (value : V) :
    Option ((Option V × Bool) × SyncMap K V) :=
  let read := m.loadReadOnly
  match read.m.get key with
  | some e =>
    let t := entry.trySwap m.heap e value
    if t.1.2 then
      match t.1.1 with
      | .nil => some ((none, false), { m with heap := t.2 })
      | p =>
        match previousOf p with
        | none => none
        | some r => some (r, { m with heap := t.2 })
    else m.swapSlow key value
  | none => m.swapSlow key value

/-- `SyncMap.Store`. -/
def SyncMap.Store [DecidableEq K] (m : SyncMap K V) (key : K) (value : V) :
    Option (SyncMap K V) :=
  match m.Swap key value with
  | none => none
  | some r => some r.2

/-- The part of `SyncMap.LoadOrStore` that runs under the lock. -/
def SyncMap.loadOrStoreSlow [DecidableEq K] [Inhabited V] (m : SyncMap K V) (key : K)
    (value : V) : Option ((V × Bool) × SyncMap K V) :=
  let read := m.loadReadOnly
  match read.m.get key with
  | some e =>
    let u := entry.unexpungeLocked m.heap e
    match (if u.1 then m.dirty.set key e else some m.dirty) with
    | none => none
    | some d =>
      let t := entry.tryLoadOrStore u.2 e value
      some ((t.1.1, t.1.2.1), { m with dirty := d, heap := t.2 })
  | none =>
    match m.dirty.get key with
    | some e =>
      let t := entry.tryLoadOrStore m.heap e value
      some ((t.1.1, t.1.2.1), ({ m with heap := t.2 } : SyncMap K V).missLocked)
    | none =>
      match m.storeNew key value with
      | none => none
      | some m1 => some ((value, false), m1)

/-- `SyncMap.LoadOrStore`, returning `(actual, loaded)`. -/
def SyncMap.LoadOrStore [DecidableEq K] [Inhabited V] (m : SyncMap K V) (key : K)
    (value : V) : Option ((V × Bool) × SyncMap K V) :=
  let read := m.loadReadOnly
  match read.m.get key with
  | some e =>
    let t := entry.tryLoadOrStore m.heap e value
    if t.1.2.2 then some ((t.1.1, t.1.2.1), { m with heap := t.2 })
    else m.loadOrStoreSlow key value
  | none => m.loadOrStoreSlow key value

/-- `SyncMap.LoadAndDelete`, returning `(value, loaded)`. -/
def SyncMap.LoadAndDelete [DecidableEq K] [Inhabited V] (m : SyncMap K V) (key : K) :
    (V × Bool) × SyncMap K V :=
  let read := m.loadReadOnly
  let found : Option Nat × SyncMap K V :=
    match read.m.get key with
    | some e => (some e, m)
    | none =>
      if read.amended then
        let read := m.loadReadOnly
        match read.m.get key with
        | some e => (some e, m)
        | none =>
          if read.amended then
            let r := m.dirty.get key
            (r, ({ m with dirty := m.dirty.delete key } : SyncMap K V).missLocked)
          else (none, m)
      else (none, m)
  match found.1 with
  | some e =>
    let d := entry.delete found.2.heap e
    (d.1, { found.2 with heap := d.2 })
  | none => ((default, false), found.2)

/-- `SyncMap.Delete`. -/
def SyncMap.Delete [DecidableEq K] [Inhabited V] (m : SyncMap K V) (key : K) : SyncMap K V :=
  (m.LoadAndDelete key).2

/-- `SyncMap.CompareAndSwap`. -/
def SyncMap.CompareAndSwap [DecidableEq K] [DecidableEq V] (m : SyncMap K V) (key : K)
    (old new : V) : Bool × SyncMap K V :=
  let read := m.loadReadOnly
  match read.m.get key with
  | some e =>
    let c := entry.tryCompareAndSwap m.heap e old new
    (c.1, { m with heap := c.2 })
  | none =>
    if !read.amended then (false, m)
    else
      let read := m.loadReadOnly
      match read.m.get key with
      | some e =>
        let c := entry.tryCompareAndSwap m.heap e old new
        (c.1, { m with heap := c.2 })
      | none =>
        match m.dirty.get key with
        | some e =>
          let c := entry.tryCompareAndSwap m.heap e old new
          (c.1, ({ m with heap := c.2 } : SyncMap K V).missLocked)
        | none => (false, m)

/-- `SyncMap.CompareAndDelete`. -/
def SyncMap.CompareAndDelete [DecidableEq K] [DecidableEq V] (m : SyncMap K V) (key : K)
    (old : V) : Bool × SyncMap K V :=
  let read := m.loadReadOnly
  let found : Option Nat × SyncMap K V :=
    match read.m.get key with
    | some e => (some e, m)
    | none =>
      if read.amended then
        let read := m.loadReadOnly
        match read.m.get key with
        | some e => (some e, m)
        | none =>
          if read.amended then (m.dirty.get key, m.missLocked)
          else (none, m)
      else (none, m)
  match found.1 with
  | none => (false, found.2)
  | some e =>
    match entry.p found.2.heap e with
    | .val v =>
      if v = old then (true, { found.2 with heap := found.2.heap.set e .nil })
      else (false, found.2)
    | _ => (false, found.2)

/-- The loop of `Range`: the calls `f(k, v)` it makes, in order. -/
def rangeLoop [Inhabited V] (h : List (Ptr V)) (f : K → V → Bool) :
    List (K × Nat) → List (K × V)
  | [] => []
  | (k, e) :: t =>
    if (entry.load h e).2 then
      if f k (entry.load h e).1 then (k, (entry.load h e).1) :: rangeLoop h f t
      else [(k, (entry.load h e).1)]
    else rangeLoop h f t

/-- `SyncMap.Range`, returning the list of the calls made to the visitor `f`.
Go leaves the iteration order of a map open: `order` is the order in which the
loop goes through the bindings. -/
def SyncMap.Range [Inhabited V] (m : SyncMap K V)
    (order : List (K × Nat) → List (K × Nat)) (f : K → V → Bool) :
    List (K × V) × SyncMap K V :=
  let read := m.loadReadOnly
  let r : readOnly K × SyncMap K V :=
    if read.amended then
      let read := m.loadReadOnly
      if read.amended then
        ({ m := m.dirty, amended := false },
         { m with read := some { m := m.dirty, amended := false }, dirty := .nil, misses := 0 })
      else (read, m)
    else (read, m)
  (rangeLoop r.2.heap f (order r.1.m.entries), r.2)

/-! ## Sequential runs -/

/-- A call of a public operation. -/
inductive Op (K V : Type) where
  | Load (key : K) : Op K V
  | Store (key : K) (value : V) : Op K V
  | LoadOrStore (key : K) (value : V) : Op K V
  | LoadAndDelete (key : K) : Op K V
  | Delete (key : K) : Op K V
  | Swap (key : K) (value : V) : Op K V
  | CompareAndSwap (key : K) (old new : V) : Op K V
  | CompareAndDelete (key : K) (old : V) : Op K V
  | Range (order : List (K × Nat) → List (K × Nat)) (f : K → V → Bool) : Op K V

/-- The map after a call; `none` when the call panics. -/
def Op.run [DecidableEq K] [DecidableEq V] [Inhabited V] :
    Op K V → SyncMap K V → Option (SyncMap K V)
  | .Load key, m => some (m.Load key).2
  | .Store key value, m => m.Store key value
  | .LoadOrStore key value, m => (m.LoadOrStore key value).map Prod.snd
  | .LoadAndDelete key, m => some (m.LoadAndDelete key).2
  | .Delete key, m => some (m.Delete key)
  | .Swap key value, m => (m.Swap key value).map Prod.snd
  | .CompareAndSwap key old new, m => some (m.CompareAndSwap key old new).2
  | .CompareAndDelete key old, m => some (m.CompareAndDelete key old).2
  | .Range order f, m => some (m.Range order f).2

/-- The maps reachable from `NewSyncMap()` by public operations run one after
another. -/
inductive Reachable [DecidableEq K] [DecidableEq V] [Inhabited V] : SyncMap K V → Prop where
  | init : Reachable NewSyncMap
  | step (op : Op K V) {m m1 : SyncMap K V} :
      Reachable m → op.run m = some m1 → Reachable m1

/-- The entry a lookup of `key` resolves to: the snapshot's, else the dirty
map's when the snapshot is amended. -/
def SyncMap.find [DecidableEq K] (m : SyncMap K V) (key : K) : Option Nat :=
  match m.loadReadOnly.m.get key with
  | some e => some e
  | none => if m.loadReadOnly.amended then m.dirty.get key else none

/-- The result of `Load(key)`, without the change of the map. -/
def SyncMap.view [DecidableEq K] [Inhabited V] (m : SyncMap K V) (key : K) : V × Bool :=
  match m.find key with
  | some e => entry.load m.heap e
  | none => (default, false)

/-- The representation invariant of a `SyncMap` between two calls. -/
structure InvCore [DecidableEq K] (m : SyncMap K V) : Prop where
  amended_iff : m.loadReadOnly.amended = true ↔ m.dirty ≠ GoMap.nil
  read_bound : ∀ k e, m.loadReadOnly.m.get k = some e → e < m.heap.length
  dirty_bound : ∀ k e, m.dirty.get k = some e → e < m.heap.length
  read_live : ∀ k e, m.loadReadOnly.m.get k = some e → entry.p m.heap e ≠ Ptr.expunged →
    m.dirty ≠ GoMap.nil → m.dirty.get k = some e
  read_dead : ∀ k e, m.loadReadOnly.m.get k = some e → entry.p m.heap e = Ptr.expunged →
    m.dirty ≠ GoMap.nil ∧ m.dirty.get k = none
  dirty_live : ∀ k e, m.dirty.get k = some e → entry.p m.heap e ≠ Ptr.expunged
  read_nodup : (m.loadReadOnly.m.entries.map Prod.fst).Nodup
  dirty_nodup : (m.dirty.entries.map Prod.fst).Nodup
  read_inj : ∀ k k1 e, m.loadReadOnly.m.get k = some e → m.loadReadOnly.m.get k1 = some e →
    k = k1
  dirty_inj : ∀ k k1 e, m.dirty.get k = some e → m.dirty.get k1 = some e → k = k1

/-- The miss counter is 0 without a dirty map and below its size otherwise. -/
def MissesOK (m : SyncMap K V) : Prop :=
  (m.dirty = GoMap.nil → m.misses = 0) ∧ (m.dirty ≠ GoMap.nil → m.misses < m.dirty.len)

/-- The full invariant. -/
def Inv [DecidableEq K] (m : SyncMap K V) : Prop := InvCore m ∧ MissesOK m

/-! ## Auxiliary definitions -/

/-- The map after the dirty map has been published as the snapshot, as
`missLocked` and `Range` do. -/
def SyncMap.promoted (m : SyncMap K V) : SyncMap K V :=
  { m with read := some { m := m.dirty, amended := false }, dirty := GoMap.nil, misses := 0 }

/-- Whether a pointer points to a value. -/
def Ptr.isVal : Ptr V → Bool
  | Ptr.val _ => true
  | _ => false

/-- Whether a pointer is the nil pointer. -/
def Ptr.isNil : Ptr V → Bool
  | Ptr.nil => true
  | _ => false

/-- The state in which `Swap` and `LoadOrStore` leave the map after
`m.dirtyLocked()` and `m.read.Store(&readOnly{m: read.m, amended: true})`. -/
def SyncMap.amend [DecidableEq K] (m : SyncMap K V) : SyncMap K V :=
  { m.dirtyLocked with read := some { m := m.loadReadOnly.m, amended := true } }

/-- The map after a list of calls run one after another. -/
def runOps [DecidableEq K] [DecidableEq V] [Inhabited V] :
    List (Op K V) → SyncMap K V → Option (SyncMap K V)
  | [], m => some m
  | op :: ops, m =>
    match op.run m with
    | none => none
    | some m1 => runOps ops m1

/-- The map after `Store(1,10); Store(2,20); Load(3); Load(4); Delete(1);
Store(5,50)`: the snapshot holds the keys 1 and 2, the entry of key 1 is
expunged, the dirty map holds the keys 2 and 5. -/
def exampleMap : SyncMap Nat Nat :=
  { read := some { m := GoMap.mk [(1, 0), (2, 1)], amended := true },
    dirty := GoMap.mk [(2, 1), (5, 2)],
    misses := 0,
    heap := [Ptr.expunged, Ptr.val 20, Ptr.val 50] }

/-- The map after `Store(1,10); Load(1); Delete(1)`: the snapshot holds the
key 1, whose entry is Absent (the nil pointer); there is no dirty map. -/
def deletedMap : SyncMap Nat Nat :=
  { read := some { m := GoMap.mk [(1, 0)], amended := false },
    dirty := GoMap.nil,
    misses := 0,
    heap := [Ptr.nil] }

/-- The calls that remain of a list of calls when the visitor `f` stops the
iteration: the pairs up to and including the first one on which `f` returns
false. -/
def stopAtFirstFalse (f : K → V → Bool) : List (K × V) → List (K × V)
  | [] => []
  | (k, v) :: t => if f k v then (k, v) :: stopAtFirstFalse f t else [(k, v)]

/-- The map `exampleMap` after `Load(9)`, a miss under the lock: the miss
counter is 1, so the next miss publishes the dirty map. -/
def missedMap : SyncMap Nat Nat :=
  { read := some { m := GoMap.mk [(1, 0), (2, 1)], amended := true },
    dirty := GoMap.mk [(2, 1), (5, 2)],
    misses := 1,
    heap := [Ptr.expunged, Ptr.val 20, Ptr.val 50] }

/-- The results of `Load("a")`, `CompareAndSwap("a",1,9)`, `Load("a")`,
`CompareAndSwap("a",1,5)` and `Load("b")` in the run
`m.Store("a",1); m.Store("b",2); m.Load("a"); m.CompareAndSwap("a",1,9);
m.Load("a"); m.CompareAndSwap("a",1,5); m.Delete("b"); m.Load("b")` on a new
`SyncMap[string,int]`. -/
def scenario : Option ((Int × Bool) × Bool × (Int × Bool) × Bool × (Int × Bool)) :=
  match (NewSyncMap : SyncMap String Int).Store "a" 1 with
  | none => none
  | some m1 =>
    match m1.Store "b" 2 with
    | none => none
    | some m2 =>
      let l1 := m2.Load "a"
      let c1 := l1.2.CompareAndSwap "a" 1 9
      let l2 := c1.2.Load "a"
      let c2 := l2.2.CompareAndSwap "a" 1 5
      let m3 := c2.2.Delete "b"
      let l3 := m3.Load "b"
      some (l1.1, c1.1, l2.1, c2.1, l3.1)

/-- The map after `Store(1,10); Store(2,20); Load(3); Load(3); Delete(1)`: the
two misses have published the dirty map, so the snapshot holds the keys 1 and
2 and there is no dirty map; the entry of key 1 is Absent (the nil pointer). -/
def staleMap : SyncMap Nat Nat :=
  { read := some { m := GoMap.mk [(1, 0), (2, 1)], amended := false },
    dirty := GoMap.nil,
    misses := 0,
    heap := [Ptr.nil, Ptr.val 20] }

/-- The map after `Store(1,10); Load(1); Delete(1); Store(2,20)`: the snapshot
holds the key 1, whose entry is expunged; the dirty map holds the key 2
alone. -/
def lastKeyMap : SyncMap Nat Nat :=
  { read := some { m := GoMap.mk [(1, 0)], amended := true },
    dirty := GoMap.mk [(2, 1)],
    misses := 0,
    heap := [Ptr.expunged, Ptr.val 20] }

end genericx

/-!
# `protocols/modbus`

## Model

* A Go `byte` is a `Fin 256`; a `uint16` is a `Nat` below `65536`, with an
  explicit `% 65536` or `% 256` where the source truncates.
* A `[]byte` is a `List (Fin 256)`.  An index or a slice bound out of range is
  a run-time panic, modelled by `none`.
* A result `(value, error)` is a `Returned`: the value with a nil error, or
  the error.  The result `error` alone is a `Returned Unit`.
-/

namespace modbus

/-- The conversion `byte(x)` of an unsigned integer: its low 8 bits. -/
def byte (x : Nat) : Fin 256 := ⟨x % 256, Nat.mod_lt x (by decide)⟩

/-- Go `l[i]` for an `int` index: a panic when `i` is out of range. -/
def index {α : Type} (l : List α) (i : Int) : Option α :=
  if 0 ≤ i then l[i.toNat]? else none

/-- Go `l[lo:hi]` for `int` bounds: a panic unless `0 ≤ lo ≤ hi ≤ len(l)`
(the capacity of a slice is taken to be its length). -/
def slice {α : Type} (l : List α) (lo hi : Int) : Option (List α) :=
  if 0 ≤ lo ∧ lo ≤ hi ∧ hi ≤ (l.length : Int) then some ((l.take hi.toNat).drop lo.toNat)
  else none

/-- Go `l[i] = x`: a panic when `i` is out of range. -/
def setAt {α : Type} (l : List α) (i : Nat) (x : α) : Option (List α) :=
  if i < l.length then some (l.set i x) else none

/-- Go `copy(dst, src)`: `dst` with its first `min(len(dst), len(src))`
elements taken from `src`. -/
def copy {α : Type} (dst src : List α) : List α :=
  src.take dst.length ++ dst.drop src.length

/-- The errors of the package: the five error variables, `*ModbusError`, and
the errors made with `errors.New` in the response parsers ("modbus: address
mismatch in response", "modbus: value mismatch in response", "modbus:
quantity mismatch in response"). -/
inductive GoError where
  | ErrCRCMismatch : GoError
  | ErrResponseTooShort : GoError
  | ErrInvalidSlaveID : GoError
  | ErrInvalidFunction : GoError
  | ErrInvalidLength : GoError
  | ModbusError (FunctionCode ExceptionCode : Fin 256) : GoError
  | addressMismatch : GoError
  | valueMismatch : GoError
  | quantityMismatch : GoError
  deriving DecidableEq, Repr

/-- The results `(value, error)` of a Go function: `ok value` with a nil
error, or `err e`. -/
inductive Returned (α : Type) where
  | ok (value : α) : Returned α
  | err (e : GoError) : Returned α
  deriving DecidableEq, Repr

/-! ## `crc.go` -/

/-- One round of the inner loop of `CRC16`. -/
def crcShift (crc : Nat) : Nat :=
  if crc &&& 0x0001 ≠ 0 then (crc >>> 1) ^^^ 0xA001 else crc >>> 1

/-- The inner loop `for i := 0; i < 8; i++` of `CRC16`, with `n` rounds to
go. -/
def crcBits : Nat → Nat → Nat
  | 0, crc => crc
  | n + 1, crc => crcBits n (crcShift crc)

/-- The outer loop `for _, b := range data` of `CRC16`. -/
def crcLoop : List (Fin 256) → Nat → Nat
  | [], crc => crc
  | b :: t, crc => crcLoop t (crcBits 8 (crc ^^^ b.val))

/-- `CRC16`. -/
def CRC16 (data : List (Fin 256)) : Nat := crcLoop data 0xFFFF

/-- The Modbus CRC-16 in the words of its description: start at `0xFFFF`; for
each byte, XOR it into the low byte, then eight times shift right by one and
XOR with `0xA001` whenever the bit shifted out was 1. -/
def crc16Reference (data : List (Fin 256)) : Nat :=
  data.foldl
    (fun crc b =>
      Nat.iterate (fun c => if c % 2 = 1 then (c / 2) ^^^ 0xA001 else c / 2) 8
        (256 * (crc / 256) + ((crc % 256) ^^^ b.val)))
    0xFFFF

/-- `AppendCRC16`. -/
def AppendCRC16 (data : List (Fin 256)) : List (Fin 256) :=
  let crc := CRC16 data
  let result := copy (List.replicate (data.length + 2) (0 : Fin 256)) data
  let result := result.set data.length (byte crc)
  result.set (data.length + 1) (byte (crc >>> 8))

/-- `CheckCRC16`. -/
def CheckCRC16 (data : List (Fin 256)) : Option Bool :=
  if data.length < 2 then some false
  else
    match slice data 0 ((data.length : Int) - 2),
      index data ((data.length : Int) - 2), index data ((data.length : Int) - 1) with
    | some actualData, some lo, some hi =>
      some (decide (CRC16 actualData = (lo.val ||| (hi.val <<< 8) % 65536)))
    | _, _, _ => none

/-- `ExtractWithoutCRC16`. -/
def ExtractWithoutCRC16 (data : List (Fin 256)) : Option (List (Fin 256)) :=
  if data.length < 2 then some data else slice data 0 ((data.length : Int) - 2)

/-! ## `modbus.go` -/

/-- `IsError`. -/
def IsError (functionCode : Fin 256) : Bool := decide (functionCode.val &&& 0x80 ≠ 0)

/-- `ParseError`; `x &^ 0x80` clears the bit `0x80` of the byte `x`. -/
def ParseError (functionCode exceptionCode : Fin 256) : GoError :=
  GoError.ModbusError (byte (functionCode.val &&& (0xFF ^^^ 0x80))) exceptionCode

/-! ## `response.go` -/

/-- `ValidateResponse`. -/
def ValidateResponse (response : List (Fin 256))
    (expectedSlaveID expectedFunctionCode : Fin 256) : Option (Returned Unit) :=
  if response.length < 4 then some (Returned.err GoError.ErrResponseTooShort)
  else
    match CheckCRC16 response with
    | none => none
    | some false => some (Returned.err GoError.ErrCRCMismatch)
    | some true =>
      match slice response 0 ((response.length : Int) - 2) with
      | none => none
      | some frameData =>
        match frameData[0]? with
        | none => none
        | some b0 =>
          if b0 ≠ expectedSlaveID then some (Returned.err GoError.ErrInvalidSlaveID)
          else
            match frameData[1]? with
            | none => none
            | some b1 =>
              if IsError b1 then
                if frameData.length < 3 then some (Returned.err GoError.ErrResponseTooShort)
                else
                  match frameData[2]? with
                  | none => none
                  | some b2 => some (Returned.err (ParseError b1 b2))
              else if b1 ≠ expectedFunctionCode then
                some (Returned.err GoError.ErrInvalidFunction)
              else some (Returned.ok ())

/-- `binary.BigEndian.Uint16` of the standard library: the bounds check
`_ = b[1]`, then `uint16(b[1]) | uint16(b[0])<<8`. -/
def Uint16 (b : List (Fin 256)) : Option Nat :=
  match b[1]?, b[0]? with
  | some b1, some b0 => some (b1.val ||| (b0.val <<< 8) % 65536)
  | _, _ => none

/-- The inner loop `for j := 0; j < 8; j++` of `ParseReadBitsResponse` for the
byte `i`, from bit `j` on, with `n` rounds to go. -/
def bitsInner (bitData : List (Fin 256)) (i : Nat) : Nat → Nat → List Bool → Option (List Bool)
  | 0, _, result => some result
  | n + 1, j, result =>
    match bitData[i]? with
    | none => none
    | some b =>
      match setAt result (i * 8 + j) (decide (b.val &&& (1 <<< j) % 256 ≠ 0)) with
      | none => none
      | some result1 => bitsInner bitData i n (j + 1) result1

/-- The outer loop `for i := 0; i < byteCount; i++` of `ParseReadBitsResponse`,
from byte `i` on, with `n` rounds to go. -/
def bitsOuter (bitData : List (Fin 256)) : Nat → Nat → List Bool → Option (List Bool)
  | 0, _, result => some result
  | n + 1, i, result =>
    match bitsInner bitData i 8 0 result with
    | none => none
    | some result1 => bitsOuter bitData n (i + 1) result1

/-- `ParseReadBitsResponse`. -/
def ParseReadBitsResponse (response : List (Fin 256))
    (expectedSlaveID expectedFunctionCode : Fin 256) : Option (Returned (List Bool)) :=
  match ValidateResponse response expectedSlaveID expectedFunctionCode with
  | none => none
  | some (Returned.err e) => some (Returned.err e)
  | some (Returned.ok _) =>
    match slice response 0 ((response.length : Int) - 2) with
    | none => none
    | some frameData =>
      if frameData.length < 3 then some (Returned.err GoError.ErrResponseTooShort)
      else
        match frameData[2]? with
        | none => none
        | some c =>
          let byteCount := c.val
          if frameData.length < 3 + byteCount then
            some (Returned.err GoError.ErrResponseTooShort)
          else
            match slice frameData 3 (3 + (byteCount : Int)) with
            | none => none
            | some bitData =>
              match bitsOuter bitData byteCount 0 (List.replicate (byteCount * 8) false) with
              | none => none
              | some result => some (Returned.ok result)

/-- The loop `for i := 0; i < registerCount; i++` of
`ParseReadRegistersResponse`, from register `i` on, with `n` rounds to go. -/
def registersLoop (registerData : List (Fin 256)) : Nat → Nat → List Nat → Option (List Nat)
  | 0, _, result => some result
  | n + 1, i, result =>
    match slice registerData ((i * 2 : Nat) : Int) (((i * 2 : Nat) : Int) + 2) with
    | none => none
    | some b =>
      match Uint16 b with
      | none => none
      | some v =>
        match setAt result i v with
        | none => none
        | some result1 => registersLoop registerData n (i + 1) result1

/-- `ParseReadRegistersResponse`. -/
def ParseReadRegistersResponse (response : List (Fin 256))
    (expectedSlaveID expectedFunctionCode : Fin 256) : Option (Returned (List Nat)) :=
  match ValidateResponse response expectedSlaveID expectedFunctionCode with
  | none => none
  | some (Returned.err e) => some (Returned.err e)
  | some (Returned.ok _) =>
    match slice response 0 ((response.length : Int) - 2) with
    | none => none
    | some frameData =>
      if frameData.length < 3 then some (Returned.err GoError.ErrResponseTooShort)
      else
        match frameData[2]? with
        | none => none
        | some c =>
          let byteCount := c.val
          if frameData.length < 3 + byteCount then
            some (Returned.err GoError.ErrResponseTooShort)
          else if byteCount % 2 ≠ 0 then some (Returned.err GoError.ErrInvalidLength)
          else
            let registerCount := byteCount / 2
            match slice frameData 3 (3 + (byteCount : Int)) with
            | none => none
            | some registerData =>
              match registersLoop registerData registerCount 0
                  (List.replicate registerCount 0) with
              | none => none
              | some result => some (Returned.ok result)

/-- The part that the four `ParseWrite...Response` functions share: the
validation, the length check and the comparison of the address in the bytes 2
and 3.  The rest of the check is `rest`, run on the frame without its CRC. -/
def parseWrite (response : List (Fin 256)) (expectedSlaveID functionCode : Fin 256)
    (expectedAddress : Nat) (rest : List (Fin 256) → Option (Returned Unit)) :
    Option (Returned Unit) :=
  match ValidateResponse response expectedSlaveID functionCode with
  | none => none
  | some (Returned.err e) => some (Returned.err e)
  | some (Returned.ok _) =>
    match slice response 0 ((response.length : Int) - 2) with
    | none => none
    | some frameData =>
      if frameData.length < 6 then some (Returned.err GoError.ErrResponseTooShort)
      else
        match (slice frameData 2 4).bind Uint16 with
        | none => none
        | some address =>
          if address ≠ expectedAddress then some (Returned.err GoError.addressMismatch)
          else rest frameData

/-- `ParseWriteSingleCoilResponse`; `FuncWriteSingleCoil` is `0x05`. -/
def ParseWriteSingleCoilResponse (response : List (Fin 256)) (expectedSlaveID : Fin 256)
    (expectedAddress : Nat) (expectedValue : Bool) : Option (Returned Unit) :=
  parseWrite response expectedSlaveID 0x05 expectedAddress fun frameData =>
    match frameData[4]?, frameData[5]? with
    | some b4, some b5 =>
      let value := decide (b4 = 0xFF) && decide (b5 = 0x00)
      let expectedOff := decide (b4 = 0x00) && decide (b5 = 0x00)
      if value ≠ expectedValue ∧ ¬ (expectedValue = false ∧ expectedOff = true) then
        some (Returned.err GoError.valueMismatch)
      else some (Returned.ok ())
    | _, _ => none

/-- `ParseWriteSingleRegisterResponse`; `FuncWriteSingleRegister` is `0x06`. -/
def ParseWriteSingleRegisterResponse (response : List (Fin 256)) (expectedSlaveID : Fin 256)
    (expectedAddress expectedValue : Nat) : Option (Returned Unit) :=
  parseWrite response expectedSlaveID 0x06 expectedAddress fun frameData =>
    match (slice frameData 4 6).bind Uint16 with
    | none => none
    | some value =>
      if value ≠ expectedValue then some (Returned.err GoError.valueMismatch)
      else some (Returned.ok ())

/-- `ParseWriteMultipleCoilsResponse`; `FuncWriteMultipleCoils` is `0x0F`. -/
def ParseWriteMultipleCoilsResponse (response : List (Fin 256)) (expectedSlaveID : Fin 256)
    (expectedAddress expectedQuantity : Nat) : Option (Returned Unit) :=
  parseWrite response expectedSlaveID 0x0F expectedAddress fun frameData =>
    match (slice frameData 4 6).bind Uint16 with
    | none => none
    | some quantity =>
      if quantity ≠ expectedQuantity then some (Returned.err GoError.quantityMismatch)
      else some (Returned.ok ())

/-- `ParseWriteMultipleRegistersResponse`; `FuncWriteMultipleRegisters` is
`0x10`. -/
def ParseWriteMultipleRegistersResponse (response : List (Fin 256))
    (expectedSlaveID : Fin 256) (expectedAddress expectedQuantity : Nat) :
    Option (Returned Unit) :=
  parseWrite response expectedSlaveID 0x10 expectedAddress fun frameData =>
    match (slice frameData 4 6).bind Uint16 with
    | none => none
    | some quantity =>
      if quantity ≠ expectedQuantity then some (Returned.err GoError.quantityMismatch)
      else some (Returned.ok ())

/-! ## `request.go` -/

/-- `binary.BigEndian.PutUint16(data[lo:hi], v)` of the standard library, on
the slice `data[lo:hi]`, which shares its bytes with `data`: the bounds check
`_ = b[1]`, then `b[0] = byte(v >> 8)` and `b[1] = byte(v)`.  The result is
`data` after the call. -/
def PutUint16 (data : List (Fin 256)) (lo hi : Nat) (v : Nat) : Option (List (Fin 256)) :=
  match slice data (lo : Int) (hi : Int) with
  | none => none
  | some b =>
    if b.length < 2 then none
    else
      match setAt data lo (byte (v >>> 8)) with
      | none => none
      | some data1 => setAt data1 (lo + 1) (byte v)

/-- `NewReadCoilsRequest`; `FuncReadCoils` is `0x01`. -/
def NewReadCoilsRequest (slaveID : Fin 256) (startAddress quantity : Nat) :
    Option (List (Fin 256)) :=
  let quantity := if quantity < 1 ∨ quantity > 2000 then 1 else quantity
  do
    let data ← setAt (List.replicate 5 (0 : Fin 256)) 0 slaveID
    let data ← setAt data 1 0x01
    let data ← PutUint16 data 2 4 startAddress
    let data ← setAt data 4 (byte quantity)
    let data ←
      if quantity > 255 then
        (slice data 0 4).map fun d => d ++ [byte (quantity >>> 8), byte quantity]
      else some data
    pure (AppendCRC16 data)

/-- `NewReadDiscreteInputsRequest`; `FuncReadDiscreteInputs` is `0x02`. -/
def NewReadDiscreteInputsRequest (slaveID : Fin 256) (startAddress quantity : Nat) :
    Option (List (Fin 256)) :=
  let quantity := if quantity < 1 ∨ quantity > 2000 then 1 else quantity
  do
    let data ← setAt (List.replicate 5 (0 : Fin 256)) 0 slaveID
    let data ← setAt data 1 0x02
    let data ← PutUint16 data 2 4 startAddress
    let data ← setAt data 4 (byte quantity)
    let data ←
      if quantity > 255 then
        (slice data 0 4).map fun d => d ++ [byte (quantity >>> 8), byte quantity]
      else some data
    pure (AppendCRC16 data)

/-- `NewWriteSingleCoilRequest`; `FuncWriteSingleCoil` is `0x05`. -/
def NewWriteSingleCoilRequest (slaveID : Fin 256) (address : Nat) (value : Bool) :
    Option (List (Fin 256)) :=
  do
    let data ← setAt (List.replicate 6 (0 : Fin 256)) 0 slaveID
    let data ← setAt data 1 0x05
    let data ← PutUint16 data 2 4 address
    let data ←
      if value then (setAt data 4 0xFF).bind fun d => setAt d 5 0x00
      else (setAt data 4 0x00).bind fun d => setAt d 5 0x00
    pure (AppendCRC16 data)

/-- The loop `for i, value := range values` of `NewWriteMultipleCoilsRequest`,
from the index `i` on. -/
def coilsFill : List Bool → Nat → List (Fin 256) → Option (List (Fin 256))
  | [], _, data => some data
  | value :: t, i, data =>
    let byteIdx := 7 + i / 8
    let bitIdx := i % 8
    if value then
      match data[byteIdx]? with
      | none => none
      | some x =>
        match setAt data byteIdx (byte (x.val ||| (1 <<< bitIdx) % 256)) with
        | none => none
        | some data1 => coilsFill t (i + 1) data1
    else coilsFill t (i + 1) data

/-- `NewWriteMultipleCoilsRequest`; `FuncWriteMultipleCoils` is `0x0F`.  The
inner `none` is the nil slice. -/
def NewWriteMultipleCoilsRequest (slaveID : Fin 256) (startAddress : Nat)
    (values : List Bool) : Option (Option (List (Fin 256))) :=
  if values.length < 1 ∨ values.length > 1968 then some none
  else
    let byteCount := (values.length + 7) / 8
    do
      let data ← setAt (List.replicate (6 + 1 + byteCount) (0 : Fin 256)) 0 slaveID
      let data ← setAt data 1 0x0F
      let data ← PutUint16 data 2 4 startAddress
      let data ← PutUint16 data 4 6 (values.length % 65536)
      let data ← setAt data 6 (byte byteCount)
      let data ← coilsFill values 0 data
      pure (some (AppendCRC16 data))

/-- `NewReadHoldingRegistersRequest`; `FuncReadHoldingRegisters` is `0x03`. -/
def NewReadHoldingRegistersRequest (slaveID : Fin 256) (startAddress quantity : Nat) :
    Option (List (Fin 256)) :=
  let quantity := if quantity < 1 ∨ quantity > 125 then 1 else quantity
  do
    let data ← setAt (List.replicate 6 (0 : Fin 256)) 0 slaveID
    let data ← setAt data 1 0x03
    let data ← PutUint16 data 2 4 startAddress
    let data ← PutUint16 data 4 6 quantity
    pure (AppendCRC16 data)

/-- The loop `for i, value := range values` of
`NewWriteMultipleRegistersRequest`, from the index `i` on. -/
def registersFill : List Nat → Nat → List (Fin 256) → Option (List (Fin 256))
  | [], _, data => some data
  | value :: t, i, data =>
    match PutUint16 data (7 + i * 2) (7 + i * 2 + 2) value with
    | none => none
    | some data1 => registersFill t (i + 1) data1

/-- `NewWriteMultipleRegistersRequest`; `FuncWriteMultipleRegisters` is
`0x10`.  The inner `none` is the nil slice. -/
def NewWriteMultipleRegistersRequest (slaveID : Fin 256) (startAddress : Nat)
    (values : List Nat) : Option (Option (List (Fin 256))) :=
  if values.length < 1 ∨ values.length > 123 then some none
  else
    let byteCount := values.length * 2
    do
      let data ← setAt (List.replicate (6 + 1 + byteCount) (0 : Fin 256)) 0 slaveID
      let data ← setAt data 1 0x10
      let data ← PutUint16 data 2 4 startAddress
      let data ← PutUint16 data 4 6 (values.length % 65536)
      let data ← setAt data 6 (byte byteCount)
      let data ← registersFill values 0 data
      pure (some (AppendCRC16 data))

/-- The two big-endian bytes of each 16-bit value of a list, in order. -/
def bigEndianBytes : List Nat → List (Fin 256)
  | [] => []
  | v :: t => byte (v >>> 8) :: byte v :: bigEndianBytes t

/-- The exception response of the slave `s` to the function code `f` with the
exception code `x`: the bytes `s`, `f|0x80`, `x` and their checksum. -/
def exceptionFrame (s f x : Fin 256) : List (Fin 256) :=
  AppendCRC16 [s, byte (f.val ||| 0x80), x]

/-- A response of the slave 1 to the function code `0x03` with one register,
`01 03 02 00 0A`, and its checksum `38 43`. -/
def exampleResponse : List (Fin 256) := [0x01, 0x03, 0x02, 0x00, 0x0A, 0x38, 0x43]

end modbus

/-!
# `utils/intx`: the type `Int64String`

The model of `src/utils/intx/int64.go`.

* An `int64` is an `Int` between `-2^63` and `2^63 - 1`; a `uint64` is a `Nat`
  with an explicit `% 2^64` where the standard library relies on the
  wrap-around.
* A `string` and a `[]byte` are lists of bytes, `List (Fin 256)`.
* A result `(value, error)` is a pair of the value and an `Option` of the
  error, `none` being the nil error: `FromString` returns a value next to its
  error.
* `strconv.ParseInt`, `strconv.FormatInt` and `bytes.Trim` belong to the Go
  standard library; they are modelled after its sources, for the base 10 and
  the size of 64 bits that `int64.go` passes.
-/

namespace intx

/-- The type `Int64String`, an `int64`. -/
abbrev Int64String : Type := Int

/-- The bytes of a text of ASCII characters. -/
def ascii (cs : List Char) : List (Fin 256) :=
  cs.map fun c => ⟨c.toNat % 256, Nat.mod_lt _ (by decide)⟩

/-- The byte of the double quote. -/
def quote : Fin 256 := 0x22

/-- The byte of the minus sign. -/
def minus : Fin 256 := 0x2D

/-- The byte of the plus sign. -/
def plus : Fin 256 := 0x2B

/-- The conversion `int64(x)`: the value of `x` modulo `2^64` in the range of
an `int64`. -/
def toInt64 (x : Int) : Int := (x + 2 ^ 63) % 2 ^ 64 - 2 ^ 63

/-- The conversion `uint64(x)`. -/
def toUint64 (x : Int) : Nat := (x % 2 ^ 64).toNat

/-- The errors `strconv.ErrSyntax` and `strconv.ErrRange` inside a
`*strconv.NumError`. -/
inductive NumError where
  | ErrSyntax : NumError
  | ErrRange : NumError
  deriving DecidableEq, Repr

/-- The errors of the package: `fmt.Errorf("parse Int64String: %w", err)`. -/
inductive GoError where
  | parseInt64String (err : NumError) : GoError
  deriving DecidableEq, Repr

/-- `maxUint64` of `strconv`. -/
def maxUint64 : Nat := 2 ^ 64 - 1

/-- `lower(c)` of `strconv`: `c | ('x' - 'X')`. -/
def lower (c : Fin 256) : Nat := c.val ||| 0x20

/-- The digit that the byte `c` stands for in `strconv.ParseUint`: `c - '0'`
for `'0'` to `'9'`, `lower(c) - 'a' + 10` for a letter, and nothing for another
byte.  The base is not 0, so the case of the underscore is never taken. -/
def digitOf (c : Fin 256) : Option Nat :=
  if 0x30 ≤ c.val ∧ c.val ≤ 0x39 then some (c.val - 0x30)
  else if 0x61 ≤ lower c ∧ lower c ≤ 0x7A then some (lower c - 0x61 + 10)
  else none

/-- The loop `for _, c := range []byte(s)` of `strconv.ParseUint` for the base
10 and 64 bits, with the value `n` read so far. -/
def parseUintLoop : List (Fin 256) → Nat → Nat × Option NumError
  | [], n => (n, none)
  | c :: t, n =>
    match digitOf c with
    | none => (0, some NumError.ErrSyntax)
    | some d =>
      if d ≥ 10 then (0, some NumError.ErrSyntax)
      else if n ≥ maxUint64 / 10 + 1 then (maxUint64, some NumError.ErrRange)
      else
        let n := (n * 10) % 2 ^ 64
        let n1 := (n + d) % 2 ^ 64
        if n1 < n ∨ n1 > maxUint64 then (maxUint64, some NumError.ErrRange)
        else parseUintLoop t n1

/-- `strconv.ParseUint(s, 10, 64)`. -/
def ParseUint (s : List (Fin 256)) : Nat × Option NumError :=
  if s = [] then (0, some NumError.ErrSyntax) else parseUintLoop s 0

/-- The part of `strconv.ParseInt` after the call of `ParseUint`, for the size
of 64 bits: `neg` tells whether a minus sign was picked off, `r` is the result
of `ParseUint`. -/
def checkRange (neg : Bool) (r : Nat × Option NumError) : Int × Option NumError :=
  if r.2 ≠ none ∧ r.2 ≠ some NumError.ErrRange then (0, r.2)
  else
    let cutoff : Nat := 2 ^ 63
    if neg = false ∧ r.1 ≥ cutoff then (((cutoff - 1 : Nat) : Int), some NumError.ErrRange)
    else if neg = true ∧ r.1 > cutoff then (-(cutoff : Int), some NumError.ErrRange)
    else
      let n := toInt64 r.1
      let n := if neg then toInt64 (-n) else n
      (n, none)

/-- `strconv.ParseInt(s, 10, 64)`: the empty text is a syntax error; a leading
sign is picked off; the rest goes to `ParseUint`. -/
def ParseInt (s : List (Fin 256)) : Int × Option NumError :=
  match s with
  | [] => (0, some NumError.ErrSyntax)
  | c :: t =>
    if c = plus then checkRange false (ParseUint t)
    else if c = minus then checkRange true (ParseUint t)
    else checkRange false (ParseUint (c :: t))

/-- The digit loop of `formatBits` of `strconv` for the base 10, with `fuel`
rounds to go: `for u >= 10` it writes the digit `u % 10` in front of `a` and
goes on with `u / 10`; then it writes the digit `u`.  The standard library
writes the same digits two at a time. -/
def formatBits : Nat → Nat → List (Fin 256) → List (Fin 256)
  | 0, u, a => modbus.byte (0x30 + u) :: a
  | fuel + 1, u, a =>
    if u ≥ 10 then formatBits fuel (u / 10) (modbus.byte (0x30 + u % 10) :: a)
    else modbus.byte (0x30 + u) :: a

/-- `strconv.FormatInt(i, 10)`: the digits of `uint64(i)`, or of `-uint64(i)`
after a minus sign when `i` is negative.  A `uint64` has at most 20 digits. -/
def FormatInt (i : Int) : List (Fin 256) :=
  if i < 0 then minus :: formatBits 20 ((2 ^ 64 - toUint64 i) % 2 ^ 64) []
  else formatBits 20 (toUint64 i) []

/-- `bytes.Trim(s, cutset)` for a cutset of the one ASCII character `c`: the
bytes `c` at both ends are cut off, first at the right, then at the left. -/
def Trim (s : List (Fin 256)) (c : Fin 256) : List (Fin 256) :=
  ((s.reverse.dropWhile fun x => decide (x = c)).reverse).dropWhile fun x => decide (x = c)

/-- `(*Int64String).UnmarshalJSON` on the receiver `i`: the receiver after the
call and the error. -/
def UnmarshalJSON (i : Int64String) (b : List (Fin 256)) : Int64String × Option GoError :=
  let b := Trim b quote
  let r := ParseInt b
  match r.2 with
  | some err => (i, some (GoError.parseInt64String err))
  | none => (r.1, none)

/-- `Int64String.MarshalJSON`. -/
def MarshalJSON (i : Int64String) : List (Fin 256) × Option GoError :=
  ([quote] ++ FormatInt i ++ [quote], none)

/-- `Int64String.Int64`. -/
def Int64 (i : Int64String) : Int := i

/-- `FromInt64`. -/
def FromInt64 (v : Int) : Int64String := v

/-- `FromString`. -/
def FromString (s : List (Fin 256)) : Int64String × Option GoError :=
  let r := ParseInt s
  match r.2 with
  | some err => (0, some (GoError.parseInt64String err))
  | none => (r.1, none)

/-- Whether the byte is a decimal digit, `0` to `9`. -/
def isDigit (c : Fin 256) : Bool := decide (0x30 ≤ c.val ∧ c.val ≤ 0x39)

/-- The number that the decimal digits `ds` denote after the number `n`. -/
def decimalFrom (n : Nat) (ds : List (Fin 256)) : Nat :=
  ds.foldl (fun n c => n * 10 + (c.val - 0x30)) n

/-- The integer that a text denotes as a base-10 literal: an optional sign, plus
or minus, followed by at least one decimal digit and nothing else.  A text of
another form denotes nothing. -/
def literalValue (s : List (Fin 256)) : Option Int :=
  match s with
  | [] => none
  | c :: t =>
    if c = plus then
      if t ≠ [] ∧ t.all isDigit then some (decimalFrom 0 t : Nat) else none
    else if c = minus then
      if t ≠ [] ∧ t.all isDigit then some (-(decimalFrom 0 t : Nat)) else none
    else if (c :: t).all isDigit then some (decimalFrom 0 (c :: t) : Nat)
    else none

end intx

namespace genericx

variable {K V : Type}

/-! ## Lists of bindings -/

section bindings
variable [DecidableEq K]

theorem lookupKey_insertKey (l : List (K × Nat)) (k k1 : K) (e : Nat) :
    lookupKey (insertKey l k e) k1 = if k = k1 then some e else lookupKey l k1 := by
  induction l with
  | nil => simp [insertKey, lookupKey]
  | cons a t ih =>
    obtain ⟨a, x⟩ := a
    by_cases h : a = k
    · subst h
      by_cases h1 : a = k1 <;> simp [insertKey, lookupKey, h1]
    · by_cases h1 : a = k1
      · subst h1
        have : ¬ k = a := fun h2 => h h2.symm
        simp [insertKey, lookupKey, h, this]
      · simp [insertKey, lookupKey, h, h1, ih]

theorem lookupKey_deleteKey (l : List (K × Nat)) (k k1 : K) :
    lookupKey (deleteKey l k) k1 = if k = k1 then none else lookupKey l k1 := by
  induction l with
  | nil => simp [deleteKey, lookupKey]
  | cons a t ih =>
    obtain ⟨a, x⟩ := a
    by_cases h : a = k
    · subst h
      simp only [deleteKey, if_true]
      rw [ih]
      by_cases h1 : a = k1 <;> simp [lookupKey, h1]
    · by_cases h1 : a = k1
      · subst h1
        have : ¬ k = a := fun h2 => h h2.symm
        simp [deleteKey, lookupKey, h, this]
      · simp [deleteKey, lookupKey, h, h1, ih]

theorem lookupKey_eq_none (l : List (K × Nat)) (k : K) :
    lookupKey l k = none ↔ k ∉ l.map Prod.fst := by
  induction l with
  | nil => simp [lookupKey]
  | cons a t ih =>
    obtain ⟨a, x⟩ := a
    by_cases h : a = k
    · simp [lookupKey, h]
    · have : ¬ k = a := fun h2 => h h2.symm
      simp [lookupKey, h, ih, this]

theorem mem_of_lookupKey (l : List (K × Nat)) (k : K) (e : Nat)
    (h : lookupKey l k = some e) : (k, e) ∈ l := by
  induction l with
  | nil => simp [lookupKey] at h
  | cons a t ih =>
    obtain ⟨a, x⟩ := a
    by_cases h1 : a = k
    · simp [lookupKey, h1] at h
      simp [h1, h]
    · simp [lookupKey, h1] at h
      exact List.mem_cons_of_mem _ (ih h)

theorem lookupKey_of_mem (l : List (K × Nat)) (hn : (l.map Prod.fst).Nodup) (k : K) (e : Nat)
    (h : (k, e) ∈ l) : lookupKey l k = some e := by
  induction l with
  | nil => simp at h
  | cons a t ih =>
    obtain ⟨a, x⟩ := a
    simp only [List.map_cons, List.nodup_cons] at hn
    rcases List.mem_cons.1 h with h1 | h1
    · cases h1
      simp [lookupKey]
    · have hk : k ∈ t.map Prod.fst := List.mem_map.2 ⟨(k, e), h1, rfl⟩
      have hne : ¬ a = k := fun h2 => hn.1 (h2 ▸ hk)
      simp [lookupKey, hne, ih hn.2 h1]

theorem keys_insertKey (l : List (K × Nat)) (k k1 : K) (e : Nat) :
    k1 ∈ (insertKey l k e).map Prod.fst ↔ k1 = k ∨ k1 ∈ l.map Prod.fst := by
  rw [← not_iff_not, ← lookupKey_eq_none, lookupKey_insertKey, not_or, ← lookupKey_eq_none]
  by_cases h : k = k1
  · simp [h]
  · have : ¬ k1 = k := fun h2 => h h2.symm
    simp [h, this]

theorem nodup_insertKey (l : List (K × Nat)) (k : K) (e : Nat)
    (hn : (l.map Prod.fst).Nodup) : ((insertKey l k e).map Prod.fst).Nodup := by
  induction l with
  | nil => simp [insertKey]
  | cons a t ih =>
    obtain ⟨a, x⟩ := a
    simp only [List.map_cons, List.nodup_cons] at hn
    by_cases h : a = k
    · simp [insertKey, h]
      subst h
      simpa using hn
    · simp only [insertKey, h, if_false, List.map_cons, List.nodup_cons]
      refine ⟨?_, ih hn.2⟩
      rw [keys_insertKey]
      rintro (h1 | h1)
      · exact h h1
      · exact hn.1 h1

theorem keys_deleteKey (l : List (K × Nat)) (k k1 : K) :
    k1 ∈ (deleteKey l k).map Prod.fst ↔ k1 ≠ k ∧ k1 ∈ l.map Prod.fst := by
  rw [← not_iff_not, ← lookupKey_eq_none, lookupKey_deleteKey, not_and, ← lookupKey_eq_none]
  by_cases h : k = k1
  · simp [h]
  · have : ¬ k1 = k := fun h2 => h h2.symm
    simp [h, this]

theorem nodup_deleteKey (l : List (K × Nat)) (k : K)
    (hn : (l.map Prod.fst).Nodup) : ((deleteKey l k).map Prod.fst).Nodup := by
  induction l with
  | nil => simp [deleteKey]
  | cons a t ih =>
    obtain ⟨a, x⟩ := a
    simp only [List.map_cons, List.nodup_cons] at hn
    by_cases h : a = k
    · simp only [deleteKey, h, if_true]
      exact ih hn.2
    · simp only [deleteKey, h, if_false, List.map_cons, List.nodup_cons]
      refine ⟨?_, ih hn.2⟩
      rw [keys_deleteKey]
      exact fun h1 => hn.1 h1.2

theorem length_insertKey_ge (l : List (K × Nat)) (k : K) (e : Nat) :
    l.length ≤ (insertKey l k e).length ∧ 0 < (insertKey l k e).length := by
  induction l with
  | nil => simp [insertKey]
  | cons a t ih =>
    obtain ⟨a, x⟩ := a
    by_cases h : a = k
    · simp [insertKey, h]
    · simp [insertKey, h]
      exact ih.1

end bindings

/-! ## The heap -/

theorem p_set (h : List (Ptr V)) (e e1 : Nat) (x : Ptr V) :
    entry.p (h.set e x) e1 = if e = e1 ∧ e < h.length then x else entry.p h e1 := by
  unfold entry.p
  simp only [List.getD_eq_getElem?_getD, List.getElem?_set]
  by_cases h1 : e = e1
  · subst h1
    by_cases h2 : e < h.length
    · simp [h2]
    · simp [h2, List.getElem?_eq_none (Nat.le_of_not_lt h2)]
  · simp [h1]

theorem p_append (h : List (Ptr V)) (e : Nat) (x : Ptr V) :
    entry.p (h ++ [x]) e =
      if e < h.length then entry.p h e else if e = h.length then x else Ptr.nil := by
  unfold entry.p
  simp only [List.getD_eq_getElem?_getD]
  by_cases h1 : e < h.length
  · simp [h1, List.getElem?_append_left h1]
  · have h2 : h.length ≤ e := Nat.le_of_not_lt h1
    rw [List.getElem?_append_right h2]
    by_cases h3 : e = h.length
    · simp [h3]
    · have : e - h.length ≠ 0 := by omega
      have h4 : h[e]? = none := List.getElem?_eq_none h2
      obtain ⟨n, hn⟩ := Nat.exists_eq_succ_of_ne_zero this
      simp [h1, h3, hn]

/-! ## Lookups -/

section lookups
variable [DecidableEq K]

theorem find_inj {m : SyncMap K V} (hI : InvCore m) {k k1 : K} {e : Nat}
    (h : m.find k = some e) (h1 : m.find k1 = some e) : k = k1 := by
  unfold SyncMap.find at h h1
  cases hr : m.loadReadOnly.m.get k with
  | some a =>
    rw [hr] at h
    cases h
    cases hr1 : m.loadReadOnly.m.get k1 with
    | some a1 =>
      rw [hr1] at h1
      cases h1
      exact hI.read_inj k k1 _ hr hr1
    | none =>
      rw [hr1] at h1
      by_cases ha : m.loadReadOnly.amended = true
      · simp only [ha, if_true] at h1
        have hd : m.dirty ≠ GoMap.nil := hI.amended_iff.1 ha
        have hl := hI.dirty_live k1 _ h1
        exact hI.dirty_inj k k1 _ (hI.read_live k _ hr hl hd) h1
      · simp [ha] at h1
  | none =>
    rw [hr] at h
    by_cases ha : m.loadReadOnly.amended = true
    · simp only [ha, if_true] at h
      have hd : m.dirty ≠ GoMap.nil := hI.amended_iff.1 ha
      have hl := hI.dirty_live k _ h
      cases hr1 : m.loadReadOnly.m.get k1 with
      | some a1 =>
        rw [hr1] at h1
        cases h1
        exact hI.dirty_inj k k1 _ h (hI.read_live k1 _ hr1 hl hd)
      | none =>
        rw [hr1] at h1
        simp only [ha, if_true] at h1
        exact hI.dirty_inj k k1 _ h h1
    · simp [ha] at h

theorem find_bound {m : SyncMap K V} (hI : InvCore m) {k : K} {e : Nat}
    (h : m.find k = some e) : e < m.heap.length := by
  unfold SyncMap.find at h
  cases hr : m.loadReadOnly.m.get k with
  | some a =>
    rw [hr] at h
    cases h
    exact hI.read_bound k _ hr
  | none =>
    rw [hr] at h
    by_cases ha : m.loadReadOnly.amended = true
    · simp only [ha, if_true] at h
      exact hI.dirty_bound k _ h
    · simp [ha] at h

theorem Load_fst [Inhabited V] (m : SyncMap K V) (key : K) : (m.Load key).1 = m.view key := by
  cases hr : m.loadReadOnly.m.get key with
  | some e => simp only [SyncMap.Load, SyncMap.view, SyncMap.find, hr]
  | none =>
    by_cases ha : m.loadReadOnly.amended = true
    · simp only [SyncMap.Load, SyncMap.view, SyncMap.find, ha, if_true, hr]
      cases hd : m.dirty.get key with
      | some e =>
        simp only []
        unfold SyncMap.missLocked
        split <;> rfl
      | none => rfl
    · simp [SyncMap.Load, SyncMap.view, SyncMap.find, ha, hr]

/-- A change of the heap that keeps its size and its expunged cells keeps the
invariant. -/
theorem InvCore_heap {m : SyncMap K V} (hI : InvCore m) (h1 : List (Ptr V))
    (hlen : h1.length = m.heap.length)
    (hex : ∀ e, entry.p h1 e = Ptr.expunged ↔ entry.p m.heap e = Ptr.expunged) :
    InvCore ({ m with heap := h1 } : SyncMap K V) where
  amended_iff := hI.amended_iff
  read_bound := fun k e h => by
    have := hI.read_bound k e h
    simpa [hlen] using this
  dirty_bound := fun k e h => by
    have := hI.dirty_bound k e h
    simpa [hlen] using this
  read_live := fun k e h hp hd => hI.read_live k e h (fun hq => hp ((hex e).2 hq)) hd
  read_dead := fun k e h hp => hI.read_dead k e h ((hex e).1 hp)
  dirty_live := fun k e h hp => hI.dirty_live k e h ((hex e).1 hp)
  read_nodup := hI.read_nodup
  dirty_nodup := hI.dirty_nodup
  read_inj := hI.read_inj
  dirty_inj := hI.dirty_inj

/-- Writing a pointer other than the sentinel into a cell that does not hold
the sentinel keeps the invariant. -/
theorem InvCore_set {m : SyncMap K V} (hI : InvCore m) (e : Nat) (x : Ptr V)
    (hx : x ≠ Ptr.expunged) (he : entry.p m.heap e ≠ Ptr.expunged) :
    InvCore ({ m with heap := m.heap.set e x } : SyncMap K V) := by
  refine InvCore_heap hI _ (by simp) ?_
  intro e1
  rw [p_set]
  by_cases h : e = e1 ∧ e < m.heap.length
  · rw [if_pos h]
    obtain ⟨h1, _⟩ := h
    subst h1
    exact ⟨fun hq => absurd hq hx, fun hq => absurd hq he⟩
  · simp only [h, if_false]

theorem find_heap (m : SyncMap K V) (h1 : List (Ptr V)) (k : K) :
    ({ m with heap := h1 } : SyncMap K V).find k = m.find k := rfl

theorem view_set_self [Inhabited V] {m : SyncMap K V} {k : K} {e : Nat} (x : Ptr V)
    (hf : m.find k = some e) (hlt : e < m.heap.length) :
    ({ m with heap := m.heap.set e x } : SyncMap K V).view k =
      entry.load [x] 0 := by
  unfold SyncMap.view
  rw [find_heap, hf]
  simp only [entry.load, p_set, hlt, and_self, if_true]
  rfl

theorem view_set_other [Inhabited V] {m : SyncMap K V} {k : K} {e : Nat} (x : Ptr V)
    (hf : m.find k ≠ some e) :
    ({ m with heap := m.heap.set e x } : SyncMap K V).view k = m.view k := by
  unfold SyncMap.view
  rw [find_heap]
  cases hk : m.find k with
  | none => rfl
  | some e1 =>
    have hne : ¬ (e = e1 ∧ e < m.heap.length) := by
      rintro ⟨h1, _⟩
      exact hf (by rw [hk, h1])
    simp only [entry.load, p_set, hne, if_false]

/-- The invariant does not mention the miss counter. -/
theorem InvCore_congr {m m1 : SyncMap K V} (hI : InvCore m) (hr : m1.read = m.read)
    (hd : m1.dirty = m.dirty) (hh : m1.heap = m.heap) : InvCore m1 := by
  obtain ⟨r, d, n, h⟩ := m
  obtain ⟨r1, d1, n1, h1⟩ := m1
  simp only at hr hd hh
  subst hr hd hh
  exact ⟨hI.1, hI.2, hI.3, hI.4, hI.5, hI.6, hI.7, hI.8, hI.9, hI.10⟩

theorem missLocked_eq (m : SyncMap K V) :
    m.missLocked =
      if m.misses + 1 < m.dirty.len then { m with misses := m.misses + 1 } else m.promoted :=
  rfl

theorem InvCore_promoted {m : SyncMap K V} (hI : InvCore m) : InvCore m.promoted where
  amended_iff := by simp [SyncMap.promoted, SyncMap.loadReadOnly]
  read_bound := fun k e h => hI.dirty_bound k e h
  dirty_bound := fun k e h => by simp [SyncMap.promoted, GoMap.get] at h
  read_live := fun k e _ _ hd => by simp [SyncMap.promoted] at hd
  read_dead := fun k e h hp => absurd hp (hI.dirty_live k e h)
  dirty_live := fun k e h => by simp [SyncMap.promoted, GoMap.get] at h
  read_nodup := hI.dirty_nodup
  dirty_nodup := by simp [SyncMap.promoted, GoMap.entries]
  read_inj := hI.dirty_inj
  dirty_inj := fun k k1 e h => by simp [SyncMap.promoted, GoMap.get] at h

theorem load_expunged [Inhabited V] {h : List (Ptr V)} {e : Nat}
    (hp : entry.p h e = Ptr.expunged) : entry.load h e = (default, false) := by
  simp [entry.load, hp]

theorem view_promoted [Inhabited V] {m : SyncMap K V} (hI : InvCore m)
    (hd : m.dirty ≠ GoMap.nil) (k : K) : m.promoted.view k = m.view k := by
  have ha : m.loadReadOnly.amended = true := hI.amended_iff.2 hd
  have hv : m.promoted.view k =
      match m.dirty.get k with
      | some e => entry.load m.heap e
      | none => (default, false) := by
    simp only [SyncMap.view, SyncMap.find, SyncMap.promoted, SyncMap.loadReadOnly]
    cases m.dirty.get k <;> rfl
  rw [hv]
  simp only [SyncMap.view, SyncMap.find, ha, if_true]
  cases hr : m.loadReadOnly.m.get k with
  | none => cases m.dirty.get k <;> rfl
  | some e =>
    simp only []
    by_cases hp : entry.p m.heap e = Ptr.expunged
    · rw [(hI.read_dead k e hr hp).2, load_expunged hp]
    · rw [hI.read_live k e hr hp hd]

theorem InvCore_missLocked {m : SyncMap K V} (hI : InvCore m) : InvCore m.missLocked := by
  rw [missLocked_eq]
  split
  · exact InvCore_congr hI rfl rfl rfl
  · exact InvCore_promoted hI

theorem MissesOK_missLocked (m : SyncMap K V) : MissesOK m.missLocked := by
  rw [missLocked_eq]
  split
  · rename_i h
    refine ⟨fun hd => ?_, fun _ => h⟩
    simp only at hd
    rw [hd] at h
    simp [GoMap.len] at h
  · exact ⟨fun _ => rfl, fun hd => absurd rfl hd⟩

theorem view_missLocked [Inhabited V] {m : SyncMap K V} (hI : InvCore m)
    (hd : m.dirty ≠ GoMap.nil) (k : K) : m.missLocked.view k = m.view k := by
  rw [missLocked_eq]
  split
  · rfl
  · exact view_promoted hI hd k

theorem Inv_missLocked {m : SyncMap K V} (hI : InvCore m) : Inv m.missLocked :=
  ⟨InvCore_missLocked hI, MissesOK_missLocked m⟩

/-- Deleting from the dirty map a key that the snapshot lacks keeps the
invariant. -/
theorem InvCore_delete {m : SyncMap K V} (hI : InvCore m) (key : K)
    (hr : m.loadReadOnly.m.get key = none) :
    InvCore ({ m with dirty := m.dirty.delete key } : SyncMap K V) := by
  cases hd : m.dirty with
  | nil =>
    have : ({ m with dirty := GoMap.nil.delete key } : SyncMap K V) = m := by
      obtain ⟨r, d, n, h⟩ := m
      simp only at hd
      subst hd
      rfl
    rw [this]
    exact hI
  | mk l =>
    have hget : ∀ k e, lookupKey (deleteKey l key) k = some e → m.dirty.get k = some e := by
      intro k e h
      rw [lookupKey_deleteKey] at h
      by_cases hk : key = k
      · simp [hk] at h
      · simpa [hd, GoMap.get, hk] using h
    have hne : m.dirty ≠ GoMap.nil := by simp [hd]
    refine ⟨?_, hI.read_bound, fun k e h => hI.dirty_bound k e (hget k e h), ?_, ?_,
      fun k e h => hI.dirty_live k e (hget k e h), hI.read_nodup, ?_, hI.read_inj,
      fun k k1 e h h1 => hI.dirty_inj k k1 e (hget k e h) (hget k1 e h1)⟩
    · have := hI.amended_iff
      simp only [hd] at this
      simpa [GoMap.delete, SyncMap.loadReadOnly] using this
    · intro k e h hp _
      have hk : ¬ key = k := fun hk => by
        have h1 : m.loadReadOnly.m.get k = some e := h
        rw [← hk, hr] at h1
        cases h1
      have := hI.read_live k e h hp hne
      simp only [hd, GoMap.get] at this
      simp only [GoMap.delete, GoMap.get, lookupKey_deleteKey, hk, if_false]
      exact this
    · intro k e h hp
      have := (hI.read_dead k e h hp).2
      simp only [hd, GoMap.get] at this
      refine ⟨by simp [GoMap.delete], ?_⟩
      simp only [GoMap.delete, GoMap.get, lookupKey_deleteKey]
      split
      · rfl
      · exact this
    · have := hI.dirty_nodup
      simp only [hd, GoMap.entries] at this
      exact nodup_deleteKey l key this

/-- The locked paths of `Swap` and `LoadOrStore` on an expunged snapshot
entry: the dirty map exists, and un-expunging the entry and putting it back
into the dirty map keeps the invariant. -/
theorem InvCore_unexpunge {m : SyncMap K V} (hI : InvCore m) {key : K} {e : Nat}
    (hr : m.loadReadOnly.m.get key = some e) (hp : entry.p m.heap e = Ptr.expunged) :
    ∃ l, m.dirty = GoMap.mk l ∧
      InvCore ({ m with dirty := GoMap.mk (insertKey l key e),
                        heap := m.heap.set e Ptr.nil } : SyncMap K V) := by
  obtain ⟨hne, hnone⟩ := hI.read_dead key e hr hp
  cases hd : m.dirty with
  | nil => exact absurd hd hne
  | mk l =>
    refine ⟨l, rfl, ?_⟩
    have hlt : e < m.heap.length := hI.read_bound key e hr
    have hpe : ∀ e1, e1 ≠ e → entry.p (m.heap.set e Ptr.nil) e1 = entry.p m.heap e1 := by
      intro e1 h1
      rw [p_set]
      have : ¬ (e = e1 ∧ e < m.heap.length) := fun h => h1 h.1.symm
      simp [this]
    have hpp : entry.p (m.heap.set e Ptr.nil) e = Ptr.nil := by
      rw [p_set]
      simp [hlt]
    have hdl : ∀ k e1, m.dirty.get k = some e1 → e1 ≠ e := by
      intro k e1 h h1
      subst h1
      exact hI.dirty_live k _ h hp
    have hg : ∀ k, (GoMap.mk (insertKey l key e)).get k =
        if key = k then some e else m.dirty.get k := by
      intro k
      simp [GoMap.get, lookupKey_insertKey, hd]
    refine ⟨?_, ?_, ?_, ?_, ?_, ?_, hI.read_nodup, ?_, hI.read_inj, ?_⟩
    · have := hI.amended_iff
      simp only [hd] at this
      simpa [SyncMap.loadReadOnly] using this
    · intro k e1 h
      have := hI.read_bound k e1 h
      simpa using this
    · intro k e1 h
      simp only [hg] at h
      by_cases hk : key = k
      · simp only [hk, if_true, Option.some.injEq] at h
        subst h
        simpa using hlt
      · simp only [hk, if_false] at h
        have := hI.dirty_bound k e1 h
        simpa using this
    · intro k e1 h hq _
      simp only [hg]
      have h0 : m.loadReadOnly.m.get k = some e1 := h
      by_cases hk : key = k
      · subst hk
        rw [hr] at h0
        simp only [Option.some.injEq] at h0
        simp [h0]
      · simp only [hk, if_false]
        have hne1 : e1 ≠ e := fun h1 => hk (hI.read_inj key k e hr (h1 ▸ h0))
        refine hI.read_live k e1 h0 ?_ hne
        have hq1 : entry.p (m.heap.set e Ptr.nil) e1 ≠ Ptr.expunged := hq
        rwa [hpe e1 hne1] at hq1
    · intro k e1 h hq
      have h0 : m.loadReadOnly.m.get k = some e1 := h
      have hq1 : entry.p (m.heap.set e Ptr.nil) e1 = Ptr.expunged := hq
      have hne1 : e1 ≠ e := by
        intro h1
        subst h1
        rw [hpp] at hq1
        cases hq1
      rw [hpe e1 hne1] at hq1
      have hk : ¬ key = k := by
        intro hk
        subst hk
        rw [hr] at h0
        simp only [Option.some.injEq] at h0
        exact hne1 h0.symm
      refine ⟨by simp, ?_⟩
      simp only [hg, hk, if_false]
      exact (hI.read_dead k e1 h0 hq1).2
    · intro k e1 h
      simp only [hg] at h
      show entry.p (m.heap.set e Ptr.nil) e1 ≠ Ptr.expunged
      by_cases hk : key = k
      · simp only [hk, if_true, Option.some.injEq] at h
        subst h
        rw [hpp]
        simp
      · simp only [hk, if_false] at h
        rw [hpe e1 (hdl k e1 h)]
        exact hI.dirty_live k e1 h
    · have := hI.dirty_nodup
      simp only [hd, GoMap.entries] at this
      exact nodup_insertKey l key e this
    · intro k k1 e1 h h1
      simp only [hg] at h h1
      by_cases hk : key = k
      · by_cases hk1 : key = k1
        · rw [← hk, ← hk1]
        · simp only [hk, if_true, Option.some.injEq] at h
          simp only [hk1, if_false] at h1
          exact absurd h.symm (hdl k1 e1 h1)
      · by_cases hk1 : key = k1
        · simp only [hk1, if_true, Option.some.injEq] at h1
          simp only [hk, if_false] at h
          exact absurd h1.symm (hdl k e1 h)
        · simp only [hk, if_false] at h
          simp only [hk1, if_false] at h1
          exact hI.dirty_inj k k1 e1 h h1

theorem view_unexpunge [Inhabited V] {m : SyncMap K V} {key : K} {e : Nat}
    (hr : m.loadReadOnly.m.get key = some e) (hp : entry.p m.heap e = Ptr.expunged)
    (l : List (K × Nat)) (hd : m.dirty = GoMap.mk l) (k : K) :
    ({ m with dirty := GoMap.mk (insertKey l key e),
              heap := m.heap.set e Ptr.nil } : SyncMap K V).find k = m.find k ∧
    ({ m with dirty := GoMap.mk (insertKey l key e),
              heap := m.heap.set e Ptr.nil } : SyncMap K V).view k = m.view k := by
  have hf :
    ({ m with dirty := GoMap.mk (insertKey l key e),
              heap := m.heap.set e Ptr.nil } : SyncMap K V).find k = m.find k := by
    simp only [SyncMap.find]
    show (match m.loadReadOnly.m.get k with
      | some e => some e
      | none => if m.loadReadOnly.amended then (GoMap.mk (insertKey l key e)).get k else none)
      = _
    cases hk : m.loadReadOnly.m.get k with
    | some a => rfl
    | none =>
      have hne : ¬ key = k := by
        intro h
        subst h
        rw [hr] at hk
        cases hk
      simp [GoMap.get, lookupKey_insertKey, hne, hd]
  refine ⟨hf, ?_⟩
  simp only [SyncMap.view, hf]
  cases hk : m.find k with
  | none => rfl
  | some a =>
    simp only [entry.load, p_set]
    by_cases h : e = a ∧ e < m.heap.length
    · obtain ⟨h1, hlt⟩ := h
      subst h1
      simp [hp, hlt]
    · simp [h]

/-- Putting a fresh entry for a key that is in neither map into the dirty map
keeps the invariant. -/
theorem InvCore_insert_new {m : SyncMap K V} (hI : InvCore m) {key : K} (v : V)
    {l : List (K × Nat)} (hd : m.dirty = GoMap.mk l)
    (hr : m.loadReadOnly.m.get key = none) :
    InvCore ({ m with dirty := GoMap.mk (insertKey l key m.heap.length),
                      heap := m.heap ++ [Ptr.val v] } : SyncMap K V) := by
  have hne : m.dirty ≠ GoMap.nil := by simp [hd]
  have hpe : ∀ e1, e1 < m.heap.length →
      entry.p (m.heap ++ [Ptr.val v]) e1 = entry.p m.heap e1 := by
    intro e1 h1
    rw [p_append]
    simp [h1]
  have hg : ∀ k, (GoMap.mk (insertKey l key m.heap.length)).get k =
      if key = k then some m.heap.length else m.dirty.get k := by
    intro k
    simp [GoMap.get, lookupKey_insertKey, hd]
  have hrk : ∀ k e1, m.loadReadOnly.m.get k = some e1 → ¬ key = k := by
    intro k e1 h h1
    subst h1
    rw [hr] at h
    cases h
  refine ⟨?_, ?_, ?_, ?_, ?_, ?_, hI.read_nodup, ?_, hI.read_inj, ?_⟩
  · have := hI.amended_iff
    simp only [hd] at this
    simpa [SyncMap.loadReadOnly] using this
  · intro k e1 h
    have := hI.read_bound k e1 h
    simp only [List.length_append, List.length_singleton]
    omega
  · intro k e1 h
    simp only [hg] at h
    simp only [List.length_append, List.length_singleton]
    by_cases hk1 : key = k
    · simp only [hk1, if_true, Option.some.injEq] at h
      omega
    · simp only [hk1, if_false] at h
      have := hI.dirty_bound k e1 h
      omega
  · intro k e1 h hq _
    have h0 : m.loadReadOnly.m.get k = some e1 := h
    have hq1 : entry.p (m.heap ++ [Ptr.val v]) e1 ≠ Ptr.expunged := hq
    rw [hpe e1 (hI.read_bound k e1 h0)] at hq1
    simp only [hg, hrk k e1 h0, if_false]
    exact hI.read_live k e1 h0 hq1 hne
  · intro k e1 h hq
    have h0 : m.loadReadOnly.m.get k = some e1 := h
    have hq1 : entry.p (m.heap ++ [Ptr.val v]) e1 = Ptr.expunged := hq
    rw [hpe e1 (hI.read_bound k e1 h0)] at hq1
    refine ⟨by simp, ?_⟩
    simp only [hg, hrk k e1 h0, if_false]
    exact (hI.read_dead k e1 h0 hq1).2
  · intro k e1 h
    simp only [hg] at h
    show entry.p (m.heap ++ [Ptr.val v]) e1 ≠ Ptr.expunged
    by_cases hk1 : key = k
    · simp only [hk1, if_true, Option.some.injEq] at h
      subst h
      rw [p_append]
      simp
    · simp only [hk1, if_false] at h
      rw [hpe e1 (hI.dirty_bound k e1 h)]
      exact hI.dirty_live k e1 h
  · have := hI.dirty_nodup
    simp only [hd, GoMap.entries] at this
    exact nodup_insertKey l key _ this
  · intro k k1 e1 h h1
    simp only [hg] at h h1
    by_cases hk0 : key = k
    · by_cases hk1 : key = k1
      · rw [← hk0, ← hk1]
      · simp only [hk0, if_true, Option.some.injEq] at h
        simp only [hk1, if_false] at h1
        have := hI.dirty_bound k1 e1 h1
        omega
    · by_cases hk1 : key = k1
      · simp only [hk1, if_true, Option.some.injEq] at h1
        simp only [hk0, if_false] at h
        have := hI.dirty_bound k e1 h
        omega
      · simp only [hk0, if_false] at h
        simp only [hk1, if_false] at h1
        exact hI.dirty_inj k k1 e1 h h1

theorem view_insert_new [Inhabited V] {m : SyncMap K V} (hI : InvCore m) {key : K} (v : V)
    {l : List (K × Nat)} (hd : m.dirty = GoMap.mk l)
    (hr : m.loadReadOnly.m.get key = none) (k : K) :
    ({ m with dirty := GoMap.mk (insertKey l key m.heap.length),
              heap := m.heap ++ [Ptr.val v] } : SyncMap K V).view k =
      if k = key then (v, true) else m.view k := by
  have ha : m.loadReadOnly.amended = true := hI.amended_iff.2 (by simp [hd])
  have hf :
    ({ m with dirty := GoMap.mk (insertKey l key m.heap.length),
              heap := m.heap ++ [Ptr.val v] } : SyncMap K V).find k =
      if k = key then some m.heap.length else m.find k := by
    simp only [SyncMap.find]
    show (match m.loadReadOnly.m.get k with
      | some e => some e
      | none => if m.loadReadOnly.amended
          then (GoMap.mk (insertKey l key m.heap.length)).get k else none) = _
    by_cases hk : k = key
    · subst hk
      simp only [hr, ha, if_true]
      simp [GoMap.get, lookupKey_insertKey]
    · have hk1 : ¬ key = k := fun h => hk h.symm
      simp only [hk, if_false]
      cases m.loadReadOnly.m.get k with
      | some a => rfl
      | none => simp [ha, GoMap.get, lookupKey_insertKey, hk1, hd]
  simp only [SyncMap.view, hf]
  by_cases hk : k = key
  · simp [hk, entry.load, p_append]
  · simp only [hk, if_false]
    cases hfk : m.find k with
    | none => rfl
    | some a =>
      have := find_bound hI hfk
      simp [entry.load, p_append, this]

/-! ## Creation of the dirty map -/

theorem tryExpunge_fst (h : List (Ptr V)) (e : Nat) :
    (entry.tryExpungeLocked h e).1 = !(entry.p h e).isVal := by
  unfold entry.tryExpungeLocked
  cases entry.p h e <;> rfl

theorem tryExpunge_length (h : List (Ptr V)) (e : Nat) :
    (entry.tryExpungeLocked h e).2.length = h.length := by
  unfold entry.tryExpungeLocked
  cases entry.p h e <;> simp

theorem tryExpunge_p (h : List (Ptr V)) (e a : Nat) :
    entry.p (entry.tryExpungeLocked h e).2 a =
      if (entry.p h a).isNil = true ∧ a = e ∧ a < h.length then Ptr.expunged
      else entry.p h a := by
  unfold entry.tryExpungeLocked
  cases hp : entry.p h e with
  | nil =>
    simp only [p_set]
    by_cases h1 : e = a
    · subst h1
      by_cases h2 : e < h.length <;> simp [h2, hp, Ptr.isNil]
    · have h2 : ¬ a = e := fun h2 => h1 h2.symm
      simp [h1, h2]
  | expunged =>
    have : ¬ ((entry.p h a).isNil = true ∧ a = e ∧ a < h.length) := by
      rintro ⟨h1, h2, _⟩
      subst h2
      rw [hp] at h1
      cases h1
    simp [this]
  | val v =>
    have : ¬ ((entry.p h a).isNil = true ∧ a = e ∧ a < h.length) := by
      rintro ⟨h1, h2, _⟩
      subst h2
      rw [hp] at h1
      cases h1
    simp [this]

theorem dirtyLoop_length (l : List (K × Nat)) (h : List (Ptr V)) (d : List (K × Nat)) :
    (dirtyLoop l (h, d)).1.length = h.length := by
  induction l generalizing h d with
  | nil => rfl
  | cons a t ih =>
    obtain ⟨k, e⟩ := a
    simp only [dirtyLoop]
    split <;> rw [ih, tryExpunge_length]

theorem dirtyLoop_p (l : List (K × Nat)) (h : List (Ptr V)) (d : List (K × Nat)) (a : Nat) :
    entry.p (dirtyLoop l (h, d)).1 a =
      if (entry.p h a).isNil = true ∧ a ∈ l.map Prod.snd ∧ a < h.length then Ptr.expunged
      else entry.p h a := by
  induction l generalizing h d with
  | nil => simp [dirtyLoop]
  | cons b t ih =>
    obtain ⟨k, e⟩ := b
    have key : ∀ d1, entry.p (dirtyLoop t ((entry.tryExpungeLocked h e).2, d1)).1 a =
        if (entry.p h a).isNil = true ∧ a ∈ ((k, e) :: t).map Prod.snd ∧ a < h.length
        then Ptr.expunged else entry.p h a := by
      intro d1
      rw [ih, tryExpunge_p, tryExpunge_length]
      by_cases hc : (entry.p h a).isNil = true ∧ a = e ∧ a < h.length
      · rw [if_pos hc]
        have h1 : ¬ ((Ptr.expunged : Ptr V).isNil = true ∧ a ∈ t.map Prod.snd ∧
            a < h.length) := by
          simp [Ptr.isNil]
        rw [if_neg h1, if_pos]
        exact ⟨hc.1, by simp [hc.2.1], hc.2.2⟩
      · rw [if_neg hc]
        by_cases hc1 : (entry.p h a).isNil = true ∧ a ∈ t.map Prod.snd ∧ a < h.length
        · rw [if_pos hc1, if_pos]
          exact ⟨hc1.1, List.mem_cons_of_mem _ hc1.2.1, hc1.2.2⟩
        · rw [if_neg hc1, if_neg]
          rintro ⟨h1, h2, h3⟩
          rcases List.mem_cons.1 h2 with h4 | h4
          · exact hc ⟨h1, h4, h3⟩
          · exact hc1 ⟨h1, h4, h3⟩
    simp only [dirtyLoop]
    split <;> exact key _

theorem isVal_tryExpunge (h : List (Ptr V)) (e a : Nat) :
    (entry.p (entry.tryExpungeLocked h e).2 a).isVal = (entry.p h a).isVal := by
  rw [tryExpunge_p]
  split
  · rename_i h1
    cases hp : entry.p h a with
    | nil => rfl
    | expunged => rfl
    | val v =>
      rw [hp] at h1
      exact absurd h1.1 (by simp [Ptr.isNil])
  · rfl

theorem dirtyLoop_lookup (l : List (K × Nat)) (hn : (l.map Prod.fst).Nodup)
    (h : List (Ptr V)) (d : List (K × Nat)) (k : K) :
    lookupKey (dirtyLoop l (h, d)).2 k =
      match lookupKey l k with
      | some e => if (entry.p h e).isVal then some e else lookupKey d k
      | none => lookupKey d k := by
  induction l generalizing h d with
  | nil => simp [dirtyLoop, lookupKey]
  | cons b t ih =>
    obtain ⟨k0, e0⟩ := b
    simp only [List.map_cons, List.nodup_cons] at hn
    have hnone : lookupKey t k0 = none := (lookupKey_eq_none t k0).2 hn.1
    simp only [dirtyLoop, tryExpunge_fst]
    by_cases hv : (entry.p h e0).isVal = true
    · simp only [hv, Bool.not_true, Bool.false_eq_true, if_false]
      rw [ih hn.2]
      by_cases hk : k0 = k
      · subst hk
        simp [lookupKey, hnone, hv, lookupKey_insertKey]
      · simp only [lookupKey, hk, if_false, lookupKey_insertKey, isVal_tryExpunge]
    · simp only [hv, Bool.not_false, if_true]
      rw [ih hn.2]
      by_cases hk : k0 = k
      · subst hk
        simp [lookupKey, hnone, hv]
      · simp only [lookupKey, hk, if_false, isVal_tryExpunge]

theorem dirtyLoop_nodup (l : List (K × Nat)) (h : List (Ptr V)) (d : List (K × Nat))
    (hd : (d.map Prod.fst).Nodup) : ((dirtyLoop l (h, d)).2.map Prod.fst).Nodup := by
  induction l generalizing h d with
  | nil => exact hd
  | cons b t ih =>
    obtain ⟨k0, e0⟩ := b
    simp only [dirtyLoop]
    split
    · exact ih _ _ hd
    · exact ih _ _ (nodup_insertKey d k0 e0 hd)

theorem get_eq_lookupKey (g : GoMap K) (k : K) : g.get k = lookupKey g.entries k := by
  cases g <;> rfl

theorem dirtyLoop_lookup_nil (l : List (K × Nat)) (hn : (l.map Prod.fst).Nodup)
    (h : List (Ptr V)) (k : K) (e : Nat) :
    lookupKey (dirtyLoop l (h, [])).2 k = some e ↔
      lookupKey l k = some e ∧ (entry.p h e).isVal = true := by
  rw [dirtyLoop_lookup l hn]
  cases hl : lookupKey l k with
  | none => simp [lookupKey]
  | some a =>
    simp only [lookupKey]
    by_cases hv : (entry.p h a).isVal = true
    · simp only [hv, if_true, Option.some.injEq]
      constructor
      · intro h1
        subst h1
        exact ⟨rfl, hv⟩
      · exact fun h1 => h1.1
    · simp only [hv, if_false]
      constructor
      · intro h1
        cases h1
      · rintro ⟨h1, h2⟩
        simp only [Option.some.injEq] at h1
        subst h1
        exact absurd h2 hv

theorem load_dirtyLoop [Inhabited V] (l : List (K × Nat)) (h : List (Ptr V))
    (d : List (K × Nat)) (a : Nat) :
    entry.load (dirtyLoop l (h, d)).1 a = entry.load h a := by
  unfold entry.load
  rw [dirtyLoop_p]
  by_cases hc : (entry.p h a).isNil = true ∧ a ∈ l.map Prod.snd ∧ a < h.length
  · rw [if_pos hc]
    cases hp : entry.p h a with
    | nil => rfl
    | expunged => rfl
    | val v =>
      rw [hp] at hc
      exact absurd hc.1 (by simp [Ptr.isNil])
  · rw [if_neg hc]

theorem amend_eq {m : SyncMap K V} (hd : m.dirty = GoMap.nil) :
    m.amend =
      { read := some { m := m.loadReadOnly.m, amended := true },
        dirty := GoMap.mk (dirtyLoop m.loadReadOnly.m.entries (m.heap, [])).2,
        misses := m.misses,
        heap := (dirtyLoop m.loadReadOnly.m.entries (m.heap, [])).1 } := by
  simp only [SyncMap.amend, SyncMap.dirtyLocked, hd]

theorem InvCore_amend {m : SyncMap K V} (hI : InvCore m) (hd : m.dirty = GoMap.nil) :
    InvCore m.amend := by
  rw [amend_eq hd]
  have hn := hI.read_nodup
  have hclean : ∀ k e, m.loadReadOnly.m.get k = some e → entry.p m.heap e ≠ Ptr.expunged :=
    fun k e h hp => (hI.read_dead k e h hp).1 hd
  have hmem : ∀ k e, m.loadReadOnly.m.get k = some e →
      e ∈ m.loadReadOnly.m.entries.map Prod.snd := by
    intro k e h
    rw [get_eq_lookupKey] at h
    exact List.mem_map.2 ⟨(k, e), mem_of_lookupKey _ _ _ h, rfl⟩
  have hdl : ∀ k e, lookupKey (dirtyLoop m.loadReadOnly.m.entries (m.heap, [])).2 k = some e →
      m.loadReadOnly.m.get k = some e ∧ (entry.p m.heap e).isVal = true := by
    intro k e h
    rw [get_eq_lookupKey]
    exact (dirtyLoop_lookup_nil _ hn _ _ _).1 h
  have hval : ∀ e, (entry.p m.heap e).isVal = true →
      entry.p (dirtyLoop m.loadReadOnly.m.entries (m.heap, [])).1 e = entry.p m.heap e := by
    intro e hv
    rw [dirtyLoop_p, if_neg]
    rintro ⟨h1, _⟩
    cases hp : entry.p m.heap e <;> simp [hp, Ptr.isNil, Ptr.isVal] at h1 hv
  refine ⟨by simp [SyncMap.loadReadOnly], ?_, ?_, ?_, ?_, ?_, hn, ?_, hI.read_inj, ?_⟩
  · intro k e h
    have := hI.read_bound k e h
    simpa [dirtyLoop_length] using this
  · intro k e h
    have := hI.read_bound k e (hdl k e h).1
    simpa [dirtyLoop_length] using this
  · intro k e h hp _
    have h0 : m.loadReadOnly.m.get k = some e := h
    have hp0 : entry.p (dirtyLoop m.loadReadOnly.m.entries (m.heap, [])).1 e ≠
        Ptr.expunged := hp
    show lookupKey _ k = some e
    rw [dirtyLoop_lookup_nil _ hn]
    refine ⟨by rw [← get_eq_lookupKey]; exact h0, ?_⟩
    cases hq : entry.p m.heap e with
    | val v => rfl
    | expunged => exact absurd hq (hclean k e h0)
    | nil =>
      exfalso
      apply hp0
      rw [dirtyLoop_p, if_pos]
      exact ⟨by simp [hq, Ptr.isNil], hmem k e h0, hI.read_bound k e h0⟩
  · intro k e h hp
    have h0 : m.loadReadOnly.m.get k = some e := h
    have hp0 : entry.p (dirtyLoop m.loadReadOnly.m.entries (m.heap, [])).1 e =
        Ptr.expunged := hp
    refine ⟨by simp, ?_⟩
    show lookupKey _ k = none
    cases hl : lookupKey (dirtyLoop m.loadReadOnly.m.entries (m.heap, [])).2 k with
    | none => rfl
    | some a =>
      exfalso
      obtain ⟨h1, h2⟩ := hdl k a hl
      rw [h0] at h1
      simp only [Option.some.injEq] at h1
      subst h1
      rw [hval e h2] at hp0
      rw [hp0] at h2
      simp [Ptr.isVal] at h2
  · intro k e h
    obtain ⟨_, h2⟩ := hdl k e h
    show entry.p (dirtyLoop m.loadReadOnly.m.entries (m.heap, [])).1 e ≠ Ptr.expunged
    rw [hval e h2]
    intro h3
    rw [h3] at h2
    simp [Ptr.isVal] at h2
  · exact dirtyLoop_nodup _ _ _ (by simp)
  · intro k k1 e h h1
    exact hI.read_inj k k1 e (hdl k e h).1 (hdl k1 e h1).1

theorem view_amend [Inhabited V] {m : SyncMap K V} (hI : InvCore m)
    (hd : m.dirty = GoMap.nil) (k : K) : m.amend.view k = m.view k := by
  have ha : m.loadReadOnly.amended = false := by
    cases h : m.loadReadOnly.amended with
    | false => rfl
    | true => exact absurd hd (hI.amended_iff.1 h)
  have hf : m.amend.find k = m.find k := by
    rw [amend_eq hd]
    show (match m.loadReadOnly.m.get k with
      | some e => some e
      | none => if true = true
          then lookupKey (dirtyLoop m.loadReadOnly.m.entries (m.heap, [])).2 k else none) =
      (match m.loadReadOnly.m.get k with
      | some e => some e
      | none => if m.loadReadOnly.amended = true then m.dirty.get k else none)
    rw [ha]
    cases hg : m.loadReadOnly.m.get k with
    | some e => rfl
    | none =>
      simp only [if_true, Bool.false_eq_true, if_false]
      cases hl : lookupKey (dirtyLoop m.loadReadOnly.m.entries (m.heap, [])).2 k with
      | none => rfl
      | some a =>
        have := ((dirtyLoop_lookup_nil _ hI.read_nodup _ _ _).1 hl).1
        rw [← get_eq_lookupKey, hg] at this
        cases this
  have hh : m.amend.heap = (dirtyLoop m.loadReadOnly.m.entries (m.heap, [])).1 := by
    rw [amend_eq hd]
  unfold SyncMap.view
  rw [hf, hh]
  cases m.find k with
  | none => rfl
  | some e => exact load_dirtyLoop _ _ _ _

/-! ## The public operations -/

theorem storeNew_eq (m : SyncMap K V) (key : K) (value : V) :
    m.storeNew key value =
      match (if m.loadReadOnly.amended = true then m else m.amend).dirty.set key
          (if m.loadReadOnly.amended = true then m else m.amend).heap.length with
      | none => none
      | some d =>
        some { (if m.loadReadOnly.amended = true then m else m.amend) with
                dirty := d,
                heap := (if m.loadReadOnly.amended = true then m else m.amend).heap ++
                  [Ptr.val value] } :=
  rfl

theorem insert_step [Inhabited V] {m : SyncMap K V} (hI : InvCore m) {key : K} (v : V)
    {l : List (K × Nat)} (hd : m.dirty = GoMap.mk l)
    (hr : m.loadReadOnly.m.get key = none) (hm : m.misses = 0 ∨ m.misses < l.length) :
    ∃ m1, (match m.dirty.set key m.heap.length with
        | none => none
        | some d => some ({ m with dirty := d, heap := m.heap ++ [Ptr.val v] } : SyncMap K V))
        = some m1 ∧ Inv m1 ∧ ∀ k, m1.view k = if k = key then (v, true) else m.view k := by
  refine ⟨{ m with dirty := GoMap.mk (insertKey l key m.heap.length),
                   heap := m.heap ++ [Ptr.val v] }, ?_, ⟨InvCore_insert_new hI v hd hr, ?_⟩,
    fun k => view_insert_new hI v hd hr k⟩
  · rw [hd]
    rfl
  · refine ⟨fun h => by simp at h, fun _ => ?_⟩
    have := length_insertKey_ge l key m.heap.length
    simp only [GoMap.len]
    rcases hm with hm | hm <;> omega

theorem storeNew_spec [Inhabited V] {m : SyncMap K V} (hI : Inv m) {key : K} (v : V)
    (hr : m.loadReadOnly.m.get key = none) :
    ∃ m1, m.storeNew key v = some m1 ∧ Inv m1 ∧
      ∀ k, m1.view k = if k = key then (v, true) else m.view k := by
  rw [storeNew_eq]
  by_cases ha : m.loadReadOnly.amended = true
  · simp only [ha, if_true]
    have hne := hI.1.amended_iff.1 ha
    cases hd : m.dirty with
    | nil => exact absurd hd hne
    | mk l =>
      have := insert_step hI.1 v hd hr (Or.inr (by simpa [hd, GoMap.len] using hI.2.2 hne))
      rw [hd] at this
      exact this
  · simp only [ha, if_false]
    have hd : m.dirty = GoMap.nil := by
      by_contra h
      exact ha (hI.1.amended_iff.2 h)
    have hI2 := InvCore_amend hI.1 hd
    have hd2 : m.amend.dirty =
        GoMap.mk (dirtyLoop m.loadReadOnly.m.entries (m.heap, [])).2 := by
      rw [amend_eq hd]
    have hr2 : m.amend.loadReadOnly.m.get key = none := by
      rw [amend_eq hd]
      exact hr
    have hm2 : m.amend.misses = 0 := by
      rw [amend_eq hd]
      exact hI.2.1 hd
    obtain ⟨m1, h1, h2, h3⟩ := insert_step hI2 v hd2 hr2 (Or.inl hm2)
    refine ⟨m1, h1, h2, fun k => ?_⟩
    rw [h3 k, view_amend hI.1 hd k]

theorem find_read {m : SyncMap K V} {k : K} {e : Nat}
    (hr : m.loadReadOnly.m.get k = some e) : m.find k = some e := by
  simp only [SyncMap.find, hr]

theorem find_dirty {m : SyncMap K V} (hI : InvCore m) {k : K}
    (hr : m.loadReadOnly.m.get k = none) : m.find k = m.dirty.get k := by
  simp only [SyncMap.find, hr]
  by_cases ha : m.loadReadOnly.amended = true
  · simp [ha]
  · have hd : m.dirty = GoMap.nil := by
      by_contra h
      exact ha (hI.amended_iff.2 h)
    simp [ha, hd, GoMap.get]

theorem find_live {m : SyncMap K V} (hI : InvCore m) {k : K} {e : Nat}
    (hr : m.loadReadOnly.m.get k = none) (hf : m.find k = some e) :
    entry.p m.heap e ≠ Ptr.expunged ∧ m.dirty ≠ GoMap.nil := by
  rw [find_dirty hI hr] at hf
  refine ⟨hI.dirty_live k e hf, fun h => ?_⟩
  rw [h] at hf
  simp [GoMap.get] at hf

theorem view_of_find [Inhabited V] {m : SyncMap K V} {k : K} {e : Nat}
    (hf : m.find k = some e) : m.view k = entry.load m.heap e := by
  simp only [SyncMap.view, hf]

theorem view_of_find_none [Inhabited V] {m : SyncMap K V} {k : K}
    (hf : m.find k = none) : m.view k = (default, false) := by
  simp only [SyncMap.view, hf]

/-- Writing a pointer other than the sentinel into the entry of `k`, which
does not hold the sentinel, gives `k` the new content and leaves the other
keys alone. -/
theorem set_step [Inhabited V] {m : SyncMap K V} (hI : Inv m) {k : K} {e : Nat} (x : Ptr V)
    (hf : m.find k = some e) (hp : entry.p m.heap e ≠ Ptr.expunged)
    (hx : x ≠ Ptr.expunged) :
    Inv ({ m with heap := m.heap.set e x } : SyncMap K V) ∧
    ∀ k1, ({ m with heap := m.heap.set e x } : SyncMap K V).view k1 =
      if k1 = k then entry.load [x] 0 else m.view k1 := by
  refine ⟨⟨InvCore_set hI.1 e x hx hp, hI.2⟩, fun k1 => ?_⟩
  by_cases hk : k1 = k
  · subst hk
    simp only [if_true]
    exact view_set_self x hf (find_bound hI.1 hf)
  · simp only [hk, if_false]
    exact view_set_other x (fun h => hk (find_inj hI.1 h hf))

theorem load_val [Inhabited V] {h : List (Ptr V)} {e : Nat} {x : V}
    (hp : entry.p h e = Ptr.val x) : entry.load h e = (x, true) := by
  simp [entry.load, hp]

theorem load_nil [Inhabited V] {h : List (Ptr V)} {e : Nat}
    (hp : entry.p h e = Ptr.nil) : entry.load h e = (default, false) := by
  simp [entry.load, hp]

theorem Swap_spec [Inhabited V] {m : SyncMap K V} (hI : Inv m) (k : K) (v : V) :
    ∃ m1, m.Swap k v =
        some ((if (m.view k).2 = true then some (m.view k).1 else none, (m.view k).2), m1) ∧
      Inv m1 ∧ ∀ k1, m1.view k1 = if k1 = k then (v, true) else m.view k1 := by
  cases hr : m.loadReadOnly.m.get k with
  | some e =>
    have hf := find_read hr
    have hv := view_of_find (V := V) hf
    cases hp : entry.p m.heap e with
    | nil =>
      refine ⟨{ m with heap := m.heap.set e (Ptr.val v) }, ?_,
        set_step hI (Ptr.val v) hf (by simp [hp]) (by simp)⟩
      simp [SyncMap.Swap, hr, entry.trySwap, hp, hv, load_nil hp]
    | val x =>
      refine ⟨{ m with heap := m.heap.set e (Ptr.val v) }, ?_,
        set_step hI (Ptr.val v) hf (by simp [hp]) (by simp)⟩
      simp [SyncMap.Swap, hr, entry.trySwap, hp, hv, load_val hp, previousOf]
    | expunged =>
      obtain ⟨l, hd, hI2⟩ := InvCore_unexpunge hI.1 hr hp
      have hlt := hI.1.read_bound k e hr
      have hM : MissesOK ({ m with dirty := GoMap.mk (insertKey l k e),
                                   heap := m.heap.set e Ptr.nil } : SyncMap K V) := by
        refine ⟨fun h => by simp at h, fun _ => ?_⟩
        have h1 := hI.2.2 (by simp [hd])
        have h2 := length_insertKey_ge l k e
        simp only [hd, GoMap.len] at h1
        simp only [GoMap.len]
        omega
      have hf2 := (view_unexpunge hr hp l hd k).1
      rw [hf] at hf2
      have hp2 : entry.p (m.heap.set e Ptr.nil) e = Ptr.nil := by
        rw [p_set]
        simp [hlt]
      have hs := set_step ⟨hI2, hM⟩ (Ptr.val v) hf2 (by rw [hp2]; simp) (by simp)
      refine ⟨_, ?_, hs.1, fun k1 => ?_⟩
      · simp [SyncMap.Swap, SyncMap.swapSlow, hr, entry.trySwap, hp, hv, load_expunged hp,
          entry.unexpungeLocked, entry.swapLocked, hd, GoMap.set, hp2, previousOf]
      · rw [hs.2 k1, (view_unexpunge hr hp l hd k1).2]
        rfl
  | none =>
    cases hdk : m.dirty.get k with
    | some e =>
      have hf : m.find k = some e := by rw [find_dirty hI.1 hr, hdk]
      have hv := view_of_find (V := V) hf
      have hl := (find_live hI.1 hr hf).1
      cases hp : entry.p m.heap e with
      | expunged => exact absurd hp hl
      | nil =>
        refine ⟨{ m with heap := m.heap.set e (Ptr.val v) }, ?_,
          set_step hI (Ptr.val v) hf (by simp [hp]) (by simp)⟩
        simp [SyncMap.Swap, SyncMap.swapSlow, hr, hdk, entry.swapLocked, hp, hv, load_nil hp,
          previousOf]
      | val x =>
        refine ⟨{ m with heap := m.heap.set e (Ptr.val v) }, ?_,
          set_step hI (Ptr.val v) hf (by simp [hp]) (by simp)⟩
        simp [SyncMap.Swap, SyncMap.swapSlow, hr, hdk, entry.swapLocked, hp, hv, load_val hp,
          previousOf]
    | none =>
      have hf : m.find k = none := by rw [find_dirty hI.1 hr, hdk]
      have hv := view_of_find_none (V := V) hf
      obtain ⟨m1, h1, h2, h3⟩ := storeNew_spec hI v hr
      refine ⟨m1, ?_, h2, h3⟩
      simp [SyncMap.Swap, SyncMap.swapSlow, hr, hdk, h1, hv]

theorem Load_snd [Inhabited V] (m : SyncMap K V) (k : K) :
    (m.Load k).2 =
      if m.loadReadOnly.m.get k = none ∧ m.loadReadOnly.amended = true then m.missLocked
      else m := by
  cases hr : m.loadReadOnly.m.get k with
  | some e => simp [SyncMap.Load, hr]
  | none =>
    by_cases ha : m.loadReadOnly.amended = true
    · simp only [SyncMap.Load, hr, ha, if_true, and_self]
      cases m.dirty.get k <;> rfl
    · simp [SyncMap.Load, hr, ha]

theorem Load_spec [Inhabited V] {m : SyncMap K V} (hI : Inv m) (k : K) :
    Inv (m.Load k).2 ∧ ∀ k1, (m.Load k).2.view k1 = m.view k1 := by
  rw [Load_snd]
  by_cases hc : m.loadReadOnly.m.get k = none ∧ m.loadReadOnly.amended = true
  · rw [if_pos hc]
    exact ⟨Inv_missLocked hI.1, view_missLocked hI.1 (hI.1.amended_iff.1 hc.2)⟩
  · rw [if_neg hc]
    exact ⟨hI, fun _ => rfl⟩

theorem LoadOrStore_spec [Inhabited V] {m : SyncMap K V} (hI : Inv m) (k : K) (v : V) :
    ∃ m1, m.LoadOrStore k v =
        some ((if (m.view k).2 = true then (m.view k).1 else v, (m.view k).2), m1) ∧
      Inv m1 ∧
      ∀ k1, m1.view k1 =
        if k1 = k then (if (m.view k).2 = true then (m.view k).1 else v, true)
        else m.view k1 := by
  cases hr : m.loadReadOnly.m.get k with
  | some e =>
    have hf := find_read hr
    have hv := view_of_find (V := V) hf
    cases hp : entry.p m.heap e with
    | nil =>
      have hs := set_step hI (Ptr.val v) hf (by simp [hp]) (by simp)
      refine ⟨{ m with heap := m.heap.set e (Ptr.val v) }, ?_, hs.1, fun k1 => ?_⟩
      · simp [SyncMap.LoadOrStore, hr, entry.tryLoadOrStore, hp, hv, load_nil hp]
      · rw [hs.2 k1, hv, load_nil hp]
        rfl
    | val x =>
      refine ⟨m, ?_, hI, fun k1 => ?_⟩
      · simp [SyncMap.LoadOrStore, hr, entry.tryLoadOrStore, hp, hv, load_val hp]
      · by_cases hk : k1 = k
        · subst hk
          simp [hv, load_val hp]
        · simp [hk]
    | expunged =>
      obtain ⟨l, hd, hI2⟩ := InvCore_unexpunge hI.1 hr hp
      have hlt := hI.1.read_bound k e hr
      have hM : MissesOK ({ m with dirty := GoMap.mk (insertKey l k e),
                                   heap := m.heap.set e Ptr.nil } : SyncMap K V) := by
        refine ⟨fun h => by simp at h, fun _ => ?_⟩
        have h1 := hI.2.2 (by simp [hd])
        have h2 := length_insertKey_ge l k e
        simp only [hd, GoMap.len] at h1
        simp only [GoMap.len]
        omega
      have hf2 := (view_unexpunge hr hp l hd k).1
      rw [hf] at hf2
      have hp2 : entry.p (m.heap.set e Ptr.nil) e = Ptr.nil := by
        rw [p_set]
        simp [hlt]
      have hs := set_step ⟨hI2, hM⟩ (Ptr.val v) hf2 (by rw [hp2]; simp) (by simp)
      refine ⟨_, ?_, hs.1, fun k1 => ?_⟩
      · simp [SyncMap.LoadOrStore, SyncMap.loadOrStoreSlow, hr, entry.tryLoadOrStore, hp, hv,
          load_expunged hp, entry.unexpungeLocked, hd, GoMap.set, hp2]
      · rw [hs.2 k1, (view_unexpunge hr hp l hd k1).2, hv, load_expunged hp]
        rfl
  | none =>
    cases hdk : m.dirty.get k with
    | some e =>
      have hf : m.find k = some e := by rw [find_dirty hI.1 hr, hdk]
      have hv := view_of_find (V := V) hf
      have hl := find_live hI.1 hr hf
      cases hp : entry.p m.heap e with
      | expunged => exact absurd hp hl.1
      | nil =>
        have hs := set_step hI (Ptr.val v) hf (by simp [hp]) (by simp)
        refine ⟨({ m with heap := m.heap.set e (Ptr.val v) } : SyncMap K V).missLocked, ?_,
          Inv_missLocked hs.1.1, fun k1 => ?_⟩
        · simp [SyncMap.LoadOrStore, SyncMap.loadOrStoreSlow, hr, hdk, entry.tryLoadOrStore,
            hp, hv, load_nil hp]
        · rw [view_missLocked hs.1.1 hl.2, hs.2 k1, hv, load_nil hp]
          rfl
      | val x =>
        refine ⟨m.missLocked, ?_, Inv_missLocked hI.1, fun k1 => ?_⟩
        · simp [SyncMap.LoadOrStore, SyncMap.loadOrStoreSlow, hr, hdk, entry.tryLoadOrStore,
            hp, hv, load_val hp]
        · rw [view_missLocked hI.1 hl.2]
          by_cases hk : k1 = k
          · subst hk
            simp [hv, load_val hp]
          · simp [hk]
    | none =>
      have hf : m.find k = none := by rw [find_dirty hI.1 hr, hdk]
      have hv := view_of_find_none (V := V) hf
      obtain ⟨m1, h1, h2, h3⟩ := storeNew_spec hI v hr
      refine ⟨m1, ?_, h2, fun k1 => ?_⟩
      · simp [SyncMap.LoadOrStore, SyncMap.loadOrStoreSlow, hr, hdk, h1, hv]
      · rw [h3 k1, hv]
        rfl

theorem missLocked_heap (m : SyncMap K V) (h1 : List (Ptr V)) :
    ({ m.missLocked with heap := h1 } : SyncMap K V) =
      ({ m with heap := h1 } : SyncMap K V).missLocked := by
  simp only [SyncMap.missLocked]
  split <;> rfl

theorem view_delete [Inhabited V] {m : SyncMap K V} {k : K}
    (hr : m.loadReadOnly.m.get k = none) (k1 : K) :
    ({ m with dirty := m.dirty.delete k } : SyncMap K V).view k1 =
      if k1 = k then (default, false) else m.view k1 := by
  have hf : ({ m with dirty := m.dirty.delete k } : SyncMap K V).find k1 =
      if k1 = k then none else m.find k1 := by
    show (match m.loadReadOnly.m.get k1 with
      | some e => some e
      | none => if m.loadReadOnly.amended = true then (m.dirty.delete k).get k1 else none) =
      if k1 = k then none else
        (match m.loadReadOnly.m.get k1 with
        | some e => some e
        | none => if m.loadReadOnly.amended = true then m.dirty.get k1 else none)
    have hg : (m.dirty.delete k).get k1 = if k = k1 then none else m.dirty.get k1 := by
      cases m.dirty with
      | nil => simp [GoMap.delete, GoMap.get]
      | mk l => simp [GoMap.delete, GoMap.get, lookupKey_deleteKey]
    rw [hg]
    by_cases hk : k1 = k
    · subst hk
      simp [hr]
    · have hk1 : ¬ k = k1 := fun h => hk h.symm
      simp [hk, hk1]
  have hh : ({ m with dirty := m.dirty.delete k } : SyncMap K V).heap = m.heap := rfl
  unfold SyncMap.view
  rw [hf, hh]
  by_cases hk : k1 = k <;> simp [hk]

theorem delete_ne_nil {g : GoMap K} (k : K) (h : g ≠ GoMap.nil) : g.delete k ≠ GoMap.nil := by
  cases g with
  | nil => exact absurd rfl h
  | mk l => simp [GoMap.delete]

theorem LoadAndDelete_spec [Inhabited V] {m : SyncMap K V} (hI : Inv m) (k : K) :
    (m.LoadAndDelete k).1 = m.view k ∧ Inv (m.LoadAndDelete k).2 ∧
      ∀ k1, (m.LoadAndDelete k).2.view k1 = if k1 = k then (default, false) else m.view k1 := by
  cases hr : m.loadReadOnly.m.get k with
  | some e =>
    have hf := find_read hr
    have hv := view_of_find (V := V) hf
    cases hp : entry.p m.heap e with
    | val x =>
      have hs := set_step hI Ptr.nil hf (by simp [hp]) (by simp)
      have h1 : m.LoadAndDelete k =
          ((x, true), ({ m with heap := m.heap.set e Ptr.nil } : SyncMap K V)) := by
        simp [SyncMap.LoadAndDelete, hr, entry.delete, hp]
      rw [h1]
      exact ⟨by rw [hv, load_val hp], hs.1, fun k1 => by rw [hs.2 k1]; rfl⟩
    | nil =>
      have h1 : m.LoadAndDelete k = ((default, false), m) := by
        simp [SyncMap.LoadAndDelete, hr, entry.delete, hp]
      rw [h1]
      refine ⟨by rw [hv, load_nil hp], hI, fun k1 => ?_⟩
      by_cases hk : k1 = k
      · subst hk
        simp [hv, load_nil hp]
      · simp [hk]
    | expunged =>
      have h1 : m.LoadAndDelete k = ((default, false), m) := by
        simp [SyncMap.LoadAndDelete, hr, entry.delete, hp]
      rw [h1]
      refine ⟨by rw [hv, load_expunged hp], hI, fun k1 => ?_⟩
      by_cases hk : k1 = k
      · subst hk
        simp [hv, load_expunged hp]
      · simp [hk]
  | none =>
    by_cases ha : m.loadReadOnly.amended = true
    · have hne := hI.1.amended_iff.1 ha
      cases hdk : m.dirty.get k with
      | none =>
        have hf : m.find k = none := by rw [find_dirty hI.1 hr, hdk]
        have hv := view_of_find_none (V := V) hf
        have hI2 := InvCore_delete hI.1 k hr
        have h1 : m.LoadAndDelete k =
            ((default, false), ({ m with dirty := m.dirty.delete k } : SyncMap K V).missLocked) := by
          simp [SyncMap.LoadAndDelete, hr, ha, hdk]
        rw [h1]
        refine ⟨hv.symm, Inv_missLocked hI2, fun k1 => ?_⟩
        rw [view_missLocked hI2 (delete_ne_nil k hne), view_delete hr]
      | some e =>
        have hf : m.find k = some e := by rw [find_dirty hI.1 hr, hdk]
        have hv := view_of_find (V := V) hf
        have hl := find_live hI.1 hr hf
        cases hp : entry.p m.heap e with
        | expunged => exact absurd hp hl.1
        | nil =>
          have hI2 := InvCore_delete hI.1 k hr
          have h0 : entry.p ({ m with dirty := m.dirty.delete k } : SyncMap K V).missLocked.heap e
              = Ptr.nil := by
            rw [missLocked_eq]
            split <;> exact hp
          have h1 : m.LoadAndDelete k =
              ((default, false),
                ({ m with dirty := m.dirty.delete k } : SyncMap K V).missLocked) := by
            simp [SyncMap.LoadAndDelete, hr, ha, hdk, entry.delete, h0]
          rw [h1]
          refine ⟨by rw [hv, load_nil hp], Inv_missLocked hI2, fun k1 => ?_⟩
          rw [view_missLocked hI2 (delete_ne_nil k hne), view_delete hr]
        | val x =>
          have hs := set_step hI Ptr.nil hf (by simp [hp]) (by simp)
          have hr2 : ({ m with heap := m.heap.set e Ptr.nil } : SyncMap K V).loadReadOnly.m.get k
              = none := hr
          have hI2 := InvCore_delete hs.1.1 k hr2
          have h0 : entry.p ({ m with dirty := m.dirty.delete k } : SyncMap K V).missLocked.heap e
              = Ptr.val x := by
            rw [missLocked_eq]
            split <;> exact hp
          have hh : ({ m with dirty := m.dirty.delete k } : SyncMap K V).missLocked.heap
              = m.heap := by
            rw [missLocked_eq]
            split <;> rfl
          have h1 : m.LoadAndDelete k =
              ((x, true),
                ({ ({ m with dirty := m.dirty.delete k } : SyncMap K V).missLocked with
                    heap := m.heap.set e Ptr.nil } : SyncMap K V)) := by
            simp [SyncMap.LoadAndDelete, hr, ha, hdk, entry.delete, h0, hh, hp]
          rw [h1, missLocked_heap]
          refine ⟨by rw [hv, load_val hp], Inv_missLocked hI2, fun k1 => ?_⟩
          rw [view_missLocked hI2 (delete_ne_nil k hne), view_delete hr2, hs.2 k1]
          by_cases hk : k1 = k <;> simp [hk]
    · have hd : m.dirty = GoMap.nil := by
        by_contra h
        exact ha (hI.1.amended_iff.2 h)
      have hf : m.find k = none := by
        rw [find_dirty hI.1 hr, hd]
        rfl
      have hv := view_of_find_none (V := V) hf
      have h1 : m.LoadAndDelete k = ((default, false), m) := by
        simp [SyncMap.LoadAndDelete, hr, ha]
      rw [h1]
      refine ⟨hv.symm, hI, fun k1 => ?_⟩
      by_cases hk : k1 = k
      · subst hk
        simp [hv]
      · simp [hk]

theorem load_eq_true_iff [Inhabited V] (h : List (Ptr V)) (e : Nat) (x : V) :
    entry.load h e = (x, true) ↔ entry.p h e = Ptr.val x := by
  unfold entry.load
  cases entry.p h e <;> simp

theorem tryCompareAndSwap_hit [DecidableEq V] {h : List (Ptr V)} {e : Nat} {old : V} (new : V)
    (hp : entry.p h e = Ptr.val old) :
    entry.tryCompareAndSwap h e old new = (true, h.set e (Ptr.val new)) := by
  simp [entry.tryCompareAndSwap, hp]

theorem tryCompareAndSwap_miss [DecidableEq V] {h : List (Ptr V)} {e : Nat} {old : V} (new : V)
    (hp : entry.p h e ≠ Ptr.val old) :
    entry.tryCompareAndSwap h e old new = (false, h) := by
  unfold entry.tryCompareAndSwap
  cases hq : entry.p h e with
  | nil => rfl
  | expunged => rfl
  | val x =>
    have : ¬ x = old := fun hx => hp (by rw [hq, hx])
    simp [this]

theorem missLocked_heap_eq (m : SyncMap K V) : m.missLocked.heap = m.heap := by
  rw [missLocked_eq]
  split <;> rfl

theorem CompareAndSwap_spec [DecidableEq V] [Inhabited V] {m : SyncMap K V} (hI : Inv m)
    (k : K) (old new : V) :
    ((m.CompareAndSwap k old new).1 = true ↔ m.view k = (old, true)) ∧
      Inv (m.CompareAndSwap k old new).2 ∧
      ∀ k1, (m.CompareAndSwap k old new).2.view k1 =
        if k1 = k ∧ m.view k = (old, true) then (new, true) else m.view k1 := by
  cases hr : m.loadReadOnly.m.get k with
  | some e =>
    have hf := find_read hr
    have hv := view_of_find (V := V) hf
    by_cases hc : entry.p m.heap e = Ptr.val old
    · have hs := set_step hI (Ptr.val new) hf (by simp [hc]) (by simp)
      have h1 : m.CompareAndSwap k old new =
          (true, ({ m with heap := m.heap.set e (Ptr.val new) } : SyncMap K V)) := by
        simp [SyncMap.CompareAndSwap, hr, tryCompareAndSwap_hit new hc]
      have hvk : m.view k = (old, true) := by rw [hv, load_val hc]
      rw [h1]
      refine ⟨by simp [hvk], hs.1, fun k1 => ?_⟩
      rw [hs.2 k1]
      by_cases hk : k1 = k <;> simp [hk, hvk, entry.load, entry.p]
    · have h1 : m.CompareAndSwap k old new = (false, m) := by
        simp [SyncMap.CompareAndSwap, hr, tryCompareAndSwap_miss new hc]
      have hvk : ¬ m.view k = (old, true) := by
        rw [hv, load_eq_true_iff]
        exact hc
      rw [h1]
      exact ⟨by simp [hvk], hI, fun k1 => by simp [hvk]⟩
  | none =>
    by_cases ha : m.loadReadOnly.amended = true
    · have hne := hI.1.amended_iff.1 ha
      cases hdk : m.dirty.get k with
      | none =>
        have hf : m.find k = none := by rw [find_dirty hI.1 hr, hdk]
        have hv := view_of_find_none (V := V) hf
        have h1 : m.CompareAndSwap k old new = (false, m) := by
          simp [SyncMap.CompareAndSwap, hr, ha, hdk]
        rw [h1]
        exact ⟨by simp [hv], hI, fun k1 => by simp [hv]⟩
      | some e =>
        have hf : m.find k = some e := by rw [find_dirty hI.1 hr, hdk]
        have hv := view_of_find (V := V) hf
        by_cases hc : entry.p m.heap e = Ptr.val old
        · have hs := set_step hI (Ptr.val new) hf (by simp [hc]) (by simp)
          have h1 : m.CompareAndSwap k old new =
              (true, ({ m with heap := m.heap.set e (Ptr.val new) } : SyncMap K V).missLocked) := by
            simp [SyncMap.CompareAndSwap, hr, ha, hdk, tryCompareAndSwap_hit new hc]
          have hvk : m.view k = (old, true) := by rw [hv, load_val hc]
          rw [h1]
          refine ⟨by simp [hvk], Inv_missLocked hs.1.1, fun k1 => ?_⟩
          rw [view_missLocked hs.1.1 hne, hs.2 k1]
          by_cases hk : k1 = k <;> simp [hk, hvk, entry.load, entry.p]
        · have h1 : m.CompareAndSwap k old new = (false, m.missLocked) := by
            simp [SyncMap.CompareAndSwap, hr, ha, hdk, tryCompareAndSwap_miss new hc]
          have hvk : ¬ m.view k = (old, true) := by
            rw [hv, load_eq_true_iff]
            exact hc
          rw [h1]
          refine ⟨by simp [hvk], Inv_missLocked hI.1, fun k1 => ?_⟩
          rw [view_missLocked hI.1 hne]
          simp [hvk]
    · have hd : m.dirty = GoMap.nil := by
        by_contra h
        exact ha (hI.1.amended_iff.2 h)
      have hf : m.find k = none := by
        rw [find_dirty hI.1 hr, hd]
        rfl
      have hv := view_of_find_none (V := V) hf
      have h1 : m.CompareAndSwap k old new = (false, m) := by
        simp [SyncMap.CompareAndSwap, hr, ha]
      rw [h1]
      exact ⟨by simp [hv], hI, fun k1 => by simp [hv]⟩

theorem CompareAndDelete_spec [DecidableEq V] [Inhabited V] {m : SyncMap K V} (hI : Inv m)
    (k : K) (old : V) :
    ((m.CompareAndDelete k old).1 = true ↔ m.view k = (old, true)) ∧
      Inv (m.CompareAndDelete k old).2 ∧
      ∀ k1, (m.CompareAndDelete k old).2.view k1 =
        if k1 = k ∧ m.view k = (old, true) then (default, false) else m.view k1 := by
  cases hr : m.loadReadOnly.m.get k with
  | some e =>
    have hf := find_read hr
    have hv := view_of_find (V := V) hf
    by_cases hc : entry.p m.heap e = Ptr.val old
    · have hs := set_step hI Ptr.nil hf (by simp [hc]) (by simp)
      have h1 : m.CompareAndDelete k old =
          (true, ({ m with heap := m.heap.set e Ptr.nil } : SyncMap K V)) := by
        simp [SyncMap.CompareAndDelete, hr, hc]
      have hvk : m.view k = (old, true) := by rw [hv, load_val hc]
      rw [h1]
      refine ⟨by simp [hvk], hs.1, fun k1 => ?_⟩
      rw [hs.2 k1]
      by_cases hk : k1 = k <;> simp [hk, hvk, entry.load, entry.p]
    · have h1 : m.CompareAndDelete k old = (false, m) := by
        simp only [SyncMap.CompareAndDelete, hr]
        cases hq : entry.p m.heap e with
        | nil => rfl
        | expunged => rfl
        | val x =>
          have : ¬ x = old := fun hx => hc (by rw [hq, hx])
          simp [this]
      have hvk : ¬ m.view k = (old, true) := by
        rw [hv, load_eq_true_iff]
        exact hc
      rw [h1]
      exact ⟨by simp [hvk], hI, fun k1 => by simp [hvk]⟩
  | none =>
    by_cases ha : m.loadReadOnly.amended = true
    · have hne := hI.1.amended_iff.1 ha
      cases hdk : m.dirty.get k with
      | none =>
        have hf : m.find k = none := by rw [find_dirty hI.1 hr, hdk]
        have hv := view_of_find_none (V := V) hf
        have h1 : m.CompareAndDelete k old = (false, m.missLocked) := by
          simp [SyncMap.CompareAndDelete, hr, ha, hdk]
        rw [h1]
        refine ⟨by simp [hv], Inv_missLocked hI.1, fun k1 => ?_⟩
        rw [view_missLocked hI.1 hne]
        simp [hv]
      | some e =>
        have hf : m.find k = some e := by rw [find_dirty hI.1 hr, hdk]
        have hv := view_of_find (V := V) hf
        by_cases hc : entry.p m.heap e = Ptr.val old
        · have hs := set_step hI Ptr.nil hf (by simp [hc]) (by simp)
          have h1 : m.CompareAndDelete k old =
              (true, ({ m.missLocked with heap := m.heap.set e Ptr.nil } : SyncMap K V)) := by
            simp [SyncMap.CompareAndDelete, hr, ha, hdk, missLocked_heap_eq, hc]
          have hvk : m.view k = (old, true) := by rw [hv, load_val hc]
          rw [h1, missLocked_heap]
          refine ⟨by simp [hvk], Inv_missLocked hs.1.1, fun k1 => ?_⟩
          rw [view_missLocked hs.1.1 hne, hs.2 k1]
          by_cases hk : k1 = k <;> simp [hk, hvk, entry.load, entry.p]
        · have h1 : m.CompareAndDelete k old = (false, m.missLocked) := by
            simp only [SyncMap.CompareAndDelete, hr, ha, if_true, hdk, missLocked_heap_eq]
            cases hq : entry.p m.heap e with
            | nil => rfl
            | expunged => rfl
            | val x =>
              have : ¬ x = old := fun hx => hc (by rw [hq, hx])
              simp [this]
          have hvk : ¬ m.view k = (old, true) := by
            rw [hv, load_eq_true_iff]
            exact hc
          rw [h1]
          refine ⟨by simp [hvk], Inv_missLocked hI.1, fun k1 => ?_⟩
          rw [view_missLocked hI.1 hne]
          simp [hvk]
    · have hd : m.dirty = GoMap.nil := by
        by_contra h
        exact ha (hI.1.amended_iff.2 h)
      have hf : m.find k = none := by
        rw [find_dirty hI.1 hr, hd]
        rfl
      have hv := view_of_find_none (V := V) hf
      have h1 : m.CompareAndDelete k old = (false, m) := by
        simp [SyncMap.CompareAndDelete, hr, ha]
      rw [h1]
      exact ⟨by simp [hv], hI, fun k1 => by simp [hv]⟩

theorem Range_snd [Inhabited V] (m : SyncMap K V) (order : List (K × Nat) → List (K × Nat))
    (f : K → V → Bool) :
    (m.Range order f).2 = if m.loadReadOnly.amended = true then m.promoted else m := by
  by_cases ha : m.loadReadOnly.amended = true
  · simp only [SyncMap.Range, ha, if_true]
    rfl
  · simp only [SyncMap.Range, ha, if_false]
    rfl

theorem Range_fst [Inhabited V] (m : SyncMap K V) (order : List (K × Nat) → List (K × Nat))
    (f : K → V → Bool) :
    (m.Range order f).1 =
      rangeLoop m.heap f (order (m.Range order f).2.loadReadOnly.m.entries) := by
  by_cases ha : m.loadReadOnly.amended = true
  · simp only [SyncMap.Range, ha, if_true]
    rfl
  · simp only [SyncMap.Range, ha, if_false]
    rfl

theorem Range_spec [Inhabited V] {m : SyncMap K V} (hI : Inv m)
    (order : List (K × Nat) → List (K × Nat)) (f : K → V → Bool) :
    Inv (m.Range order f).2 ∧ (m.Range order f).2.loadReadOnly.amended = false ∧
      ∀ k, (m.Range order f).2.view k = m.view k := by
  rw [Range_snd]
  by_cases ha : m.loadReadOnly.amended = true
  · rw [if_pos ha]
    exact ⟨⟨InvCore_promoted hI.1, fun _ => rfl, fun h => absurd rfl h⟩, rfl,
      view_promoted hI.1 (hI.1.amended_iff.1 ha)⟩
  · rw [if_neg ha]
    refine ⟨hI, ?_, fun _ => rfl⟩
    cases h : m.loadReadOnly.amended with
    | false => rfl
    | true => exact absurd h ha

theorem rangeLoop_true_cons [Inhabited V] (h : List (Ptr V)) (k0 : K) (e0 : Nat)
    (t : List (K × Nat)) :
    rangeLoop h (fun _ _ => true) ((k0, e0) :: t) =
      if (entry.load h e0).2 = true
      then (k0, (entry.load h e0).1) :: rangeLoop h (fun _ _ => true) t
      else rangeLoop h (fun _ _ => true) t := by
  simp [rangeLoop]

theorem rangeLoop_true_mem [Inhabited V] (h : List (Ptr V)) (l : List (K × Nat)) (k : K)
    (v : V) :
    (k, v) ∈ rangeLoop h (fun _ _ => true) l ↔ ∃ e, (k, e) ∈ l ∧ entry.load h e = (v, true) := by
  induction l with
  | nil => simp [rangeLoop]
  | cons a t ih =>
    obtain ⟨k0, e0⟩ := a
    rw [rangeLoop_true_cons]
    by_cases hl : (entry.load h e0).2 = true
    · rw [if_pos hl]
      simp only [List.mem_cons, Prod.mk.injEq, ih]
      constructor
      · rintro (⟨h1, h2⟩ | ⟨e, h1, h2⟩)
        · exact ⟨e0, Or.inl ⟨h1, rfl⟩, by rw [h2, ← hl]⟩
        · exact ⟨e, Or.inr h1, h2⟩
      · rintro ⟨e, (⟨h1, h2⟩ | h1), h3⟩
        · subst h2
          left
          rw [h3]
          exact ⟨h1, rfl⟩
        · exact Or.inr ⟨e, h1, h3⟩
    · rw [if_neg hl]
      simp only [List.mem_cons, Prod.mk.injEq, ih]
      constructor
      · rintro ⟨e, h1, h2⟩
        exact ⟨e, Or.inr h1, h2⟩
      · rintro ⟨e, (⟨_, h2⟩ | h1), h3⟩
        · subst h2
          rw [h3] at hl
          exact absurd rfl hl
        · exact ⟨e, h1, h3⟩

theorem rangeLoop_true_sublist [Inhabited V] (h : List (Ptr V)) (l : List (K × Nat)) :
    ((rangeLoop h (fun _ _ => true) l).map Prod.fst).Sublist (l.map Prod.fst) := by
  induction l with
  | nil => simp [rangeLoop]
  | cons a t ih =>
    obtain ⟨k0, e0⟩ := a
    rw [rangeLoop_true_cons]
    by_cases hl : (entry.load h e0).2 = true
    · rw [if_pos hl]
      exact ih.cons₂ _
    · rw [if_neg hl]
      exact ih.cons _

theorem Inv_NewSyncMap : Inv (NewSyncMap : SyncMap K V) := by
  refine ⟨⟨by simp [NewSyncMap, SyncMap.loadReadOnly], ?_, ?_, ?_, ?_, ?_, ?_, ?_, ?_, ?_⟩,
    fun _ => rfl, fun h => absurd rfl h⟩
  all_goals simp [NewSyncMap, SyncMap.loadReadOnly, GoMap.get, GoMap.entries]

theorem Inv_of_Reachable [DecidableEq V] [Inhabited V] {m : SyncMap K V}
    (h : Reachable m) : Inv m := by
  induction h with
  | init => exact Inv_NewSyncMap
  | step op _ hrun ih =>
    cases op with
    | Load key =>
      simp only [Op.run, Option.some.injEq] at hrun
      subst hrun
      exact (Load_spec ih key).1
    | Store key value =>
      obtain ⟨m1, h1, h2, _⟩ := Swap_spec ih key value
      simp only [Op.run, SyncMap.Store, h1, Option.some.injEq] at hrun
      subst hrun
      exact h2
    | LoadOrStore key value =>
      obtain ⟨m1, h1, h2, _⟩ := LoadOrStore_spec ih key value
      simp only [Op.run, h1, Option.map_some', Option.some.injEq] at hrun
      subst hrun
      exact h2
    | LoadAndDelete key =>
      simp only [Op.run, Option.some.injEq] at hrun
      subst hrun
      exact (LoadAndDelete_spec ih key).2.1
    | Delete key =>
      simp only [Op.run, SyncMap.Delete, Option.some.injEq] at hrun
      subst hrun
      exact (LoadAndDelete_spec ih key).2.1
    | Swap key value =>
      obtain ⟨m1, h1, h2, _⟩ := Swap_spec ih key value
      simp only [Op.run, h1, Option.map_some', Option.some.injEq] at hrun
      subst hrun
      exact h2
    | CompareAndSwap key old new =>
      simp only [Op.run, Option.some.injEq] at hrun
      subst hrun
      exact (CompareAndSwap_spec ih key old new).2.1
    | CompareAndDelete key old =>
      simp only [Op.run, Option.some.injEq] at hrun
      subst hrun
      exact (CompareAndDelete_spec ih key old).2.1
    | Range order f =>
      simp only [Op.run, Option.some.injEq] at hrun
      subst hrun
      exact (Range_spec ih order f).1

/-! ## Concrete runs -/

theorem Reachable_runOps [DecidableEq V] [Inhabited V] (ops : List (Op K V))
    {m m1 : SyncMap K V} (h : Reachable m) (hr : runOps ops m = some m1) : Reachable m1 := by
  induction ops generalizing m with
  | nil =>
    simp only [runOps, Option.some.injEq] at hr
    subst hr
    exact h
  | cons op ops ih =>
    simp only [runOps] at hr
    cases ho : op.run m with
    | none => simp [ho] at hr
    | some m2 =>
      rw [ho] at hr
      exact ih (Reachable.step op h ho) hr

theorem Reachable_exampleMap : Reachable exampleMap :=
  Reachable_runOps
    [Op.Store 1 10, Op.Store 2 20, Op.Load 3, Op.Load 4, Op.Delete 1, Op.Store 5 50]
    Reachable.init (by decide)

theorem Reachable_deletedMap : Reachable deletedMap :=
  Reachable_runOps [Op.Store 1 10, Op.Load 1, Op.Delete 1] Reachable.init (by decide)

theorem view_not_found [Inhabited V] {m : SyncMap K V} {k : K}
    (hv : (m.view k).2 = false) : m.view k = (default, false) := by
  cases hf : m.find k with
  | none => exact view_of_find_none hf
  | some e =>
    rw [view_of_find hf] at hv ⊢
    cases hp : entry.p m.heap e with
    | nil => exact load_nil hp
    | expunged => exact load_expunged hp
    | val x =>
      rw [load_val hp] at hv
      cases hv

/-! ## The contract of the map -/

/-- C1. In every map reachable from `NewSyncMap()` by public operations run one
after another, `Store(k, v)` succeeds and a `Load(k)` right after it returns
`(v, true)`, whatever the state of `k` was before. -/
theorem Store_then_Load [DecidableEq V] [Inhabited V] (m : SyncMap K V) (h : Reachable m)
    (k : K) (v : V) : ∃ m1, m.Store k v = some m1 ∧ (m1.Load k).1 = (v, true) := by
  obtain ⟨m1, h1, _, h3⟩ := Swap_spec (Inv_of_Reachable h) k v
  refine ⟨m1, by simp [SyncMap.Store, h1], ?_⟩
  rw [Load_fst, h3 k]
  simp

/-- C1 on `exampleMap`, for the key 1, whose entry is expunged. -/
theorem Store_then_Load_witness :
    Reachable exampleMap ∧
      ∃ m1, exampleMap.Store 1 7 = some m1 ∧ (m1.Load 1).1 = (7, true) :=
  ⟨Reachable_exampleMap, Store_then_Load exampleMap Reachable_exampleMap 1 7⟩

/-- C2. In every reachable map, `CompareAndSwap(k, old, new)` returns true
exactly when `Load(k)` before the call returns `(old, true)`; when it returns
true a following `Load(k)` returns `(new, true)`; when it returns false every
`Load(k1)` returns after the call what it returned before it. -/
theorem CompareAndSwap_correct [DecidableEq V] [Inhabited V] (m : SyncMap K V)
    (h : Reachable m) (k : K) (old new : V) :
    ((m.CompareAndSwap k old new).1 = true ↔ (m.Load k).1 = (old, true)) ∧
    ((m.CompareAndSwap k old new).1 = true →
      ((m.CompareAndSwap k old new).2.Load k).1 = (new, true)) ∧
    ((m.CompareAndSwap k old new).1 = false →
      ∀ k1, ((m.CompareAndSwap k old new).2.Load k1).1 = (m.Load k1).1) := by
  obtain ⟨h1, _, h3⟩ := CompareAndSwap_spec (Inv_of_Reachable h) k old new
  simp only [Load_fst]
  refine ⟨h1, fun ht => ?_, fun hf k1 => ?_⟩
  · rw [h3 k, if_pos ⟨rfl, h1.1 ht⟩]
  · rw [h3 k1, if_neg]
    rintro ⟨_, hv⟩
    rw [h1.2 hv] at hf
    cases hf

/-- C2 on `exampleMap`, for the key 5, which only the dirty map holds. -/
theorem CompareAndSwap_correct_witness :
    Reachable exampleMap ∧
    ((exampleMap.CompareAndSwap 5 50 51).1 = true ↔ (exampleMap.Load 5).1 = (50, true)) ∧
    ((exampleMap.CompareAndSwap 5 50 51).1 = true →
      ((exampleMap.CompareAndSwap 5 50 51).2.Load 5).1 = (51, true)) ∧
    ((exampleMap.CompareAndSwap 5 50 51).1 = false →
      ∀ k1, ((exampleMap.CompareAndSwap 5 50 51).2.Load k1).1 = (exampleMap.Load k1).1) :=
  ⟨Reachable_exampleMap, CompareAndSwap_correct exampleMap Reachable_exampleMap 5 50 51⟩

/-- C3. In every reachable map in which `Load(k)` returns `(v1, true)`,
`LoadOrStore(k, v2)` returns `(v1, true)` and a following `Load(k)` still
returns `(v1, true)`. -/
theorem LoadOrStore_hit [DecidableEq V] [Inhabited V] (m : SyncMap K V) (h : Reachable m)
    (k : K) (v1 v2 : V) (hl : (m.Load k).1 = (v1, true)) :
    ∃ m1, m.LoadOrStore k v2 = some ((v1, true), m1) ∧ (m1.Load k).1 = (v1, true) := by
  obtain ⟨m1, h1, _, h3⟩ := LoadOrStore_spec (Inv_of_Reachable h) k v2
  rw [Load_fst] at hl
  refine ⟨m1, ?_, ?_⟩
  · rw [h1, hl]
    rfl
  · rw [Load_fst, h3 k, hl]
    simp

/-- C3 on `exampleMap`, for the key 5, which holds 50. -/
theorem LoadOrStore_hit_witness :
    Reachable exampleMap ∧ (exampleMap.Load 5).1 = (50, true) ∧
      ∃ m1, exampleMap.LoadOrStore 5 7 = some ((50, true), m1) ∧ (m1.Load 5).1 = (50, true) :=
  ⟨Reachable_exampleMap, by decide,
    LoadOrStore_hit exampleMap Reachable_exampleMap 5 50 7 (by decide)⟩

/-- C4. In every reachable map in which `Load(k)` reports not found,
`LoadOrStore(k, v)` returns `(v, false)` and a following `Load(k)` returns
`(v, true)`. -/
theorem LoadOrStore_miss [DecidableEq V] [Inhabited V] (m : SyncMap K V) (h : Reachable m)
    (k : K) (v : V) (hl : (m.Load k).1.2 = false) :
    ∃ m1, m.LoadOrStore k v = some ((v, false), m1) ∧ (m1.Load k).1 = (v, true) := by
  obtain ⟨m1, h1, _, h3⟩ := LoadOrStore_spec (Inv_of_Reachable h) k v
  rw [Load_fst] at hl
  refine ⟨m1, ?_, ?_⟩
  · rw [h1, hl]
    rfl
  · rw [Load_fst, h3 k, hl]
    simp

/-- C4 on `exampleMap`, for the key 1, whose entry is expunged. -/
theorem LoadOrStore_miss_witness :
    Reachable exampleMap ∧ (exampleMap.Load 1).1.2 = false ∧
      ∃ m1, exampleMap.LoadOrStore 1 7 = some ((7, false), m1) ∧ (m1.Load 1).1 = (7, true) :=
  ⟨Reachable_exampleMap, by decide,
    LoadOrStore_miss exampleMap Reachable_exampleMap 1 7 (by decide)⟩

/-- C5, counterexample. After `Store(1,10); Load(1); Delete(1)` the key 1 has
an Absent entry that the snapshot still refers to, and `LoadOrStore(1, 7)`
returns `(7, false)`: loaded is false, not true. -/
theorem LoadOrStore_absent_not_loaded :
    Reachable deletedMap ∧ deletedMap.find 1 = some 0 ∧
      entry.p deletedMap.heap 0 = Ptr.nil ∧
      (deletedMap.LoadOrStore 1 7).map Prod.fst = some (7, false) :=
  ⟨Reachable_deletedMap, by decide, by decide, by decide⟩

/-- C5, as amended. In every reachable map in which the key `k` resolves to
an entry that is Absent (the nil pointer), `LoadOrStore(k, v)` stores `v` and
returns `(v, false)`: loaded is false, unlike for a Present entry; a
following `Load(k)` returns `(v, true)`. -/
theorem LoadOrStore_absent [DecidableEq V] [Inhabited V] (m : SyncMap K V) (h : Reachable m)
    (k : K) (v : V) (e : Nat) (hf : m.find k = some e) (hp : entry.p m.heap e = Ptr.nil) :
    ∃ m1, m.LoadOrStore k v = some ((v, false), m1) ∧ (m1.Load k).1 = (v, true) := by
  obtain ⟨m1, h1, _, h3⟩ := LoadOrStore_spec (Inv_of_Reachable h) k v
  have hv : m.view k = (default, false) := by rw [view_of_find hf, load_nil hp]
  refine ⟨m1, ?_, ?_⟩
  · rw [h1, hv]
    rfl
  · rw [Load_fst, h3 k, hv]
    simp

/-- C5 as amended, on `deletedMap`, for the key 1, whose entry is Absent. -/
theorem LoadOrStore_absent_witness :
    Reachable deletedMap ∧ deletedMap.find 1 = some 0 ∧
      entry.p deletedMap.heap 0 = Ptr.nil ∧
      ∃ m1, deletedMap.LoadOrStore 1 7 = some ((7, false), m1) ∧ (m1.Load 1).1 = (7, true) :=
  ⟨Reachable_deletedMap, by decide, by decide,
    LoadOrStore_absent deletedMap Reachable_deletedMap 1 7 0 (by decide) (by decide)⟩

/-- C6. In every reachable map, `LoadAndDelete(k)` returns the pair that
`Load(k)` returns just before the call, and a following `Load(k)` returns the
zero value and false. -/
theorem LoadAndDelete_correct [DecidableEq V] [Inhabited V] (m : SyncMap K V)
    (h : Reachable m) (k : K) :
    (m.LoadAndDelete k).1 = (m.Load k).1 ∧
      ((m.LoadAndDelete k).2.Load k).1 = (default, false) := by
  obtain ⟨h1, _, h3⟩ := LoadAndDelete_spec (Inv_of_Reachable h) k
  simp only [Load_fst]
  refine ⟨h1, ?_⟩
  rw [h3 k]
  simp

/-- C6 on `exampleMap`, for the key 5. -/
theorem LoadAndDelete_correct_witness :
    Reachable exampleMap ∧ (exampleMap.LoadAndDelete 5).1 = (exampleMap.Load 5).1 ∧
      ((exampleMap.LoadAndDelete 5).2.Load 5).1 = (default, false) :=
  ⟨Reachable_exampleMap, LoadAndDelete_correct exampleMap Reachable_exampleMap 5⟩

/-- C7. In every reachable map, `Delete(k)` of a key that `Load(k)` does not
find leaves the result of every `Load(k1)` as it was, and the results of all
`Load(k1)` after `Delete(k); Delete(k)` are those after one `Delete(k)`. -/
theorem Delete_idempotent [DecidableEq V] [Inhabited V] (m : SyncMap K V)
    (h : Reachable m) (k : K) :
    ((m.Load k).1.2 = false → ∀ k1, ((m.Delete k).Load k1).1 = (m.Load k1).1) ∧
      ∀ k1, (((m.Delete k).Delete k).Load k1).1 = ((m.Delete k).Load k1).1 := by
  have hI := Inv_of_Reachable h
  obtain ⟨h1, h2, h3⟩ := LoadAndDelete_spec hI k
  have key : ∀ (m0 : SyncMap K V), Inv m0 → (m0.view k).2 = false →
      ∀ k1, (m0.Delete k).view k1 = m0.view k1 := by
    intro m0 hI0 hv k1
    have h4 := (LoadAndDelete_spec hI0 k).2.2 k1
    have h5 := (LoadAndDelete_spec hI0 k).1
    simp only [SyncMap.Delete]
    rw [h4]
    by_cases hk : k1 = k
    · subst hk
      rw [if_pos rfl]
      exact (view_not_found hv).symm
    · rw [if_neg hk]
  simp only [Load_fst]
  refine ⟨fun hv k1 => key m hI hv k1, fun k1 => ?_⟩
  refine key (m.Delete k) h2 ?_ k1
  simp only [SyncMap.Delete]
  rw [h3 k]
  simp

/-- C7 on `exampleMap`, for the key 1, which `Load` does not find. -/
theorem Delete_idempotent_witness :
    Reachable exampleMap ∧
    ((exampleMap.Load 1).1.2 = false →
      ∀ k1, ((exampleMap.Delete 1).Load k1).1 = (exampleMap.Load k1).1) ∧
      ∀ k1, (((exampleMap.Delete 1).Delete 1).Load k1).1 = ((exampleMap.Delete 1).Load k1).1 :=
  ⟨Reachable_exampleMap, Delete_idempotent exampleMap Reachable_exampleMap 1⟩

/-- C8. In every reachable map, `CompareAndDelete(k, old)` returns true
exactly when `Load(k)` before the call returns `(old, true)`; when it returns
true a following `Load(k)` reports not found; when it returns false every
`Load(k1)` returns after the call what it returned before it. -/
theorem CompareAndDelete_correct [DecidableEq V] [Inhabited V] (m : SyncMap K V)
    (h : Reachable m) (k : K) (old : V) :
    ((m.CompareAndDelete k old).1 = true ↔ (m.Load k).1 = (old, true)) ∧
    ((m.CompareAndDelete k old).1 = true →
      ((m.CompareAndDelete k old).2.Load k).1 = (default, false)) ∧
    ((m.CompareAndDelete k old).1 = false →
      ∀ k1, ((m.CompareAndDelete k old).2.Load k1).1 = (m.Load k1).1) := by
  obtain ⟨h1, _, h3⟩ := CompareAndDelete_spec (Inv_of_Reachable h) k old
  simp only [Load_fst]
  refine ⟨h1, fun ht => ?_, fun hf k1 => ?_⟩
  · rw [h3 k, if_pos ⟨rfl, h1.1 ht⟩]
  · rw [h3 k1, if_neg]
    rintro ⟨_, hv⟩
    rw [h1.2 hv] at hf
    cases hf

/-- C8 on `exampleMap`, for the key 5, which holds 50. -/
theorem CompareAndDelete_correct_witness :
    Reachable exampleMap ∧
    ((exampleMap.CompareAndDelete 5 50).1 = true ↔ (exampleMap.Load 5).1 = (50, true)) ∧
    ((exampleMap.CompareAndDelete 5 50).1 = true →
      ((exampleMap.CompareAndDelete 5 50).2.Load 5).1 = (default, false)) ∧
    ((exampleMap.CompareAndDelete 5 50).1 = false →
      ∀ k1, ((exampleMap.CompareAndDelete 5 50).2.Load k1).1 = (exampleMap.Load k1).1) :=
  ⟨Reachable_exampleMap, CompareAndDelete_correct exampleMap Reachable_exampleMap 5 50⟩

/-- C9. In every reachable map, `Swap(k, v)` returns `(prev, true)` when
`Load(k)` before the call returns `(prev, true)`, and loaded = false (with the
nil interface as previous value) when `Load(k)` reports not found; in both
cases a following `Load(k)` returns `(v, true)`. -/
theorem Swap_correct [DecidableEq V] [Inhabited V] (m : SyncMap K V) (h : Reachable m)
    (k : K) (v : V) :
    (∀ prev, (m.Load k).1 = (prev, true) →
      ∃ m1, m.Swap k v = some ((some prev, true), m1) ∧ (m1.Load k).1 = (v, true)) ∧
    ((m.Load k).1.2 = false →
      ∃ m1, m.Swap k v = some ((none, false), m1) ∧ (m1.Load k).1 = (v, true)) := by
  obtain ⟨m1, h1, _, h3⟩ := Swap_spec (Inv_of_Reachable h) k v
  simp only [Load_fst]
  have h4 : m1.view k = (v, true) := by rw [h3 k, if_pos rfl]
  refine ⟨fun prev hv => ⟨m1, ?_, h4⟩, fun hv => ⟨m1, ?_, h4⟩⟩
  · rw [h1, hv]
    rfl
  · rw [h1, hv]
    rfl

/-- C9 on `exampleMap`, for the key 2, which both maps hold. -/
theorem Swap_correct_witness :
    Reachable exampleMap ∧
    (∀ prev, (exampleMap.Load 2).1 = (prev, true) →
      ∃ m1, exampleMap.Swap 2 7 = some ((some prev, true), m1) ∧ (m1.Load 2).1 = (7, true)) ∧
    ((exampleMap.Load 2).1.2 = false →
      ∃ m1, exampleMap.Swap 2 7 = some ((none, false), m1) ∧ (m1.Load 2).1 = (7, true)) :=
  ⟨Reachable_exampleMap, Swap_correct exampleMap Reachable_exampleMap 2 7⟩

/-- C10. In every reachable map, with a visitor that always returns true and
whatever the order in which the loop goes through the map, `Range` calls the
visitor exactly once for each key `k` for which `Load(k)` returns `(v, true)`,
with that `v`, and for no other key. -/
theorem Range_complete [DecidableEq V] [Inhabited V] (m : SyncMap K V) (h : Reachable m)
    (order : List (K × Nat) → List (K × Nat)) (ho : ∀ l, (order l).Perm l) :
    ((m.Range order (fun _ _ => true)).1.map Prod.fst).Nodup ∧
      ∀ k v, (k, v) ∈ (m.Range order (fun _ _ => true)).1 ↔ (m.Load k).1 = (v, true) := by
  have hI := Inv_of_Reachable h
  obtain ⟨h1, h2, h3⟩ := Range_spec hI order (fun _ _ => true)
  have hn := h1.1.read_nodup
  rw [Range_fst]
  constructor
  · exact ((ho _).map Prod.fst).nodup_iff.2 hn |>.sublist (rangeLoop_true_sublist _ _)
  · intro k v
    rw [rangeLoop_true_mem, Load_fst, ← h3 k]
    have hh : (m.Range order (fun _ _ => true)).2.heap = m.heap := by
      rw [Range_snd]
      split <;> rfl
    have hf : (m.Range order (fun _ _ => true)).2.find k =
        (m.Range order (fun _ _ => true)).2.loadReadOnly.m.get k := by
      simp only [SyncMap.find, h2]
      cases (m.Range order (fun _ _ => true)).2.loadReadOnly.m.get k <;> simp
    unfold SyncMap.view
    rw [hf, hh, get_eq_lookupKey]
    constructor
    · rintro ⟨e, he, hl⟩
      rw [lookupKey_of_mem _ hn k e ((ho _).mem_iff.1 he)]
      exact hl
    · intro hv
      cases hl : lookupKey (m.Range order (fun _ _ => true)).2.loadReadOnly.m.entries k with
      | none =>
        rw [hl] at hv
        simp at hv
      | some e =>
        rw [hl] at hv
        exact ⟨e, (ho _).mem_iff.2 (mem_of_lookupKey _ _ _ hl), hv⟩

/-- C10 on `exampleMap`, with the bindings visited in the order of the list. -/
theorem Range_complete_witness :
    Reachable exampleMap ∧ (∀ l : List (Nat × Nat), (id l).Perm l) ∧
    ((exampleMap.Range id (fun _ _ => true)).1.map Prod.fst).Nodup ∧
      ∀ k v, (k, v) ∈ (exampleMap.Range id (fun _ _ => true)).1 ↔
        (exampleMap.Load k).1 = (v, true) :=
  ⟨Reachable_exampleMap, fun l => List.Perm.refl l,
    Range_complete exampleMap Reachable_exampleMap id (fun l => List.Perm.refl l)⟩

theorem rangeLoop_stop [Inhabited V] (h : List (Ptr V)) (f : K → V → Bool)
    (l : List (K × Nat)) :
    rangeLoop h f l = stopAtFirstFalse f (rangeLoop h (fun _ _ => true) l) := by
  induction l with
  | nil => rfl
  | cons a t ih =>
    obtain ⟨k0, e0⟩ := a
    rw [rangeLoop_true_cons]
    by_cases hl : (entry.load h e0).2 = true
    · rw [if_pos hl]
      simp only [rangeLoop, hl, if_true, stopAtFirstFalse, ih]
    · rw [if_neg hl]
      simp only [rangeLoop, hl, Bool.false_eq_true, if_false, ih]

theorem stopAtFirstFalse_append (f : K → V → Bool) (l : List (K × V)) :
    ∃ rest, l = stopAtFirstFalse f l ++ rest := by
  induction l with
  | nil => exact ⟨[], rfl⟩
  | cons a t ih =>
    obtain ⟨k, v⟩ := a
    obtain ⟨rest, hr⟩ := ih
    by_cases hf : f k v = true
    · refine ⟨rest, ?_⟩
      simp only [stopAtFirstFalse, hf, if_true, List.cons_append]
      rw [← hr]
    · exact ⟨t, by simp [stopAtFirstFalse, hf]⟩

theorem stopAtFirstFalse_true (f : K → V → Bool) (l : List (K × V)) (i : Nat) (p : K × V)
    (hi : i + 1 < (stopAtFirstFalse f l).length) (hp : (stopAtFirstFalse f l)[i]? = some p) :
    f p.1 p.2 = true := by
  induction l generalizing i with
  | nil => simp [stopAtFirstFalse] at hi
  | cons a t ih =>
    obtain ⟨k, v⟩ := a
    by_cases hf : f k v = true
    · simp only [stopAtFirstFalse, hf, if_true, List.length_cons] at hi hp
      cases i with
      | zero =>
        simp only [List.getElem?_cons_zero, Option.some.injEq] at hp
        subst hp
        exact hf
      | succ j =>
        simp only [List.getElem?_cons_succ] at hp
        exact ih j (by omega) hp
    · simp [stopAtFirstFalse, hf] at hi

theorem stopAtFirstFalse_last (f : K → V → Bool) (l : List (K × V))
    (hne : stopAtFirstFalse f l ≠ l) :
    ∃ p, (stopAtFirstFalse f l).getLast? = some p ∧ f p.1 p.2 = false := by
  induction l with
  | nil => exact absurd rfl hne
  | cons a t ih =>
    obtain ⟨k, v⟩ := a
    by_cases hf : f k v = true
    · simp only [stopAtFirstFalse, hf, if_true] at hne ⊢
      have hne1 : stopAtFirstFalse f t ≠ t := fun h => hne (by rw [h])
      obtain ⟨p, hp, hfp⟩ := ih hne1
      refine ⟨p, ?_, hfp⟩
      cases hs : stopAtFirstFalse f t with
      | nil => simp [hs] at hp
      | cons b u =>
        rw [hs] at hp
        simpa using hp
    · refine ⟨(k, v), by simp [stopAtFirstFalse, hf], by simpa using hf⟩

/-- C11. For every map, every order of the iteration and every visitor `f`,
the calls `Range` makes to `f` are the calls it makes to a visitor that always
returns true, cut after the first pair on which `f` returns false: they are a
prefix of those calls, `f` returns true on every call but the last, and when
calls are left out the last call made is one on which `f` returns false. -/
theorem Range_stops_early [Inhabited V] (m : SyncMap K V)
    (order : List (K × Nat) → List (K × Nat)) (f : K → V → Bool) :
    (m.Range order f).1 = stopAtFirstFalse f (m.Range order (fun _ _ => true)).1 ∧
    (∃ rest, (m.Range order (fun _ _ => true)).1 = (m.Range order f).1 ++ rest) ∧
    (∀ i p, i + 1 < (m.Range order f).1.length → (m.Range order f).1[i]? = some p →
      f p.1 p.2 = true) ∧
    ((m.Range order f).1 ≠ (m.Range order (fun _ _ => true)).1 →
      ∃ p, (m.Range order f).1.getLast? = some p ∧ f p.1 p.2 = false) := by
  have h0 : (m.Range order f).1 = stopAtFirstFalse f (m.Range order (fun _ _ => true)).1 := by
    have h2 : (m.Range order (fun _ _ => true)).2 = (m.Range order f).2 := by
      rw [Range_snd, Range_snd]
    rw [Range_fst, Range_fst m order (fun _ _ => true), h2]
    exact rangeLoop_stop _ _ _
  refine ⟨h0, ?_, ?_, ?_⟩
  · rw [h0]
    exact stopAtFirstFalse_append f _
  · rw [h0]
    exact fun i p hi hp => stopAtFirstFalse_true f _ i p hi hp
  · rw [h0]
    exact fun hne => stopAtFirstFalse_last f _ hne

/-- C11 on `exampleMap`, with a visitor that returns false on the key 2: of
the calls for the keys 2 and 5 only the first is made. -/
theorem Range_stops_early_witness :
    (exampleMap.Range id (fun _ _ => true)).1 = [(2, 20), (5, 50)] ∧
    (exampleMap.Range id (fun k _ => decide (k ≠ 2))).1 = [(2, 20)] ∧
    (exampleMap.Range id (fun k _ => decide (k ≠ 2))).1 =
      stopAtFirstFalse (fun k _ => decide (k ≠ 2))
        (exampleMap.Range id (fun _ _ => true)).1 :=
  ⟨by decide, by decide, (Range_stops_early exampleMap id (fun k _ => decide (k ≠ 2))).1⟩

/-- C12. In every reachable map, a call `Load(k)` leaves the result of every
`Load(k1)` as it was, also when it counts a miss and publishes the dirty map
as the snapshot. -/
theorem Load_keeps_content [DecidableEq V] [Inhabited V] (m : SyncMap K V)
    (h : Reachable m) (k k1 : K) : ((m.Load k).2.Load k1).1 = (m.Load k1).1 := by
  rw [Load_fst, Load_fst]
  exact (Load_spec (Inv_of_Reachable h) k).2 k1

theorem Reachable_missedMap : Reachable missedMap :=
  Reachable.step (Op.Load 9) Reachable_exampleMap (by decide)

/-- C12 on `missedMap`: `Load(9)` publishes the dirty map, and `Load(5)`
returns `(50, true)` before and after it. -/
theorem Load_keeps_content_witness :
    Reachable missedMap ∧ (missedMap.Load 9).2.dirty = GoMap.nil ∧
      ((missedMap.Load 9).2.Load 5).1 = (missedMap.Load 5).1 :=
  ⟨Reachable_missedMap, by decide, Load_keeps_content missedMap Reachable_missedMap 9 5⟩

/-- C13. On a new `SyncMap[string,int]`, after `Store("a",1); Store("b",2)`:
`Load("a")` gives `(1, true)`, `CompareAndSwap("a",1,9)` gives true, `Load("a")`
gives `(9, true)`, `CompareAndSwap("a",1,5)` gives false and, after
`Delete("b")`, `Load("b")` gives `(0, false)`. -/
theorem scenario_results :
    scenario = some ((1, true), true, (9, true), false, (0, false)) := by
  decide

/-! ## The internals of the map -/

theorem Reachable_staleMap : Reachable staleMap :=
  Reachable_runOps [Op.Store 1 10, Op.Store 2 20, Op.Load 3, Op.Load 3, Op.Delete 1]
    Reachable.init (by decide)

theorem Reachable_lastKeyMap : Reachable lastKeyMap :=
  Reachable_runOps [Op.Store 1 10, Op.Load 1, Op.Delete 1, Op.Store 2 20]
    Reachable.init (by decide)

/-- C31. For every map whose dirty map is not nil and holds `n` bindings, with
the miss counter `c`: when `c + 1 < n`, `missLocked` sets the counter to `c + 1`
and leaves the snapshot, the dirty map and the entries as they are; when
`c + 1 >= n`, it publishes the dirty map as the snapshot with `amended = false`,
sets the dirty map to nil and the counter to 0, and leaves the entries as they
are. -/
theorem missLocked_policy (m : SyncMap K V) (l : List (K × Nat))
    (hd : m.dirty = GoMap.mk l) :
    (m.misses + 1 < l.length →
      m.missLocked.read = m.read ∧ m.missLocked.dirty = m.dirty ∧
        m.missLocked.misses = m.misses + 1 ∧ m.missLocked.heap = m.heap) ∧
    (l.length ≤ m.misses + 1 →
      m.missLocked.read = some { m := GoMap.mk l, amended := false } ∧
        m.missLocked.dirty = GoMap.nil ∧ m.missLocked.misses = 0 ∧
        m.missLocked.heap = m.heap) := by
  have hl : m.dirty.len = l.length := by rw [hd]; rfl
  constructor
  · intro h
    have h1 : m.misses + 1 < m.dirty.len := by rw [hl]; exact h
    rw [SyncMap.missLocked, if_pos h1]
    exact ⟨rfl, rfl, rfl, rfl⟩
  · intro h
    have h1 : ¬ m.misses + 1 < m.dirty.len := by rw [hl]; omega
    rw [SyncMap.missLocked, if_neg h1, hd]
    exact ⟨rfl, rfl, rfl, rfl⟩

/-- C31 on `exampleMap`, whose dirty map holds two bindings: with the counter 0
the miss is counted, and in `missedMap`, with the counter 1, the dirty map is
published. -/
theorem missLocked_policy_witness :
    exampleMap.dirty = GoMap.mk [(2, 1), (5, 2)] ∧
    exampleMap.missLocked = missedMap ∧
    (exampleMap.missLocked.read = exampleMap.read ∧
      exampleMap.missLocked.dirty = exampleMap.dirty ∧
      exampleMap.missLocked.misses = exampleMap.misses + 1 ∧
      exampleMap.missLocked.heap = exampleMap.heap) ∧
    (missedMap.missLocked.read = some { m := GoMap.mk [(2, 1), (5, 2)], amended := false } ∧
      missedMap.missLocked.dirty = GoMap.nil ∧ missedMap.missLocked.misses = 0 ∧
      missedMap.missLocked.heap = missedMap.heap) :=
  ⟨rfl, by decide,
    (missLocked_policy exampleMap [(2, 1), (5, 2)] rfl).1 (by decide),
    (missLocked_policy missedMap [(2, 1), (5, 2)] rfl).2 (by decide)⟩

theorem dirtyLocked_eq {m : SyncMap K V} (hd : m.dirty = GoMap.nil) :
    m.dirtyLocked =
      { read := m.read,
        dirty := GoMap.mk (dirtyLoop m.loadReadOnly.m.entries (m.heap, [])).2,
        misses := m.misses,
        heap := (dirtyLoop m.loadReadOnly.m.entries (m.heap, [])).1 } := by
  simp only [SyncMap.dirtyLocked, hd]

theorem isVal_iff (p : Ptr V) : p.isVal = true ↔ ∃ v, p = Ptr.val v := by
  cases p with
  | nil => simp [Ptr.isVal]
  | expunged => simp [Ptr.isVal]
  | val v => simp [Ptr.isVal]

theorem mem_snd_iff (g : GoMap K) (hn : (g.entries.map Prod.fst).Nodup) (a : Nat) :
    a ∈ g.entries.map Prod.snd ↔ ∃ k, g.get k = some a := by
  constructor
  · intro h
    obtain ⟨⟨k, e⟩, hm, he⟩ := List.mem_map.mp h
    simp only at he
    subst he
    exact ⟨k, by rw [get_eq_lookupKey]; exact lookupKey_of_mem _ hn k e hm⟩
  · rintro ⟨k, hk⟩
    rw [get_eq_lookupKey] at hk
    exact List.mem_map.mpr ⟨(k, a), mem_of_lookupKey _ k a hk, rfl⟩

/-- C32. Let the snapshot hold one binding per key and only allocated entries,
as a Go map of entry pointers does.  When the dirty map is nil, `dirtyLocked`
creates a dirty map that binds a key to an entry exactly when the snapshot
binds the key to that entry and the entry is Present; an entry of the snapshot
that was Absent becomes Expunged and its key is left out; a Present entry keeps
its value, an Expunged entry stays Expunged, and an entry outside the snapshot
is not touched; the snapshot and the miss counter are unchanged.  When the
dirty map is not nil, `dirtyLocked` changes nothing. -/
theorem dirtyLocked_expunges (m : SyncMap K V)
    (hn : (m.loadReadOnly.m.entries.map Prod.fst).Nodup)
    (hb : ∀ k e, m.loadReadOnly.m.get k = some e → e < m.heap.length) :
    (m.dirty = GoMap.nil →
      (∃ l, m.dirtyLocked.dirty = GoMap.mk l) ∧
      (∀ k e, m.dirtyLocked.dirty.get k = some e ↔
        m.loadReadOnly.m.get k = some e ∧ ∃ v, entry.p m.heap e = Ptr.val v) ∧
      (∀ k e, m.loadReadOnly.m.get k = some e → entry.p m.heap e = Ptr.nil →
        entry.p m.dirtyLocked.heap e = Ptr.expunged ∧ m.dirtyLocked.dirty.get k = none) ∧
      (∀ e v, entry.p m.heap e = Ptr.val v → entry.p m.dirtyLocked.heap e = Ptr.val v) ∧
      (∀ e, entry.p m.heap e = Ptr.expunged → entry.p m.dirtyLocked.heap e = Ptr.expunged) ∧
      (∀ e, (∀ k, m.loadReadOnly.m.get k ≠ some e) →
        entry.p m.dirtyLocked.heap e = entry.p m.heap e) ∧
      m.dirtyLocked.read = m.read ∧ m.dirtyLocked.misses = m.misses) ∧
    (m.dirty ≠ GoMap.nil → m.dirtyLocked = m) := by
  constructor
  · intro hd
    have hget : ∀ k e, m.dirtyLocked.dirty.get k = some e ↔
        m.loadReadOnly.m.get k = some e ∧ ∃ v, entry.p m.heap e = Ptr.val v := by
      intro k e
      rw [dirtyLocked_eq hd, ← isVal_iff, get_eq_lookupKey m.loadReadOnly.m]
      exact dirtyLoop_lookup_nil _ hn m.heap k e
    have hp : ∀ a, entry.p m.dirtyLocked.heap a =
        if (entry.p m.heap a).isNil = true ∧ a ∈ m.loadReadOnly.m.entries.map Prod.snd ∧
          a < m.heap.length then Ptr.expunged else entry.p m.heap a := by
      intro a
      rw [dirtyLocked_eq hd]
      exact dirtyLoop_p _ m.heap [] a
    refine ⟨⟨_, by rw [dirtyLocked_eq hd]⟩, hget, ?_, ?_, ?_, ?_, by rw [dirtyLocked_eq hd],
      by rw [dirtyLocked_eq hd]⟩
    · intro k e hk hnil
      constructor
      · rw [hp e, if_pos ⟨by rw [hnil]; rfl, (mem_snd_iff _ hn e).mpr ⟨k, hk⟩, hb k e hk⟩]
      · cases hg : m.dirtyLocked.dirty.get k with
        | none => rfl
        | some e1 =>
          obtain ⟨h1, v, h2⟩ := (hget k e1).mp hg
          rw [hk] at h1
          cases h1
          rw [hnil] at h2
          cases h2
    · intro e v hv
      rw [hp e, if_neg (by rw [hv]; simp [Ptr.isNil]), hv]
    · intro e he
      rw [hp e, if_neg (by rw [he]; simp [Ptr.isNil]), he]
    · intro e hne
      rw [hp e, if_neg]
      rintro ⟨_, h2, _⟩
      obtain ⟨k, hk⟩ := (mem_snd_iff _ hn e).mp h2
      exact hne k hk
  · intro hd
    cases hm : m.dirty with
    | nil => exact absurd hm hd
    | mk l => simp only [SyncMap.dirtyLocked, hm]

/-- C32 on `staleMap`, whose snapshot holds the Absent entry of key 1 and the
Present entry of key 2 and which has no dirty map: the new dirty map holds the
key 2 alone and the entry of key 1 is Expunged.  On `exampleMap`, which has a
dirty map, nothing changes. -/
theorem dirtyLocked_expunges_witness :
    staleMap.dirtyLocked =
      { read := some { m := GoMap.mk [(1, 0), (2, 1)], amended := false },
        dirty := GoMap.mk [(2, 1)],
        misses := 0,
        heap := [Ptr.expunged, Ptr.val 20] } ∧
    (entry.p staleMap.dirtyLocked.heap 0 = Ptr.expunged ∧
      staleMap.dirtyLocked.dirty.get 1 = none) ∧
    exampleMap.dirtyLocked = exampleMap :=
  ⟨by decide,
    ((dirtyLocked_expunges staleMap (by decide)
      (Inv_of_Reachable Reachable_staleMap).1.read_bound).1 rfl).2.2.1 1 0 rfl rfl,
    (dirtyLocked_expunges exampleMap (by decide)
      (Inv_of_Reachable Reachable_exampleMap).1.read_bound).2 (by decide)⟩

theorem lt_of_expunged {h : List (Ptr V)} {e : Nat} (hp : entry.p h e = Ptr.expunged) :
    e < h.length := by
  by_contra hlt
  have : entry.p h e = Ptr.nil := by
    simp only [entry.p, List.getD_eq_getElem?_getD]
    rw [List.getElem?_eq_none (by omega)]
    rfl
  rw [this] at hp
  cases hp

theorem Swap_expunged {m : SyncMap K V} (hI : InvCore m) {k : K} {e : Nat} (v : V)
    (hk : m.loadReadOnly.m.get k = some e) (hp : entry.p m.heap e = Ptr.expunged) :
    ∃ m1, m.Swap k v = some ((none, false), m1) ∧
      m1.heap = (entry.swapLocked (entry.unexpungeLocked m.heap e).2 e v).2 ∧
      m1.dirty.get k = some e := by
  have hlt := lt_of_expunged hp
  have hnil : entry.p (m.heap.set e Ptr.nil) e = Ptr.nil := by
    rw [p_set, if_pos ⟨rfl, hlt⟩]
  cases hd : m.dirty with
  | nil => exact absurd hd (hI.read_dead k e hk hp).1
  | mk l =>
    refine ⟨{ m with dirty := GoMap.mk (insertKey l k e),
                     heap := (m.heap.set e Ptr.nil).set e (Ptr.val v) }, ?_, ?_, ?_⟩
    · simp [SyncMap.Swap, SyncMap.swapSlow, hk, entry.trySwap, entry.unexpungeLocked, hp, hd,
        GoMap.set, entry.swapLocked, hnil, previousOf]
    · simp [entry.unexpungeLocked, hp, entry.swapLocked]
    · simp [GoMap.get, lookupKey_insertKey]

theorem LoadOrStore_expunged [Inhabited V] {m : SyncMap K V} (hI : InvCore m) {k : K} {e : Nat}
    (v : V) (hk : m.loadReadOnly.m.get k = some e) (hp : entry.p m.heap e = Ptr.expunged) :
    ∃ m1, m.LoadOrStore k v = some ((v, false), m1) ∧
      m1.heap = (entry.tryLoadOrStore (entry.unexpungeLocked m.heap e).2 e v).2 ∧
      m1.dirty.get k = some e := by
  have hlt := lt_of_expunged hp
  have hnil : entry.p (m.heap.set e Ptr.nil) e = Ptr.nil := by
    rw [p_set, if_pos ⟨rfl, hlt⟩]
  cases hd : m.dirty with
  | nil => exact absurd hd (hI.read_dead k e hk hp).1
  | mk l =>
    refine ⟨{ m with dirty := GoMap.mk (insertKey l k e),
                     heap := (m.heap.set e Ptr.nil).set e (Ptr.val v) }, ?_, ?_, ?_⟩
    · simp [SyncMap.LoadOrStore, SyncMap.loadOrStoreSlow, hk, entry.tryLoadOrStore,
        entry.unexpungeLocked, hp, hd, GoMap.set, hnil]
    · simp [entry.unexpungeLocked, hp, entry.tryLoadOrStore, hnil]
    · simp [GoMap.get, lookupKey_insertKey]

/-- C33. For every Expunged entry: `trySwap`, `tryLoadOrStore`,
`tryCompareAndSwap` and `delete` leave it Expunged and report failure
(`ok = false`, `false`, not loaded); `load` reports not found;
`tryExpungeLocked` leaves it Expunged; and `unexpungeLocked` makes it Absent,
returns true and touches no other entry.  `swapLocked`, the one other
operation of an entry, is never applied to an Expunged entry: in a reachable
map no entry of the dirty map is Expunged, and on a key whose entry in the
snapshot is Expunged, `Swap` applies `swapLocked` to the entries that
`unexpungeLocked` leaves, where the entry is Absent, so that it returns
`(nil, false)`, and the key is back in the dirty map after the call;
`LoadOrStore` proceeds in the same way with `tryLoadOrStore`. -/
theorem expunged_entry_operations [DecidableEq V] [Inhabited V] (h : List (Ptr V)) (e : Nat)
    (hp : entry.p h e = Ptr.expunged) (i old new : V) :
    entry.trySwap h e i = ((Ptr.nil, false), h) ∧
    entry.tryLoadOrStore h e i = ((default, false, false), h) ∧
    entry.tryCompareAndSwap h e old new = (false, h) ∧
    entry.delete h e = ((default, false), h) ∧
    entry.load h e = (default, false) ∧
    entry.tryExpungeLocked h e = (true, h) ∧
    (entry.unexpungeLocked h e).1 = true ∧
    entry.p (entry.unexpungeLocked h e).2 e = Ptr.nil ∧
    (∀ a, a ≠ e → entry.p (entry.unexpungeLocked h e).2 a = entry.p h a) ∧
    (∀ m : SyncMap K V, Reachable m → m.heap = h →
      (∀ k, m.dirty.get k ≠ some e) ∧
      ∀ k, m.loadReadOnly.m.get k = some e →
        (∃ m1, m.Swap k i = some ((none, false), m1) ∧
          m1.heap = (entry.swapLocked (entry.unexpungeLocked h e).2 e i).2 ∧
          m1.dirty.get k = some e) ∧
        (∃ m1, m.LoadOrStore k i = some ((i, false), m1) ∧
          m1.heap = (entry.tryLoadOrStore (entry.unexpungeLocked h e).2 e i).2 ∧
          m1.dirty.get k = some e)) := by
  have hlt := lt_of_expunged hp
  refine ⟨?_, ?_, ?_, ?_, ?_, ?_, ?_, ?_, ?_, ?_⟩
  · simp only [entry.trySwap, hp]
  · simp only [entry.tryLoadOrStore, hp]
  · simp only [entry.tryCompareAndSwap, hp]
  · simp only [entry.delete, hp]
  · simp only [entry.load, hp]
  · simp only [entry.tryExpungeLocked, hp]
  · simp only [entry.unexpungeLocked, hp]
  · simp only [entry.unexpungeLocked, hp]
    rw [p_set, if_pos ⟨rfl, hlt⟩]
  · intro a ha
    simp only [entry.unexpungeLocked, hp]
    rw [p_set, if_neg (fun hc => ha hc.1.symm)]
  · intro m hR hm
    subst hm
    have hI := (Inv_of_Reachable hR).1
    exact ⟨fun k hk => hI.dirty_live k e hk hp,
      fun k hk => ⟨Swap_expunged hI i hk hp, LoadOrStore_expunged hI i hk hp⟩⟩

/-- C33 on the entry 0 of `exampleMap`, the Expunged entry of key 1 in the
snapshot: `Swap(1, 7)` returns `(nil, false)` and leaves the key 1 in the dirty
map, bound to the entry 0, which holds 7. -/
theorem expunged_entry_operations_witness :
    entry.p exampleMap.heap 0 = Ptr.expunged ∧
    exampleMap.Swap 1 7 =
      some ((none, false),
        { read := some { m := GoMap.mk [(1, 0), (2, 1)], amended := true },
          dirty := GoMap.mk [(2, 1), (5, 2), (1, 0)],
          misses := 0,
          heap := [Ptr.val 7, Ptr.val 20, Ptr.val 50] }) ∧
    entry.trySwap exampleMap.heap 0 7 = ((Ptr.nil, false), exampleMap.heap) ∧
    entry.tryLoadOrStore exampleMap.heap 0 7 = ((default, false, false), exampleMap.heap) ∧
    entry.tryCompareAndSwap exampleMap.heap 0 8 9 = (false, exampleMap.heap) ∧
    entry.delete exampleMap.heap 0 = ((default, false), exampleMap.heap) ∧
    entry.load exampleMap.heap 0 = (default, false) ∧
    entry.tryExpungeLocked exampleMap.heap 0 = (true, exampleMap.heap) ∧
    (entry.unexpungeLocked exampleMap.heap 0).1 = true ∧
    entry.p (entry.unexpungeLocked exampleMap.heap 0).2 0 = Ptr.nil ∧
    (∀ a, a ≠ 0 →
      entry.p (entry.unexpungeLocked exampleMap.heap 0).2 a = entry.p exampleMap.heap a) ∧
    (∀ m : SyncMap Nat Nat, Reachable m → m.heap = exampleMap.heap →
      (∀ k, m.dirty.get k ≠ some 0) ∧
      ∀ k, m.loadReadOnly.m.get k = some 0 →
        (∃ m1, m.Swap k 7 = some ((none, false), m1) ∧
          m1.heap = (entry.swapLocked (entry.unexpungeLocked exampleMap.heap 0).2 0 7).2 ∧
          m1.dirty.get k = some 0) ∧
        (∃ m1, m.LoadOrStore k 7 = some ((7, false), m1) ∧
          m1.heap = (entry.tryLoadOrStore (entry.unexpungeLocked exampleMap.heap 0).2 0 7).2 ∧
          m1.dirty.get k = some 0)) :=
  ⟨rfl, by decide, expunged_entry_operations exampleMap.heap 0 rfl 7 8 9⟩

/-- C34. In every map reachable by public operations run one after another in
which the dirty map is not nil: a key that the snapshot binds to an entry that
is not Expunged is bound to the same entry by the dirty map; a key that the
snapshot binds to an Expunged entry is not a key of the dirty map; and no entry
bound by the dirty map is Expunged. -/
theorem overlay_superset [DecidableEq V] [Inhabited V] (m : SyncMap K V) (hR : Reachable m)
    (hd : m.dirty ≠ GoMap.nil) :
    (∀ k e, m.loadReadOnly.m.get k = some e → entry.p m.heap e ≠ Ptr.expunged →
      m.dirty.get k = some e) ∧
    (∀ k e, m.loadReadOnly.m.get k = some e → entry.p m.heap e = Ptr.expunged →
      m.dirty.get k = none) ∧
    (∀ k e, m.dirty.get k = some e → entry.p m.heap e ≠ Ptr.expunged) :=
  ⟨fun k e hk hp => (Inv_of_Reachable hR).1.read_live k e hk hp hd,
    fun k e hk hp => ((Inv_of_Reachable hR).1.read_dead k e hk hp).2,
    fun k e hk => (Inv_of_Reachable hR).1.dirty_live k e hk⟩

/-- C34 on `exampleMap`: the snapshot binds the key 1 to the Expunged entry 0
and the key 2 to the Present entry 1; the dirty map binds the keys 2 and 5. -/
theorem overlay_superset_witness :
    Reachable exampleMap ∧ exampleMap.dirty ≠ GoMap.nil ∧
    exampleMap.loadReadOnly.m.get 1 = some 0 ∧ entry.p exampleMap.heap 0 = Ptr.expunged ∧
    exampleMap.dirty.get 1 = none ∧
    exampleMap.loadReadOnly.m.get 2 = some 1 ∧ exampleMap.dirty.get 2 = some 1 ∧
    (∀ k e, exampleMap.dirty.get k = some e → entry.p exampleMap.heap e ≠ Ptr.expunged) :=
  ⟨Reachable_exampleMap, by decide, rfl, rfl,
    (overlay_superset exampleMap Reachable_exampleMap (by decide)).2.1 1 0 rfl rfl,
    rfl,
    (overlay_superset exampleMap Reachable_exampleMap (by decide)).1 2 1 rfl (by decide),
    (overlay_superset exampleMap Reachable_exampleMap (by decide)).2.2⟩

/-- C35. In every map reachable by public operations run one after another:
the flag `amended` of the snapshot is true whenever the dirty map binds a key
that the snapshot does not bind; the dirty map is nil exactly when `amended` is
false; the miss counter is 0 when the dirty map is nil, and smaller than the
number of bindings of the dirty map otherwise. -/
theorem amended_flag [DecidableEq V] [Inhabited V] (m : SyncMap K V) (hR : Reachable m) :
    (∀ k e, m.dirty.get k = some e → m.loadReadOnly.m.get k = none →
      m.loadReadOnly.amended = true) ∧
    (m.dirty = GoMap.nil ↔ m.loadReadOnly.amended = false) ∧
    (m.dirty = GoMap.nil → m.misses = 0) ∧
    (m.dirty ≠ GoMap.nil → m.misses < m.dirty.len) := by
  obtain ⟨hI, hM⟩ := Inv_of_Reachable hR
  refine ⟨fun k e hk _ => ?_, ?_, hM.1, hM.2⟩
  · refine hI.amended_iff.mpr (fun hn => ?_)
    rw [hn] at hk
    cases hk
  · constructor
    · intro hd
      cases ha : m.loadReadOnly.amended with
      | false => rfl
      | true => exact absurd hd (hI.amended_iff.mp ha)
    · intro ha
      by_contra hd
      rw [hI.amended_iff.mpr hd] at ha
      cases ha

/-- C35 on `exampleMap`, whose dirty map binds the key 5, which the snapshot
lacks, and holds two bindings, with the miss counter 0; and on `staleMap`, which
has no dirty map. -/
theorem amended_flag_witness :
    Reachable exampleMap ∧
    exampleMap.dirty.get 5 = some 2 ∧ exampleMap.loadReadOnly.m.get 5 = none ∧
    exampleMap.loadReadOnly.amended = true ∧
    exampleMap.misses < exampleMap.dirty.len ∧
    (staleMap.dirty = GoMap.nil ↔ staleMap.loadReadOnly.amended = false) ∧
    staleMap.misses = 0 :=
  ⟨Reachable_exampleMap, rfl, rfl,
    (amended_flag exampleMap Reachable_exampleMap).1 5 2 rfl rfl,
    (amended_flag exampleMap Reachable_exampleMap).2.2.2 (by decide),
    (amended_flag staleMap Reachable_staleMap).2.1,
    (amended_flag staleMap Reachable_staleMap).2.2.1 rfl⟩

/-- C36. In every reachable map, for every key `k` and every other key `k1`,
each of `Store(k, v)`, `Swap(k, v)`, `LoadOrStore(k, v)`, `LoadAndDelete(k)`,
`Delete(k)`, `CompareAndSwap(k, old, new)` and `CompareAndDelete(k, old)`
completes, and `Load(k1)` returns after it what it returns before it, whether
or not the operation creates the dirty map or publishes it. -/
theorem other_keys_kept [DecidableEq V] [Inhabited V] (m : SyncMap K V) (hR : Reachable m)
    (k k1 : K) (hne : k1 ≠ k) (v old new : V) :
    (∃ m1, m.Store k v = some m1 ∧ (m1.Load k1).1 = (m.Load k1).1) ∧
    (∃ r m1, m.Swap k v = some (r, m1) ∧ (m1.Load k1).1 = (m.Load k1).1) ∧
    (∃ r m1, m.LoadOrStore k v = some (r, m1) ∧ (m1.Load k1).1 = (m.Load k1).1) ∧
    ((m.LoadAndDelete k).2.Load k1).1 = (m.Load k1).1 ∧
    ((m.Delete k).Load k1).1 = (m.Load k1).1 ∧
    ((m.CompareAndSwap k old new).2.Load k1).1 = (m.Load k1).1 ∧
    ((m.CompareAndDelete k old).2.Load k1).1 = (m.Load k1).1 := by
  have hI := Inv_of_Reachable hR
  obtain ⟨m1, hs, _, hv⟩ := Swap_spec hI k v
  obtain ⟨m2, hl, _, hv2⟩ := LoadOrStore_spec hI k v
  have hd := (LoadAndDelete_spec hI k).2.2 k1
  have hc := (CompareAndSwap_spec hI k old new).2.2 k1
  have hcd := (CompareAndDelete_spec hI k old).2.2 k1
  rw [if_neg hne] at hd
  rw [if_neg (fun h => hne h.1)] at hc hcd
  have e1 : (m1.Load k1).1 = (m.Load k1).1 := by
    rw [Load_fst, Load_fst, hv k1, if_neg hne]
  have e2 : (m2.Load k1).1 = (m.Load k1).1 := by
    rw [Load_fst, Load_fst, hv2 k1, if_neg hne]
  refine ⟨⟨m1, by simp [SyncMap.Store, hs], e1⟩, ⟨_, m1, hs, e1⟩, ⟨_, m2, hl, e2⟩, ?_, ?_, ?_, ?_⟩
  · rw [Load_fst, Load_fst, hd]
  · rw [SyncMap.Delete, Load_fst, Load_fst, hd]
  · rw [Load_fst, Load_fst, hc]
  · rw [Load_fst, Load_fst, hcd]

/-- C36 on `staleMap`, where `Store(3, 30)` creates the dirty map and expunges
the entry of key 1, and on `missedMap`, where `LoadOrStore(5, 7)` publishes the
dirty map: `Load(2)` returns `(20, true)` before and after. -/
theorem other_keys_kept_witness :
    Reachable staleMap ∧ (2 : Nat) ≠ 3 ∧
    (staleMap.Store 3 30).map SyncMap.dirty = some (GoMap.mk [(2, 1), (3, 2)]) ∧
    (∃ m1, staleMap.Store 3 30 = some m1 ∧ (m1.Load 2).1 = (staleMap.Load 2).1) ∧
    (staleMap.Load 2).1 = (20, true) ∧
    (missedMap.LoadOrStore 5 7).map (fun r => r.2.dirty) = some GoMap.nil ∧
    (∃ r m1, missedMap.LoadOrStore 5 7 = some (r, m1) ∧
      (m1.Load 2).1 = (missedMap.Load 2).1) :=
  ⟨Reachable_staleMap, by decide, by decide,
    (other_keys_kept staleMap Reachable_staleMap 3 2 (by decide) 30 0 0).1,
    by decide, by decide,
    (other_keys_kept missedMap Reachable_missedMap 5 2 (by decide) 7 0 0).2.2.1⟩

theorem run_completes [DecidableEq V] [Inhabited V] {m : SyncMap K V} (hI : Inv m)
    (op : Op K V) : ∃ m1, op.run m = some m1 := by
  cases op with
  | Load key => exact ⟨_, rfl⟩
  | Store key value =>
    obtain ⟨m1, hs, _⟩ := Swap_spec hI key value
    exact ⟨m1, by simp [Op.run, SyncMap.Store, hs]⟩
  | LoadOrStore key value =>
    obtain ⟨m1, hs, _⟩ := LoadOrStore_spec hI key value
    exact ⟨m1, by simp [Op.run, hs]⟩
  | LoadAndDelete key => exact ⟨_, rfl⟩
  | Delete key => exact ⟨_, rfl⟩
  | Swap key value =>
    obtain ⟨m1, hs, _⟩ := Swap_spec hI key value
    exact ⟨m1, by simp [Op.run, hs]⟩
  | CompareAndSwap key old new => exact ⟨_, rfl⟩
  | CompareAndDelete key old => exact ⟨_, rfl⟩
  | Range order f => exact ⟨_, rfl⟩

theorem unexpunge_true {h : List (Ptr V)} {e : Nat}
    (hu : (entry.unexpungeLocked h e).1 = true) : entry.p h e = Ptr.expunged := by
  cases hp : entry.p h e with
  | nil => simp [entry.unexpungeLocked, hp] at hu
  | expunged => rfl
  | val v => simp [entry.unexpungeLocked, hp] at hu

/-- C37, amended. In every map reachable by public operations run one after
another: if an entry of the snapshot is Expunged then the dirty map is not nil,
so the assignment `m.dirty[key] = e` that `Swap` and `LoadOrStore` make when
`unexpungeLocked` returns true succeeds, and every public operation completes
without a panic.  `missLocked` is called after a lookup with `read.amended`
true, or after the key was found in the dirty map, or, in `LoadAndDelete`,
after `delete(m.dirty, key)`: in each case the dirty map is not nil.  So
`missLocked` never publishes a nil map, and it changes the result of no `Load`.
The dirty map that it publishes can have no bindings, after `LoadAndDelete`
has deleted its last key. -/
theorem no_nil_overlay [DecidableEq V] [Inhabited V] (m : SyncMap K V) (hR : Reachable m) :
    (∀ k e, m.loadReadOnly.m.get k = some e → entry.p m.heap e = Ptr.expunged →
      m.dirty ≠ GoMap.nil) ∧
    (∀ k e, m.loadReadOnly.m.get k = some e → (entry.unexpungeLocked m.heap e).1 = true →
      ∃ d, m.dirty.set k e = some d) ∧
    (∀ op : Op K V, ∃ m1, op.run m = some m1) ∧
    (m.loadReadOnly.amended = true → m.dirty ≠ GoMap.nil) ∧
    (∀ k e, m.dirty.get k = some e → m.dirty ≠ GoMap.nil) ∧
    (m.loadReadOnly.amended = true → ∀ k, m.dirty.delete k ≠ GoMap.nil) ∧
    (m.dirty ≠ GoMap.nil →
      (m.missLocked.read = m.read ∨
        ∃ l, m.missLocked.read = some { m := GoMap.mk l, amended := false }) ∧
      ∀ k, m.missLocked.view k = m.view k) := by
  obtain ⟨hI, hM⟩ := Inv_of_Reachable hR
  refine ⟨fun k e hk hp => (hI.read_dead k e hk hp).1, fun k e hk hu => ?_,
    run_completes ⟨hI, hM⟩, hI.amended_iff.mp, fun k e hk hn => ?_,
    fun ha k => delete_ne_nil k (hI.amended_iff.mp ha), fun hd => ⟨?_, view_missLocked hI hd⟩⟩
  · have hd := (hI.read_dead k e hk (unexpunge_true hu)).1
    cases hm : m.dirty with
    | nil => exact absurd hm hd
    | mk l => exact ⟨_, rfl⟩
  · rw [hn] at hk
    cases hk
  · cases hm : m.dirty with
    | nil => exact absurd hm hd
    | mk l =>
      by_cases hlt : m.misses + 1 < m.dirty.len
      · left
        rw [SyncMap.missLocked, if_pos hlt]
      · right
        refine ⟨l, ?_⟩
        rw [SyncMap.missLocked, if_neg hlt, hm]

/-- C37 on `exampleMap`: the entry of key 1 in the snapshot is Expunged and the
dirty map is not nil; `Store(1, 7)`, which assigns into the dirty map after
`unexpungeLocked`, completes. -/
theorem no_nil_overlay_witness :
    Reachable exampleMap ∧
    exampleMap.loadReadOnly.m.get 1 = some 0 ∧ entry.p exampleMap.heap 0 = Ptr.expunged ∧
    exampleMap.dirty ≠ GoMap.nil ∧
    (∃ d, exampleMap.dirty.set 1 0 = some d) ∧
    (∃ m1, (Op.Store 1 7).run exampleMap = some m1) :=
  ⟨Reachable_exampleMap, rfl, rfl,
    (no_nil_overlay exampleMap Reachable_exampleMap).1 1 0 rfl rfl,
    (no_nil_overlay exampleMap Reachable_exampleMap).2.1 1 0 rfl rfl,
    (no_nil_overlay exampleMap Reachable_exampleMap).2.2.1 (Op.Store 1 7)⟩

/-- C37, the claim as it stands fails on `lastKeyMap`, the map after
`Store(1,10); Load(1); Delete(1); Store(2,20)`: `Delete(2)` does not find the
key 2 in the snapshot, deletes it from the dirty map, which is left without
bindings, and calls `missLocked`, which replaces the snapshot, a map with the
key 1, by that empty map. -/
theorem missLocked_publishes_empty_map :
    Reachable lastKeyMap ∧
    lastKeyMap.loadReadOnly.m = GoMap.mk [(1, 0)] ∧
    lastKeyMap.dirty.delete 2 = GoMap.mk [] ∧
    ({ lastKeyMap with dirty := lastKeyMap.dirty.delete 2 } : SyncMap Nat Nat).missLocked.read =
      some { m := GoMap.mk [], amended := false } ∧
    (lastKeyMap.Delete 2).read = some { m := GoMap.mk [], amended := false } ∧
    (lastKeyMap.Delete 2).loadReadOnly.m.len = 0 :=
  ⟨Reachable_lastKeyMap, by decide, by decide, by decide, by decide, by decide⟩

end lookups

end genericx

namespace modbus

/-! ## Arithmetic of the checksum -/

theorem crcShift_eq (c : Nat) :
    crcShift c = if c % 2 = 1 then (c / 2) ^^^ 0xA001 else c / 2 := by
  unfold crcShift
  rw [Nat.and_one_is_mod, Nat.shiftRight_eq_div_pow]
  have h2 : c % 2 = 0 ∨ c % 2 = 1 := Nat.mod_two_eq_zero_or_one c
  rcases h2 with h | h <;> simp [h]

theorem crcShift_lt {c : Nat} (h : c < 65536) : crcShift c < 65536 := by
  rw [crcShift_eq]
  have h1 : c / 2 < 2 ^ 16 := by omega
  split
  · exact Nat.xor_lt_two_pow h1 (by decide)
  · omega

theorem crcBits_lt (n : Nat) {c : Nat} (h : c < 65536) : crcBits n c < 65536 := by
  induction n generalizing c with
  | zero => exact h
  | succ n ih => exact ih (crcShift_lt h)

theorem xor_byte_lt {c : Nat} (h : c < 65536) (b : Fin 256) : c ^^^ b.val < 65536 := by
  have h1 : c < 2 ^ 16 := h
  have h2 : b.val < 2 ^ 16 := by
    have := b.isLt
    omega
  exact Nat.xor_lt_two_pow h1 h2

theorem crcLoop_lt (d : List (Fin 256)) {c : Nat} (h : c < 65536) : crcLoop d c < 65536 := by
  induction d generalizing c with
  | nil => exact h
  | cons b t ih => exact ih (crcBits_lt 8 (xor_byte_lt h b))

theorem CRC16_lt (d : List (Fin 256)) : CRC16 d < 65536 :=
  crcLoop_lt d (by decide)

theorem xor_low_byte (c b : Nat) (hb : b < 256) :
    c ^^^ b = 256 * (c / 256) + ((c % 256) ^^^ b) := by
  have hlt : (c % 2 ^ 8) ^^^ b < 2 ^ 8 :=
    Nat.xor_lt_two_pow (Nat.mod_lt _ (by decide)) hb
  have e : 256 * (c / 256) + ((c % 256) ^^^ b) = 2 ^ 8 * (c >>> 8) + ((c % 2 ^ 8) ^^^ b) := by
    rw [Nat.shiftRight_eq_div_pow]
    norm_num
  rw [e]
  apply Nat.eq_of_testBit_eq
  intro j
  rw [Nat.testBit_mul_pow_two_add _ hlt, Nat.testBit_xor, Nat.testBit_xor,
    Nat.testBit_mod_two_pow, Nat.testBit_shiftRight]
  by_cases hj : j < 8
  · simp [hj]
  · have hb2 : b < 2 ^ j := by
      have : 2 ^ 8 ≤ 2 ^ j := Nat.pow_le_pow_right (by decide) (by omega)
      omega
    have e2 : 8 + (j - 8) = j := by omega
    simp [hj, Nat.testBit_lt_two_pow hb2, e2]

theorem crcBits_eq_iterate (n c : Nat) :
    crcBits n c =
      Nat.iterate (fun c => if c % 2 = 1 then (c / 2) ^^^ 0xA001 else c / 2) n c := by
  induction n generalizing c with
  | zero => rfl
  | succ n ih =>
    rw [Function.iterate_succ_apply, ← ih, ← crcShift_eq]
    rfl

theorem crcLoop_eq_foldl (d : List (Fin 256)) (c : Nat) :
    crcLoop d c =
      d.foldl
        (fun crc b =>
          Nat.iterate (fun c => if c % 2 = 1 then (c / 2) ^^^ 0xA001 else c / 2) 8
            (256 * (crc / 256) + ((crc % 256) ^^^ b.val)))
        c := by
  induction d generalizing c with
  | nil => rfl
  | cons b t ih =>
    simp only [crcLoop, List.foldl_cons]
    rw [ih, crcBits_eq_iterate, xor_low_byte c b.val b.isLt]

/-! ## Injectivity of the checksum rounds -/

theorem xor_poly_ge {x : Nat} (h : x < 32768) : 32768 ≤ x ^^^ 0xA001 := by
  have h1 : (x ^^^ 0xA001).testBit 15 = true := by
    rw [Nat.testBit_xor, Nat.testBit_lt_two_pow (show x < 2 ^ 15 from h)]
    decide
  exact Nat.testBit_implies_ge h1

theorem crcShift_inj {c c1 : Nat} (h : c < 65536) (h1 : c1 < 65536)
    (he : crcShift c = crcShift c1) : c = c1 := by
  rw [crcShift_eq, crcShift_eq] at he
  have hc : c / 2 < 32768 := by omega
  have hc1 : c1 / 2 < 32768 := by omega
  by_cases p : c % 2 = 1
  · by_cases p1 : c1 % 2 = 1
    · rw [if_pos p, if_pos p1] at he
      have := Nat.xor_left_inj.1 he
      omega
    · rw [if_pos p, if_neg p1] at he
      have := xor_poly_ge hc
      omega
  · by_cases p1 : c1 % 2 = 1
    · rw [if_neg p, if_pos p1] at he
      have := xor_poly_ge hc1
      omega
    · rw [if_neg p, if_neg p1] at he
      omega

theorem crcBits_inj (n : Nat) {c c1 : Nat} (h : c < 65536) (h1 : c1 < 65536)
    (he : crcBits n c = crcBits n c1) : c = c1 := by
  induction n generalizing c c1 with
  | zero => exact he
  | succ n ih => exact crcShift_inj h h1 (ih (crcShift_lt h) (crcShift_lt h1) he)

theorem crcLoop_inj (d : List (Fin 256)) {c c1 : Nat} (h : c < 65536) (h1 : c1 < 65536)
    (he : crcLoop d c = crcLoop d c1) : c = c1 := by
  induction d generalizing c c1 with
  | nil => exact he
  | cons b t ih =>
    have h2 := ih (crcBits_lt 8 (xor_byte_lt h b)) (crcBits_lt 8 (xor_byte_lt h1 b)) he
    have h3 := crcBits_inj 8 (xor_byte_lt h b) (xor_byte_lt h1 b) h2
    exact Nat.xor_left_inj.1 h3

/-- A change of one byte of the data changes the checksum. -/
theorem crcLoop_set_ne (d : List (Fin 256)) (i : Nat) (b : Fin 256) {c : Nat}
    (h : c < 65536) (hi : i < d.length) (hb : d[i]? ≠ some b) :
    crcLoop (d.set i b) c ≠ crcLoop d c := by
  induction d generalizing i c with
  | nil => simp at hi
  | cons a t ih =>
    cases i with
    | zero =>
      simp only [List.set_cons_zero, crcLoop]
      intro he
      have h2 := crcLoop_inj t (crcBits_lt 8 (xor_byte_lt h b)) (crcBits_lt 8 (xor_byte_lt h a)) he
      have h3 := crcBits_inj 8 (xor_byte_lt h b) (xor_byte_lt h a) h2
      have h4 := Nat.xor_right_inj.1 h3
      apply hb
      simp only [List.getElem?_cons_zero, Option.some.injEq]
      exact (Fin.ext h4).symm
    | succ j =>
      simp only [List.set_cons_succ, crcLoop]
      simp only [List.length_cons] at hi
      simp only [List.getElem?_cons_succ] at hb
      exact ih j (crcBits_lt 8 (xor_byte_lt h a)) (by omega) hb

/-! ## Frames with a checksum -/

theorem AppendCRC16_eq (d : List (Fin 256)) :
    AppendCRC16 d = d ++ [byte (CRC16 d), byte (CRC16 d >>> 8)] := by
  have h1 : copy (List.replicate (d.length + 2) (0 : Fin 256)) d = d ++ [0, 0] := by
    have e : d.length + 2 - d.length = 2 := by omega
    unfold copy
    rw [List.length_replicate, List.take_of_length_le (by omega), List.drop_replicate, e]
    rfl
  simp only [AppendCRC16, h1]
  rw [List.set_append_right _ _ (Nat.le_refl _), List.set_append_right _ _ (by simp)]
  simp

theorem byte_val (x : Nat) : (byte x).val = x % 256 := rfl

theorem word_eq (lo hi : Fin 256) :
    (lo.val ||| (hi.val <<< 8) % 65536) = 256 * hi.val + lo.val := by
  have h1 : hi.val <<< 8 = 2 ^ 8 * hi.val := by rw [Nat.shiftLeft_eq, Nat.mul_comm]
  have h2 : 2 ^ 8 * hi.val < 65536 := by
    have := hi.isLt
    omega
  rw [h1, Nat.mod_eq_of_lt h2, Nat.or_comm,
    ← Nat.mul_add_lt_is_or (show lo.val < 2 ^ 8 from lo.isLt)]

theorem word_of_crc {c : Nat} (h : c < 65536) :
    256 * (byte (c >>> 8)).val + (byte c).val = c := by
  rw [byte_val, byte_val, Nat.shiftRight_eq_div_pow]
  omega

theorem index_natCast {α : Type} (l : List α) (n : Nat) : index l (n : Int) = l[n]? := by
  simp [index]

theorem slice_zero {α : Type} (l : List α) (n : Nat) (h : n ≤ l.length) :
    slice l 0 (n : Int) = some (l.take n) := by
  have : (n : Int) ≤ (l.length : Int) := by exact_mod_cast h
  simp [slice, this]

theorem getElem?_append_pair {α : Type} (d : List α) (x y : α) :
    (d ++ [x, y])[d.length]? = some x ∧ (d ++ [x, y])[d.length + 1]? = some y := by
  constructor
  · rw [List.getElem?_append_right (Nat.le_refl _)]
    simp
  · rw [List.getElem?_append_right (Nat.le_succ _)]
    simp

theorem CheckCRC16_append (d : List (Fin 256)) (x y : Fin 256) :
    CheckCRC16 (d ++ [x, y]) = some (decide (CRC16 d = 256 * y.val + x.val)) := by
  have hl : (d ++ [x, y]).length = d.length + 2 := by simp
  have e2 : (((d ++ [x, y]).length : Nat) : Int) - 2 = ((d.length : Nat) : Int) := by
    rw [hl]
    push_cast
    omega
  have e1 : (((d ++ [x, y]).length : Nat) : Int) - 1 = ((d.length + 1 : Nat) : Int) := by
    rw [hl]
    push_cast
    omega
  have h2 : ¬ (d ++ [x, y]).length < 2 := by
    rw [hl]
    omega
  unfold CheckCRC16
  rw [if_neg h2, e2, e1, slice_zero _ _ (by rw [hl]; omega), index_natCast, index_natCast,
    (getElem?_append_pair d x y).1, (getElem?_append_pair d x y).2]
  simp [word_eq]

theorem CheckCRC16_short (r : List (Fin 256)) (h : r.length < 2) :
    CheckCRC16 r = some false := by
  simp [CheckCRC16, h]

theorem CheckCRC16_AppendCRC16 (d : List (Fin 256)) :
    CheckCRC16 (AppendCRC16 d) = some true := by
  rw [AppendCRC16_eq, CheckCRC16_append, word_of_crc (CRC16_lt d)]
  simp

theorem take_AppendCRC16 (d : List (Fin 256)) :
    slice (AppendCRC16 d) 0 (((AppendCRC16 d).length : Int) - 2) = some d := by
  rw [AppendCRC16_eq]
  have e2 : (((d ++ [byte (CRC16 d), byte (CRC16 d >>> 8)]).length : Nat) : Int) - 2 =
      ((d.length : Nat) : Int) := by
    simp only [List.length_append, List.length_cons, List.length_nil]
    push_cast
    omega
  rw [e2, slice_zero _ _ (by simp)]
  simp

/-! ## The checksum functions -/

set_option maxRecDepth 100000 in
/-- C15. `CRC16` is `0xFFFF` on the empty sequence, `0xD6F5` on
`01 03 00 6B 00 01` and `0x0B98` on `01 06 00 01 00 03`; on every sequence it
is the Modbus CRC-16 as described (start at `0xFFFF`, XOR each byte into the
low byte, then eight times shift right and XOR with `0xA001` when the bit
shifted out was 1), a 16-bit value. -/
theorem CRC16_is_modbus_crc :
    CRC16 [] = 0xFFFF ∧
    CRC16 [0x01, 0x03, 0x00, 0x6B, 0x00, 0x01] = 0xD6F5 ∧
    CRC16 [0x01, 0x06, 0x00, 0x01, 0x00, 0x03] = 0x0B98 ∧
    ∀ d, CRC16 d = crc16Reference d ∧ CRC16 d < 65536 :=
  ⟨by decide, by decide, by decide, fun d => ⟨crcLoop_eq_foldl d 0xFFFF, CRC16_lt d⟩⟩

/-- C16. For every byte sequence `d`, `AppendCRC16(d)` has `len(d) + 2`
bytes, its first `len(d)` bytes are `d`, the byte at `len(d)` is the low byte
of `CRC16(d)` and the byte at `len(d) + 1` is its high byte. -/
theorem AppendCRC16_layout (d : List (Fin 256)) :
    (AppendCRC16 d).length = d.length + 2 ∧
    (AppendCRC16 d).take d.length = d ∧
    ((AppendCRC16 d)[d.length]?).map Fin.val = some (CRC16 d % 256) ∧
    ((AppendCRC16 d)[d.length + 1]?).map Fin.val = some (CRC16 d / 256) := by
  rw [AppendCRC16_eq, (getElem?_append_pair d _ _).1, (getElem?_append_pair d _ _).2]
  refine ⟨by simp, by simp, ?_, ?_⟩
  · simp [byte_val]
  · have h := CRC16_lt d
    have e : (CRC16 d >>> 8) % 256 = CRC16 d / 256 := by
      rw [Nat.shiftRight_eq_div_pow]
      omega
    simp [byte_val, e]

/-- C17. For every byte sequence `d`, `CheckCRC16(AppendCRC16(d))` is true and
`ExtractWithoutCRC16(AppendCRC16(d))` is `d`; on every sequence of fewer than
2 bytes `CheckCRC16` is false. -/
theorem CheckCRC16_roundtrip (d : List (Fin 256)) :
    CheckCRC16 (AppendCRC16 d) = some true ∧
    ExtractWithoutCRC16 (AppendCRC16 d) = some d ∧
    ∀ r : List (Fin 256), r.length < 2 → CheckCRC16 r = some false := by
  refine ⟨CheckCRC16_AppendCRC16 d, ?_, CheckCRC16_short⟩
  have hl : ¬ (AppendCRC16 d).length < 2 := by
    rw [AppendCRC16_eq]
    simp
  unfold ExtractWithoutCRC16
  rw [if_neg hl, take_AppendCRC16]

/-- C17 on the empty sequence and on the one-byte sequence `07`. -/
theorem CheckCRC16_roundtrip_witness :
    CheckCRC16 (AppendCRC16 []) = some true ∧
    ExtractWithoutCRC16 (AppendCRC16 []) = some [] ∧
    ([0x07] : List (Fin 256)).length < 2 ∧ CheckCRC16 [0x07] = some false :=
  ⟨(CheckCRC16_roundtrip []).1, (CheckCRC16_roundtrip []).2.1, by decide,
    (CheckCRC16_roundtrip []).2.2 [0x07] (by decide)⟩

/-- C18. For every byte sequence `d`, every position `i < len(d) + 2` and
every byte `b` other than the byte at position `i` of `AppendCRC16(d)`,
`CheckCRC16` is false on the frame with the byte at `i` replaced by `b`. -/
theorem CheckCRC16_detects_change (d : List (Fin 256)) (i : Nat) (b : Fin 256)
    (hi : i < d.length + 2) (hb : (AppendCRC16 d)[i]? ≠ some b) :
    CheckCRC16 ((AppendCRC16 d).set i b) = some false := by
  rw [AppendCRC16_eq] at hb ⊢
  have hw := word_of_crc (CRC16_lt d)
  by_cases h1 : i < d.length
  · rw [List.set_append_left _ _ h1, CheckCRC16_append, hw]
    rw [List.getElem?_append_left h1] at hb
    have hne : CRC16 (d.set i b) ≠ CRC16 d := crcLoop_set_ne d i b (by decide) h1 hb
    simp [hne]
  · have h2 : d.length ≤ i := Nat.le_of_not_lt h1
    rw [List.getElem?_append_right h2] at hb
    rw [List.set_append_right _ _ h2]
    have h3 : i - d.length = 0 ∨ i - d.length = 1 := by omega
    rcases h3 with h3 | h3
    · rw [h3] at hb ⊢
      simp only [List.getElem?_cons_zero, ne_eq, Option.some.injEq] at hb
      simp only [List.set_cons_zero]
      rw [CheckCRC16_append]
      have hne : ¬ CRC16 d = 256 * (byte (CRC16 d >>> 8)).val + b.val := by
        intro he
        apply hb
        apply Fin.ext
        omega
      simp [hne]
    · rw [h3] at hb ⊢
      simp only [List.getElem?_cons_succ, List.getElem?_cons_zero, ne_eq,
        Option.some.injEq] at hb
      simp only [List.set_cons_succ, List.set_cons_zero]
      rw [CheckCRC16_append]
      have hne : ¬ CRC16 d = 256 * b.val + (byte (CRC16 d)).val := by
        intro he
        apply hb
        apply Fin.ext
        omega
      simp [hne]

/-- C18 on the frame of `01 03 00 6B 00 01` with its first byte replaced by
`02`. -/
theorem CheckCRC16_detects_change_witness :
    (0 : Nat) < ([0x01, 0x03, 0x00, 0x6B, 0x00, 0x01] : List (Fin 256)).length + 2 ∧
    (AppendCRC16 [0x01, 0x03, 0x00, 0x6B, 0x00, 0x01])[0]? ≠ some 0x02 ∧
    CheckCRC16 ((AppendCRC16 [0x01, 0x03, 0x00, 0x6B, 0x00, 0x01]).set 0 0x02) = some false :=
  ⟨by decide, by decide,
    CheckCRC16_detects_change [0x01, 0x03, 0x00, 0x6B, 0x00, 0x01] 0 0x02 (by decide)
      (by decide)⟩

/-! ## Validation of a response -/

set_option maxRecDepth 100000 in
theorem IsError_iff : ∀ b : Fin 256, IsError b = decide (128 ≤ b.val) := by
  decide

set_option maxRecDepth 100000 in
theorem set_bit_clear :
    ∀ f : Fin 256, f.val < 128 →
      IsError (byte (f.val ||| 0x80)) = true ∧
      byte ((byte (f.val ||| 0x80)).val &&& (0xFF ^^^ 0x80)) = f := by
  decide

theorem ParseError_set_bit (f : Fin 256) (h : f.val < 128) (x : Fin 256) :
    ParseError (byte (f.val ||| 0x80)) x = GoError.ModbusError f x := by
  unfold ParseError
  rw [(set_bit_clear f h).2]

/-- A response of at least 4 bytes is a slave id, a function code, data and
two checksum bytes. -/
theorem frame_split (r : List (Fin 256)) (h : 4 ≤ r.length) :
    ∃ b0 b1 rest x y, r = b0 :: b1 :: (rest ++ [x, y]) := by
  match r, h with
  | b0 :: b1 :: t, h =>
    have ht : 2 ≤ t.length := by
      simp only [List.length_cons] at h
      omega
    have hd : (t.drop (t.length - 2)).length = 2 := by
      rw [List.length_drop]
      omega
    match hq : t.drop (t.length - 2), hd with
    | [x, y], _ =>
      refine ⟨b0, b1, t.take (t.length - 2), x, y, ?_⟩
      rw [← hq, List.take_append_drop]

theorem ValidateResponse_frame (b0 b1 : Fin 256) (rest : List (Fin 256)) (x y s f : Fin 256) :
    ValidateResponse (b0 :: b1 :: (rest ++ [x, y])) s f =
      if CRC16 (b0 :: b1 :: rest) ≠ 256 * y.val + x.val then
        some (Returned.err GoError.ErrCRCMismatch)
      else if b0 ≠ s then some (Returned.err GoError.ErrInvalidSlaveID)
      else if IsError b1 = true then
        match rest with
        | [] => some (Returned.err GoError.ErrResponseTooShort)
        | b2 :: _ => some (Returned.err (ParseError b1 b2))
      else if b1 ≠ f then some (Returned.err GoError.ErrInvalidFunction)
      else some (Returned.ok ()) := by
  have e : b0 :: b1 :: (rest ++ [x, y]) = (b0 :: b1 :: rest) ++ [x, y] := rfl
  have hl : ((b0 :: b1 :: rest) ++ [x, y]).length = rest.length + 4 := by simp
  have e2 : ((((b0 :: b1 :: rest) ++ [x, y]).length : Nat) : Int) - 2 =
      (((b0 :: b1 :: rest).length : Nat) : Int) := by
    rw [hl]
    simp only [List.length_cons]
    push_cast
    omega
  rw [e]
  unfold ValidateResponse
  rw [if_neg (by rw [hl]; omega), CheckCRC16_append, e2, slice_zero _ _ (by simp)]
  by_cases hc : CRC16 (b0 :: b1 :: rest) = 256 * y.val + x.val
  · simp only [hc, decide_True, ne_eq, not_true_eq_false, if_false, List.take_left',
      List.getElem?_cons_zero, List.getElem?_cons_succ, List.length_cons]
    by_cases h0 : b0 = s
    · simp only [h0, not_true_eq_false, if_false]
      by_cases h1 : IsError b1 = true
      · simp only [h1, if_true]
        cases rest with
        | nil => simp
        | cons b2 t => simp
      · simp only [h1, Bool.false_eq_true, if_false]
    · simp only [h0, not_false_eq_true, if_true]
  · simp [hc]

/-- C19. `ValidateResponse(r, s, f)` returns nil exactly when `r` has at least
4 bytes, its last two bytes are the little-endian `CRC16` of the bytes before
them, `r[0]` is `s`, and `r[1]` is `f` with its high bit clear.  Otherwise it
returns the error of the first check that fails: `ErrResponseTooShort` for
fewer than 4 bytes, `ErrCRCMismatch`, `ErrInvalidSlaveID`, for a function code
with the high bit set the exception (`ErrResponseTooShort` when the frame has
no third byte, else the `ModbusError` of `r[1]` and `r[2]`), and
`ErrInvalidFunction`. -/
theorem ValidateResponse_checks (r : List (Fin 256)) (s f : Fin 256) :
    (ValidateResponse r s f = some (Returned.ok ()) ↔
      4 ≤ r.length ∧ AppendCRC16 (r.take (r.length - 2)) = r ∧ r[0]? = some s ∧
        r[1]? = some f ∧ f.val < 128) ∧
    (r.length < 4 → ValidateResponse r s f = some (Returned.err GoError.ErrResponseTooShort)) ∧
    (4 ≤ r.length → AppendCRC16 (r.take (r.length - 2)) ≠ r →
      ValidateResponse r s f = some (Returned.err GoError.ErrCRCMismatch)) ∧
    (4 ≤ r.length → AppendCRC16 (r.take (r.length - 2)) = r → r[0]? ≠ some s →
      ValidateResponse r s f = some (Returned.err GoError.ErrInvalidSlaveID)) ∧
    (4 ≤ r.length → AppendCRC16 (r.take (r.length - 2)) = r → r[0]? = some s →
      ∀ b1, r[1]? = some b1 → 128 ≤ b1.val →
        (r.length < 5 →
          ValidateResponse r s f = some (Returned.err GoError.ErrResponseTooShort)) ∧
        (5 ≤ r.length → ∀ b2, r[2]? = some b2 →
          ValidateResponse r s f = some (Returned.err (ParseError b1 b2)))) ∧
    (4 ≤ r.length → AppendCRC16 (r.take (r.length - 2)) = r → r[0]? = some s →
      ∀ b1, r[1]? = some b1 → b1.val < 128 → b1 ≠ f →
        ValidateResponse r s f = some (Returned.err GoError.ErrInvalidFunction)) := by
  by_cases hlen : r.length < 4
  · have hv : ValidateResponse r s f = some (Returned.err GoError.ErrResponseTooShort) := by
      simp [ValidateResponse, hlen]
    refine ⟨?_, fun _ => hv, ?_, ?_, ?_, ?_⟩
    · rw [hv]
      constructor
      · intro h
        cases h
      · intro h
        omega
    all_goals intro h; omega
  · have h4 : 4 ≤ r.length := Nat.le_of_not_lt hlen
    obtain ⟨b0, b1, rest, x, y, rfl⟩ := frame_split r h4
    have htake : (b0 :: b1 :: (rest ++ [x, y])).take
        ((b0 :: b1 :: (rest ++ [x, y])).length - 2) = b0 :: b1 :: rest := by
      have e : b0 :: b1 :: (rest ++ [x, y]) = (b0 :: b1 :: rest) ++ [x, y] := rfl
      have hl : (b0 :: b1 :: (rest ++ [x, y])).length - 2 = (b0 :: b1 :: rest).length := by
        simp
      rw [hl, e, List.take_left']
      rfl
    have hcrc : AppendCRC16 (b0 :: b1 :: rest) = b0 :: b1 :: (rest ++ [x, y]) ↔
        CRC16 (b0 :: b1 :: rest) = 256 * y.val + x.val := by
      rw [AppendCRC16_eq]
      have e : b0 :: b1 :: (rest ++ [x, y]) = (b0 :: b1 :: rest) ++ [x, y] := rfl
      rw [e, List.append_cancel_left_eq]
      have hw := word_of_crc (CRC16_lt (b0 :: b1 :: rest))
      constructor
      · intro h
        simp only [List.cons.injEq, and_true] at h
        rw [← h.1, ← h.2]
        exact hw.symm
      · intro h
        have h1 : (byte (CRC16 (b0 :: b1 :: rest))).val = x.val := by
          have := x.isLt
          rw [byte_val]
          omega
        have h2 : (byte (CRC16 (b0 :: b1 :: rest) >>> 8)).val = y.val := by
          omega
        rw [Fin.ext h1, Fin.ext h2]
    have hlen5 : (b0 :: b1 :: (rest ++ [x, y])).length < 5 ↔ rest = [] := by
      cases rest <;> simp
    have hlen5b : 5 ≤ (b0 :: b1 :: (rest ++ [x, y])).length ↔ rest ≠ [] := by
      cases rest <;> simp
    rw [htake, hcrc, hlen5, hlen5b, ValidateResponse_frame]
    simp only [List.getElem?_cons_zero, List.getElem?_cons_succ, Option.some.injEq]
    by_cases hc : CRC16 (b0 :: b1 :: rest) = 256 * y.val + x.val
    · rw [if_neg (fun h => h hc)]
      by_cases h0 : b0 = s
      · subst h0
        rw [if_neg (fun h => h rfl)]
        by_cases h1 : IsError b1 = true
        · rw [if_pos h1]
          have h7 : 128 ≤ b1.val := by
            rw [IsError_iff] at h1
            simpa using h1
          cases rest with
          | nil =>
            refine ⟨?_, fun h => absurd h hlen, ?_, ?_, ?_, ?_⟩
            · constructor
              · intro h
                cases h
              · rintro ⟨_, _, _, hf, hf7⟩
                subst hf
                omega
            · intro _ h
              exact absurd (hcrc.2 hc) h
            · intro _ _ h
              exact absurd rfl h
            · intro _ _ _ c1 _ _
              exact ⟨fun _ => rfl, fun h => absurd rfl h⟩
            · intro _ _ _ c1 hc1 h8
              subst hc1
              omega
          | cons b2 t =>
            refine ⟨?_, fun h => absurd h hlen, ?_, ?_, ?_, ?_⟩
            · constructor
              · intro h
                cases h
              · rintro ⟨_, _, _, hf, hf7⟩
                subst hf
                omega
            · intro _ h
              exact absurd (hcrc.2 hc) h
            · intro _ _ h
              exact absurd rfl h
            · intro _ _ _ c1 hc1 _
              subst hc1
              refine ⟨fun h => List.noConfusion h, fun _ c2 hc2 => ?_⟩
              simp only [List.cons_append, List.getElem?_cons_zero, Option.some.injEq] at hc2
              subst hc2
              rfl
            · intro _ _ _ c1 hc1 h8
              subst hc1
              omega
        · rw [if_neg h1]
          have h7 : b1.val < 128 := by
            rw [IsError_iff] at h1
            simpa using h1
          by_cases hf : b1 = f
          · subst hf
            rw [if_neg (fun h => h rfl)]
            refine ⟨?_, fun h => absurd h hlen, ?_, ?_, ?_, ?_⟩
            · exact ⟨fun _ => ⟨h4, hc, rfl, rfl, h7⟩, fun _ => rfl⟩
            · intro _ h
              exact absurd (hcrc.2 hc) h
            · intro _ _ h
              exact absurd rfl h
            · intro _ _ _ c1 hc1 h8
              subst hc1
              omega
            · intro _ _ _ c1 hc1 _ h9
              exact absurd hc1.symm h9
          · rw [if_pos hf]
            refine ⟨?_, fun h => absurd h hlen, ?_, ?_, ?_, ?_⟩
            · constructor
              · intro h
                cases h
              · rintro ⟨_, _, _, hf1, _⟩
                exact absurd hf1 hf
            · intro _ h
              exact absurd (hcrc.2 hc) h
            · intro _ _ h
              exact absurd rfl h
            · intro _ _ _ c1 hc1 h8
              subst hc1
              omega
            · intro _ _ _ c1 _ _ _
              rfl
      · rw [if_pos h0]
        refine ⟨?_, fun h => absurd h hlen, ?_, ?_, ?_, ?_⟩
        · constructor
          · intro h
            cases h
          · rintro ⟨_, _, h00, _, _⟩
            exact absurd h00 h0
        · intro _ h
          exact absurd (hcrc.2 hc) h
        · intro _ _ _
          rfl
        · intro _ _ h00
          exact absurd h00 h0
        · intro _ _ h00
          exact absurd h00 h0
    · rw [if_pos hc]
      refine ⟨?_, fun h => absurd h hlen, ?_, ?_, ?_, ?_⟩
      · constructor
        · intro h
          cases h
        · rintro ⟨_, hc1, _⟩
          exact absurd hc1 hc
      · intro _ _
        rfl
      · intro _ hc1
        exact absurd hc1 hc
      · intro _ hc1
        exact absurd hc1 hc
      · intro _ hc1
        exact absurd hc1 hc

set_option maxRecDepth 100000 in
/-- C19 on `01 03 02 00 0A 38 43`, which passes for the slave 1 and the
function code `0x03`, and on the two-byte sequence `01 03`, which is too
short. -/
theorem ValidateResponse_checks_witness :
    (4 ≤ exampleResponse.length ∧
      AppendCRC16 (exampleResponse.take (exampleResponse.length - 2)) = exampleResponse ∧
      exampleResponse[0]? = some 0x01 ∧ exampleResponse[1]? = some 0x03 ∧
      (0x03 : Fin 256).val < 128) ∧
    ValidateResponse exampleResponse 0x01 0x03 = some (Returned.ok ()) ∧
    ([0x01, 0x03] : List (Fin 256)).length < 4 ∧
    ValidateResponse [0x01, 0x03] 0x01 0x03 = some (Returned.err GoError.ErrResponseTooShort) :=
  ⟨by decide, (ValidateResponse_checks exampleResponse 0x01 0x03).1.2 (by decide), by decide,
    (ValidateResponse_checks [0x01, 0x03] 0x01 0x03).2.1 (by decide)⟩

/-! ## Exception responses -/

theorem ValidateResponse_exceptionFrame (s f x f1 : Fin 256) (hf : f.val < 128) :
    ValidateResponse (exceptionFrame s f x) s f1 =
      some (Returned.err (GoError.ModbusError f x)) := by
  have e : exceptionFrame s f x =
      s :: byte (f.val ||| 0x80) ::
        ([x] ++ [byte (CRC16 [s, byte (f.val ||| 0x80), x]),
          byte (CRC16 [s, byte (f.val ||| 0x80), x] >>> 8)]) := by
    unfold exceptionFrame
    rw [AppendCRC16_eq]
    rfl
  have hw := word_of_crc (CRC16_lt [s, byte (f.val ||| 0x80), x])
  rw [e, ValidateResponse_frame, if_neg (fun h => h hw.symm), if_neg (fun h => h rfl),
    if_pos (set_bit_clear f hf).1]
  simp only []
  rw [ParseError_set_bit f hf]

/-- C20. For every slave id `s`, function code `f` with the high bit clear and
exception code `x`, on the frame `AppendCRC16([s, f|0x80, x])` with the
expected slave `s`, `ValidateResponse` and each of the six `Parse...Response`
functions return the `ModbusError` with `FunctionCode` `f` and `ExceptionCode`
`x`, whatever the expected function code, address, value or quantity. -/
theorem exception_response (s f x f1 : Fin 256) (hf : f.val < 128) (a q : Nat) (v : Bool) :
    ValidateResponse (exceptionFrame s f x) s f1 =
      some (Returned.err (GoError.ModbusError f x)) ∧
    ParseReadBitsResponse (exceptionFrame s f x) s f1 =
      some (Returned.err (GoError.ModbusError f x)) ∧
    ParseReadRegistersResponse (exceptionFrame s f x) s f1 =
      some (Returned.err (GoError.ModbusError f x)) ∧
    ParseWriteSingleCoilResponse (exceptionFrame s f x) s a v =
      some (Returned.err (GoError.ModbusError f x)) ∧
    ParseWriteSingleRegisterResponse (exceptionFrame s f x) s a q =
      some (Returned.err (GoError.ModbusError f x)) ∧
    ParseWriteMultipleCoilsResponse (exceptionFrame s f x) s a q =
      some (Returned.err (GoError.ModbusError f x)) ∧
    ParseWriteMultipleRegistersResponse (exceptionFrame s f x) s a q =
      some (Returned.err (GoError.ModbusError f x)) := by
  have hv := fun f1 => ValidateResponse_exceptionFrame s f x f1 hf
  refine ⟨hv f1, ?_, ?_, ?_, ?_, ?_, ?_⟩
  · simp only [ParseReadBitsResponse, hv]
  · simp only [ParseReadRegistersResponse, hv]
  · simp only [ParseWriteSingleCoilResponse, parseWrite, hv]
  · simp only [ParseWriteSingleRegisterResponse, parseWrite, hv]
  · simp only [ParseWriteMultipleCoilsResponse, parseWrite, hv]
  · simp only [ParseWriteMultipleRegistersResponse, parseWrite, hv]

set_option maxRecDepth 100000 in
/-- C20 on the frame `01 83 02` with its checksum `C0 F1`: the error has
function code `0x03` and exception code `0x02`, here with the expected
function code `0x03`. -/
theorem exception_response_witness :
    (0x03 : Fin 256).val < 128 ∧
    exceptionFrame 0x01 0x03 0x02 = [0x01, 0x83, 0x02, 0xC0, 0xF1] ∧
    ValidateResponse (exceptionFrame 0x01 0x03 0x02) 0x01 0x03 =
      some (Returned.err (GoError.ModbusError 0x03 0x02)) ∧
    ParseReadRegistersResponse (exceptionFrame 0x01 0x03 0x02) 0x01 0x03 =
      some (Returned.err (GoError.ModbusError 0x03 0x02)) :=
  ⟨by decide, by decide,
    (exception_response 0x01 0x03 0x02 0x03 (by decide) 0 0 false).1,
    (exception_response 0x01 0x03 0x02 0x03 (by decide) 0 0 false).2.2.1⟩

/-! ## Requests -/

theorem NewReadHoldingRegistersRequest_eq (s : Fin 256) (a q : Nat) :
    NewReadHoldingRegistersRequest s a q =
      some (AppendCRC16 [s, 0x03, byte (a >>> 8), byte a,
        byte ((if q < 1 ∨ q > 125 then 1 else q) >>> 8),
        byte (if q < 1 ∨ q > 125 then 1 else q)]) := by
  simp [NewReadHoldingRegistersRequest, setAt, PutUint16, slice, List.replicate]

theorem NewReadCoilsRequest_eq (s : Fin 256) (a q : Nat) :
    NewReadCoilsRequest s a q =
      some (AppendCRC16
        (if (if q < 1 ∨ q > 2000 then 1 else q) > 255 then
          [s, 0x01, byte (a >>> 8), byte a,
            byte ((if q < 1 ∨ q > 2000 then 1 else q) >>> 8),
            byte (if q < 1 ∨ q > 2000 then 1 else q)]
        else [s, 0x01, byte (a >>> 8), byte a, byte (if q < 1 ∨ q > 2000 then 1 else q)])) := by
  by_cases h1 : q < 1 ∨ q > 2000
  · simp only [NewReadCoilsRequest, if_pos h1]
    simp [setAt, PutUint16, slice, List.replicate]
  · simp only [NewReadCoilsRequest, if_neg h1]
    by_cases h2 : q > 255 <;> simp [setAt, PutUint16, slice, List.replicate, h2]

theorem NewWriteSingleCoilRequest_eq (s : Fin 256) (a : Nat) (v : Bool) :
    NewWriteSingleCoilRequest s a v =
      some (AppendCRC16 [s, 0x05, byte (a >>> 8), byte a, if v then 0xFF else 0x00, 0x00]) := by
  cases v <;> simp [NewWriteSingleCoilRequest, setAt, PutUint16, slice, List.replicate]

theorem slice_natCast {α : Type} (l : List α) (lo hi : Nat) (h1 : lo ≤ hi)
    (h2 : hi ≤ l.length) :
    slice l (lo : Int) (hi : Int) = some ((l.take hi).drop lo) := by
  have e1 : (lo : Int) ≤ (hi : Int) := by exact_mod_cast h1
  have e2 : (hi : Int) ≤ (l.length : Int) := by exact_mod_cast h2
  simp [slice, e1, e2]

theorem setAt_append {α : Type} (pre : List α) (x z : α) (t : List α) :
    setAt (pre ++ x :: t) pre.length z = some (pre ++ z :: t) := by
  have h : pre.length < (pre ++ x :: t).length := by simp
  rw [setAt, if_pos h, List.set_append_right _ _ (Nat.le_refl _)]
  simp

theorem PutUint16_append (pre : List (Fin 256)) (x y : Fin 256) (rest : List (Fin 256))
    (v : Nat) :
    PutUint16 (pre ++ x :: y :: rest) pre.length (pre.length + 2) v =
      some (pre ++ byte (v >>> 8) :: byte v :: rest) := by
  have hs : slice (pre ++ x :: y :: rest) (pre.length : Int) ((pre.length + 2 : Nat) : Int) =
      some [x, y] := by
    rw [slice_natCast _ _ _ (by omega) (by simp)]
    have e : pre ++ x :: y :: rest = (pre ++ [x, y]) ++ rest := by simp
    rw [e, List.take_left' (by simp)]
    simp
  have e3 : pre ++ byte (v >>> 8) :: y :: rest = (pre ++ [byte (v >>> 8)]) ++ y :: rest := by
    simp
  have e4 : pre.length + 1 = (pre ++ [byte (v >>> 8)]).length := by simp
  unfold PutUint16
  rw [hs]
  simp only [List.length_cons, List.length_nil, Nat.lt_irrefl, if_false, setAt_append]
  rw [e3, e4, setAt_append]
  simp

theorem registersFill_append (vs : List Nat) (i : Nat) (pre : List (Fin 256))
    (h : pre.length = 7 + i * 2) :
    registersFill vs i (pre ++ List.replicate (vs.length * 2) 0) =
      some (pre ++ bigEndianBytes vs) := by
  induction vs generalizing i pre with
  | nil => simp [registersFill, bigEndianBytes]
  | cons v t ih =>
    have e : List.replicate ((v :: t).length * 2) (0 : Fin 256) =
        0 :: 0 :: List.replicate (t.length * 2) 0 := by
      simp [List.length_cons, Nat.add_mul, List.replicate_succ]
    have e2 : pre ++ byte (v >>> 8) :: byte v :: List.replicate (t.length * 2) 0 =
        (pre ++ [byte (v >>> 8), byte v]) ++ List.replicate (t.length * 2) 0 := by
      simp
    rw [e, registersFill, ← h, PutUint16_append]
    simp only []
    rw [e2, ih (i + 1) _ (by simp [h]; omega)]
    simp [bigEndianBytes]

theorem NewWriteMultipleRegistersRequest_eq (s : Fin 256) (a : Nat) (vs : List Nat)
    (h : ¬ (vs.length < 1 ∨ vs.length > 123)) :
    NewWriteMultipleRegistersRequest s a vs =
      some (some (AppendCRC16
        ([s, 0x10, byte (a >>> 8), byte a, byte (vs.length >>> 8), byte vs.length,
          byte (vs.length * 2)] ++ bigEndianBytes vs))) := by
  have hm : vs.length % 65536 = vs.length := Nat.mod_eq_of_lt (by omega)
  have hf := registersFill_append vs 0
    [s, 0x10, byte (a >>> 8), byte a, byte (vs.length >>> 8), byte vs.length,
      byte (vs.length * 2)] rfl
  simp only [NewWriteMultipleRegistersRequest, if_neg h, hm]
  simp [setAt, PutUint16, slice, List.replicate_succ, Nat.add_comm 7]
  simp only [List.cons_append, List.nil_append] at hf
  rw [hf]
  rfl

set_option maxRecDepth 100000 in
/-- C21. For every slave id `s`, start address `a` and quantity `q`,
`NewReadHoldingRegistersRequest(s, a, q)` is
`AppendCRC16([s, 0x03, high(a), low(a), high(q1), low(q1)])` with `q1 = q` when
`1 <= q <= 125` and `q1 = 1` otherwise, a frame of 8 bytes; for `(1, 0x6B, 3)`
it is `01 03 00 6B 00 03` and the checksum bytes `74 17`. -/
theorem NewReadHoldingRegistersRequest_frame (s : Fin 256) (a q : Nat) :
    NewReadHoldingRegistersRequest s a q =
      some (AppendCRC16 [s, 0x03, byte (a >>> 8), byte a,
        byte ((if 1 ≤ q ∧ q ≤ 125 then q else 1) >>> 8),
        byte (if 1 ≤ q ∧ q ≤ 125 then q else 1)]) ∧
    (∃ r, NewReadHoldingRegistersRequest s a q = some r ∧ r.length = 8) ∧
    NewReadHoldingRegistersRequest 0x01 0x6B 3 =
      some [0x01, 0x03, 0x00, 0x6B, 0x00, 0x03, 0x74, 0x17] := by
  have e : (if q < 1 ∨ q > 125 then 1 else q) = (if 1 ≤ q ∧ q ≤ 125 then q else 1) := by
    by_cases h : 1 ≤ q ∧ q ≤ 125
    · rw [if_pos h, if_neg (by omega)]
    · rw [if_neg h, if_pos (by omega)]
  have h := NewReadHoldingRegistersRequest_eq s a q
  rw [e] at h
  refine ⟨h, ⟨_, h, ?_⟩, by decide⟩
  rw [AppendCRC16_eq]
  simp

set_option maxRecDepth 100000 in
/-- C22, the code at `(1, 0, 8)`. `NewReadCoilsRequest(1, 0, 8)` is the
7-byte frame `01 01 00 00 08 19 FA`, with the quantity in one byte, and not
`AppendCRC16([01, 01, 00, 00, 00, 08])`, the 8-byte frame
`01 01 00 00 00 08 3D CC`. -/
theorem NewReadCoilsRequest_one_byte_quantity :
    NewReadCoilsRequest 0x01 0 8 = some [0x01, 0x01, 0x00, 0x00, 0x08, 0x19, 0xFA] ∧
    AppendCRC16 [0x01, 0x01, 0x00, 0x00, 0x00, 0x08] =
      [0x01, 0x01, 0x00, 0x00, 0x00, 0x08, 0x3D, 0xCC] ∧
    NewReadCoilsRequest 0x01 0 8 ≠ some (AppendCRC16 [0x01, 0x01, 0x00, 0x00, 0x00, 0x08]) := by
  decide

/-- C23. `NewWriteMultipleRegistersRequest(s, a, vs)` returns nil exactly when
`len(vs) < 1` or `len(vs) > 123`; otherwise, with `n = len(vs)`, it is
`AppendCRC16` of `s, 0x10, high(a), low(a), high(n), low(n), 2n` followed by the
two big-endian bytes of each value in order, and the byte count `2n` fits in
one byte. -/
theorem NewWriteMultipleRegistersRequest_frame (s : Fin 256) (a : Nat) (vs : List Nat) :
    (NewWriteMultipleRegistersRequest s a vs = some none ↔
      vs.length < 1 ∨ vs.length > 123) ∧
    (1 ≤ vs.length → vs.length ≤ 123 →
      NewWriteMultipleRegistersRequest s a vs =
        some (some (AppendCRC16
          ([s, 0x10, byte (a >>> 8), byte a, byte (vs.length >>> 8), byte vs.length,
            byte (vs.length * 2)] ++ bigEndianBytes vs))) ∧
      (byte (vs.length * 2)).val = vs.length * 2) := by
  constructor
  · constructor
    · intro h
      by_contra hc
      rw [NewWriteMultipleRegistersRequest_eq s a vs hc] at h
      cases h
    · intro h
      simp only [NewWriteMultipleRegistersRequest, if_pos h]
  · intro h1 h2
    refine ⟨NewWriteMultipleRegistersRequest_eq s a vs (by omega), ?_⟩
    rw [byte_val]
    omega

set_option maxRecDepth 100000 in
/-- C23 on `(1, 1, [0x000A, 0x0102])`: the frame is
`01 10 00 01 00 02 04 00 0A 01 02` and the checksum bytes `92 30`; on the
empty list the result is nil. -/
theorem NewWriteMultipleRegistersRequest_frame_witness :
    (1 ≤ ([0x000A, 0x0102] : List Nat).length ∧ ([0x000A, 0x0102] : List Nat).length ≤ 123) ∧
    NewWriteMultipleRegistersRequest 0x01 1 [0x000A, 0x0102] =
      some (some (AppendCRC16
        ([0x01, 0x10, byte (1 >>> 8), byte 1, byte (2 >>> 8), byte 2, byte (2 * 2)] ++
          bigEndianBytes [0x000A, 0x0102]))) ∧
    AppendCRC16 ([0x01, 0x10, byte (1 >>> 8), byte 1, byte (2 >>> 8), byte 2, byte (2 * 2)] ++
        bigEndianBytes [0x000A, 0x0102]) =
      [0x01, 0x10, 0x00, 0x01, 0x00, 0x02, 0x04, 0x00, 0x0A, 0x01, 0x02, 0x92, 0x30] ∧
    NewWriteMultipleRegistersRequest 0x01 1 [] = some none :=
  ⟨by decide,
    ((NewWriteMultipleRegistersRequest_frame 0x01 1 [0x000A, 0x0102]).2
      (by decide) (by decide)).1,
    by decide,
    (NewWriteMultipleRegistersRequest_frame 0x01 1 []).1.2 (Or.inl (by decide))⟩

/-! ## Responses with a valid checksum -/

theorem ValidateResponse_AppendCRC16 (b0 b1 : Fin 256) (rest : List (Fin 256))
    (h : b1.val < 128) :
    ValidateResponse (AppendCRC16 (b0 :: b1 :: rest)) b0 b1 = some (Returned.ok ()) := by
  have e : AppendCRC16 (b0 :: b1 :: rest) =
      b0 :: b1 :: (rest ++ [byte (CRC16 (b0 :: b1 :: rest)),
        byte (CRC16 (b0 :: b1 :: rest) >>> 8)]) := by
    rw [AppendCRC16_eq]
    rfl
  have hw := word_of_crc (CRC16_lt (b0 :: b1 :: rest))
  have h1 : ¬ IsError b1 = true := by
    rw [IsError_iff]
    simpa using h
  rw [e, ValidateResponse_frame, if_neg (fun hc => hc hw.symm), if_neg (fun hc => hc rfl),
    if_neg h1, if_neg (fun hc => hc rfl)]

theorem Uint16_pair (hi lo : Fin 256) : Uint16 [hi, lo] = some (256 * hi.val + lo.val) := by
  simp [Uint16, word_eq]

theorem Uint16_bytes {a : Nat} (h : a < 65536) : Uint16 [byte (a >>> 8), byte a] = some a := by
  rw [Uint16_pair, word_of_crc h]

/-- C27. For every slave id `s`, address `a` and boolean `v`, the request
`NewWriteSingleCoilRequest(s, a, v)` is the frame of `s, 0x05, high(a), low(a)`
and `FF 00` for true or `00 00` for false, and
`ParseWriteSingleCoilResponse` on that frame with `s`, `a` and `v` returns
nil. -/
theorem WriteSingleCoil_echo (s : Fin 256) (a : Nat) (v : Bool) (ha : a < 65536) :
    ∃ req, NewWriteSingleCoilRequest s a v = some req ∧
      req = AppendCRC16 [s, 0x05, byte (a >>> 8), byte a, if v then 0xFF else 0x00, 0x00] ∧
      ParseWriteSingleCoilResponse req s a v = some (Returned.ok ()) := by
  refine ⟨_, NewWriteSingleCoilRequest_eq s a v, rfl, ?_⟩
  have hv := ValidateResponse_AppendCRC16 s 0x05
    [byte (a >>> 8), byte a, if v then 0xFF else 0x00, 0x00] (by decide)
  have hs : slice [s, 0x05, byte (a >>> 8), byte a, if v then 0xFF else 0x00, 0x00] 2 4 =
      some [byte (a >>> 8), byte a] := by
    simp [slice]
  simp only [ParseWriteSingleCoilResponse, parseWrite, hv, take_AppendCRC16]
  rw [hs]
  simp only [Option.some_bind, Uint16_bytes ha]
  cases v <;> simp

set_option maxRecDepth 100000 in
/-- C27 on the slave 1, the address `0xAC` and the value true: the frame is
`01 05 00 AC FF 00` and the checksum bytes `4C 1B`. -/
theorem WriteSingleCoil_echo_witness :
    (0xAC : Nat) < 65536 ∧
    NewWriteSingleCoilRequest 0x01 0xAC true =
      some [0x01, 0x05, 0x00, 0xAC, 0xFF, 0x00, 0x4C, 0x1B] ∧
    ∃ req, NewWriteSingleCoilRequest 0x01 0xAC true = some req ∧
      req = AppendCRC16 [0x01, 0x05, byte (0xAC >>> 8), byte 0xAC,
        if true = true then 0xFF else 0x00, 0x00] ∧
      ParseWriteSingleCoilResponse req 0x01 0xAC true = some (Returned.ok ()) :=
  ⟨by decide, by decide, WriteSingleCoil_echo 0x01 0xAC true (by decide)⟩

set_option maxRecDepth 100000 in
/-- C28, the code on the frame `01 05 00 01 12 34 91 7D`. The frame passes
`ValidateResponse` for the slave 1 and the function code `0x05`, its address is
1, its value bytes `12 34` are not `00 00`, and
`ParseWriteSingleCoilResponse` with the expected value false returns nil, not
the value-mismatch error. -/
theorem ParseWriteSingleCoilResponse_accepts_other_value :
    ValidateResponse [0x01, 0x05, 0x00, 0x01, 0x12, 0x34, 0x91, 0x7D] 0x01 0x05 =
      some (Returned.ok ()) ∧
    ParseWriteSingleCoilResponse [0x01, 0x05, 0x00, 0x01, 0x12, 0x34, 0x91, 0x7D] 0x01 1 false =
      some (Returned.ok ()) ∧
    ParseWriteSingleCoilResponse [0x01, 0x05, 0x00, 0x01, 0x12, 0x34, 0x91, 0x7D] 0x01 1 true =
      some (Returned.err GoError.valueMismatch) := by
  decide

/-! ## Register responses -/

theorem validated_length {r : List (Fin 256)} {s f : Fin 256}
    (hv : ValidateResponse r s f = some (Returned.ok ())) : 4 ≤ r.length := by
  by_contra h
  have h1 : r.length < 4 := by omega
  rw [ValidateResponse, if_pos h1] at hv
  cases hv

theorem slice_frameData (r : List (Fin 256)) (h : 2 ≤ r.length) :
    slice r 0 ((r.length : Int) - 2) = some (r.take (r.length - 2)) := by
  have e : (r.length : Int) - 2 = ((r.length - 2 : Nat) : Int) := by omega
  rw [e, slice_zero _ _ (by omega)]

theorem bigEndianBytes_length (vs : List Nat) : (bigEndianBytes vs).length = 2 * vs.length := by
  induction vs with
  | nil => rfl
  | cons v t ih =>
    simp only [bigEndianBytes, List.length_cons, ih]
    omega

theorem bigEndianBytes_append (xs ys : List Nat) :
    bigEndianBytes (xs ++ ys) = bigEndianBytes xs ++ bigEndianBytes ys := by
  induction xs with
  | nil => rfl
  | cons v t ih => simp [bigEndianBytes, ih]

theorem registersLoop_bigEndianBytes (vs done : List Nat) (pad : List Nat)
    (hpad : pad.length = vs.length) (hv : ∀ v ∈ vs, v < 65536) :
    registersLoop (bigEndianBytes (done ++ vs)) vs.length done.length (done ++ pad) =
      some (done ++ vs) := by
  induction vs generalizing done pad with
  | nil =>
    have : pad = [] := List.eq_nil_of_length_eq_zero hpad
    subst this
    simp [registersLoop]
  | cons v t ih =>
    cases pad with
    | nil => simp at hpad
    | cons p pad1 =>
      have hs : slice (bigEndianBytes (done ++ v :: t)) ((done.length * 2 : Nat) : Int)
          (((done.length * 2 : Nat) : Int) + 2) = some [byte (v >>> 8), byte v] := by
        have e : ((done.length * 2 : Nat) : Int) + 2 = ((done.length * 2 + 2 : Nat) : Int) := by
          push_cast
          rfl
        have hl : (bigEndianBytes done).length = done.length * 2 := by
          rw [bigEndianBytes_length]
          omega
        have e2 : bigEndianBytes (done ++ v :: t) =
            (bigEndianBytes done ++ [byte (v >>> 8), byte v]) ++ bigEndianBytes t := by
          rw [bigEndianBytes_append]
          simp [bigEndianBytes]
        rw [e, slice_natCast _ _ _ (by omega)
          (by rw [bigEndianBytes_length]; simp; omega), e2,
          List.take_left' (by simp [hl]), ← hl, List.drop_left]
      have hv1 : v < 65536 := hv v (List.mem_cons_self _ _)
      have e3 : done ++ v :: t = (done ++ [v]) ++ t := by simp
      have e4 : done ++ v :: pad1 = (done ++ [v]) ++ pad1 := by simp
      have e5 : done.length + 1 = (done ++ [v]).length := by simp
      simp only [List.length_cons, registersLoop, hs, Uint16_bytes hv1, setAt_append]
      rw [e3, e4, e5]
      exact ih (done ++ [v]) pad1 (by simpa using hpad)
        (fun x hx => hv x (List.mem_cons_of_mem _ hx))

theorem ParseReadRegistersResponse_short (r : List (Fin 256)) (s f c : Fin 256)
    (hv : ValidateResponse r s f = some (Returned.ok ())) (hc : r[2]? = some c)
    (hlen : r.length - 2 < 3 + c.val) :
    ParseReadRegistersResponse r s f = some (Returned.err GoError.ErrResponseTooShort) := by
  have h4 := validated_length hv
  simp only [ParseReadRegistersResponse, hv, slice_frameData r (by omega)]
  by_cases h3 : (r.take (r.length - 2)).length < 3
  · rw [if_pos h3]
  · rw [if_neg h3]
    have h5 : 2 < r.length - 2 := by
      rw [List.length_take] at h3
      omega
    have hg : (r.take (r.length - 2))[2]? = some c := by
      rw [List.getElem?_take, if_pos h5, hc]
    have hl : (r.take (r.length - 2)).length < 3 + c.val := by
      rw [List.length_take]
      omega
    simp only [hg]
    rw [if_pos hl]

theorem ParseReadRegistersResponse_odd (r : List (Fin 256)) (s f c : Fin 256)
    (hv : ValidateResponse r s f = some (Returned.ok ())) (hc : r[2]? = some c)
    (hlen : 3 + c.val ≤ r.length - 2) (hodd : c.val % 2 = 1) :
    ParseReadRegistersResponse r s f = some (Returned.err GoError.ErrInvalidLength) := by
  have h4 := validated_length hv
  have h3 : ¬ (r.take (r.length - 2)).length < 3 := by
    rw [List.length_take]
    omega
  have hg : (r.take (r.length - 2))[2]? = some c := by
    rw [List.getElem?_take, if_pos (by omega), hc]
  have hl : ¬ (r.take (r.length - 2)).length < 3 + c.val := by
    rw [List.length_take]
    omega
  simp only [ParseReadRegistersResponse, hv, slice_frameData r (by omega)]
  rw [if_neg h3]
  simp only [hg]
  rw [if_neg hl, if_pos (by omega)]

theorem ParseReadRegistersResponse_encoding (s f : Fin 256) (regs : List Nat)
    (hf : f.val < 128) (hn : regs.length ≤ 127) (hr : ∀ v ∈ regs, v < 65536) :
    ParseReadRegistersResponse
      (AppendCRC16 ([s, f, byte (2 * regs.length)] ++ bigEndianBytes regs)) s f =
      some (Returned.ok regs) := by
  have hv := ValidateResponse_AppendCRC16 s f (byte (2 * regs.length) :: bigEndianBytes regs) hf
  have hb : (byte (2 * regs.length)).val = 2 * regs.length := by
    rw [byte_val]
    omega
  have hlen : (s :: f :: byte (2 * regs.length) :: bigEndianBytes regs).length =
      3 + 2 * regs.length := by
    simp only [List.length_cons, bigEndianBytes_length]
    omega
  have hs : slice (s :: f :: byte (2 * regs.length) :: bigEndianBytes regs) 3
      (3 + ((2 * regs.length : Nat) : Int)) = some (bigEndianBytes regs) := by
    have e : (3 : Int) + ((2 * regs.length : Nat) : Int) = ((3 + 2 * regs.length : Nat) : Int) := by
      push_cast
      rfl
    have e3 : (3 : Int) = ((3 : Nat) : Int) := rfl
    rw [e, e3, slice_natCast _ _ _ (by omega) (by omega), ← hlen, List.take_length]
    rfl
  have hloop := registersLoop_bigEndianBytes regs [] (List.replicate regs.length 0)
    (by simp) hr
  simp only [List.nil_append, List.length_nil] at hloop
  simp only [List.cons_append, List.nil_append, ParseReadRegistersResponse, hv,
    take_AppendCRC16]
  rw [if_neg (by omega)]
  simp only [List.getElem?_cons_succ, List.getElem?_cons_zero, hb]
  rw [if_neg (by omega), if_neg (by omega), hs]
  have e6 : 2 * regs.length / 2 = regs.length := by omega
  simp only [e6, hloop]

/-- C25, amended. `ParseReadRegistersResponse` inverts the encoding of a
register response: for a slave id `s`, a function code `f` with the high bit
clear and at most 127 values of 16 bits, the frame of `s`, `f`, the byte count
and the registers as two big-endian bytes each parses to the registers and a
nil error.  A validated frame whose byte count is odd and which holds at least
that many data bytes yields `ErrInvalidLength`; a validated frame with fewer
data bytes than its byte count yields `ErrResponseTooShort`, whatever the
parity of the count. -/
theorem ParseReadRegistersResponse_inverts :
    (∀ (s f : Fin 256) (regs : List Nat), f.val < 128 → regs.length ≤ 127 →
      (∀ v ∈ regs, v < 65536) →
      ParseReadRegistersResponse
        (AppendCRC16 ([s, f, byte (2 * regs.length)] ++ bigEndianBytes regs)) s f =
        some (Returned.ok regs)) ∧
    (∀ (r : List (Fin 256)) (s f c : Fin 256),
      ValidateResponse r s f = some (Returned.ok ()) → r[2]? = some c →
      (3 + c.val ≤ r.length - 2 → c.val % 2 = 1 →
        ParseReadRegistersResponse r s f = some (Returned.err GoError.ErrInvalidLength)) ∧
      (r.length - 2 < 3 + c.val →
        ParseReadRegistersResponse r s f = some (Returned.err GoError.ErrResponseTooShort))) :=
  ⟨fun s f regs hf hn hr => ParseReadRegistersResponse_encoding s f regs hf hn hr,
    fun r s f c hv hc =>
      ⟨fun hlen hodd => ParseReadRegistersResponse_odd r s f c hv hc hlen hodd,
        fun hlen => ParseReadRegistersResponse_short r s f c hv hc hlen⟩⟩

set_option maxRecDepth 100000 in
/-- C25 on the response `01 03 06 02 2B 00 00 00 64` with its checksum `05 7A`,
which parses to the registers `0x022B, 0x0000, 0x0064`; on the validated frame
`01 03 01 07` with its checksum, whose byte count 1 is odd; and on the validated
frame `01 03 04 07` with its checksum, which announces four data bytes and holds
one. -/
theorem ParseReadRegistersResponse_inverts_witness :
    AppendCRC16 ([0x01, 0x03, byte (2 * [0x022B, 0x0000, 0x0064].length)] ++
        bigEndianBytes [0x022B, 0x0000, 0x0064]) =
      [0x01, 0x03, 0x06, 0x02, 0x2B, 0x00, 0x00, 0x00, 0x64, 0x05, 0x7A] ∧
    ParseReadRegistersResponse
        (AppendCRC16 ([0x01, 0x03, byte (2 * [0x022B, 0x0000, 0x0064].length)] ++
          bigEndianBytes [0x022B, 0x0000, 0x0064])) 0x01 0x03 =
      some (Returned.ok [0x022B, 0x0000, 0x0064]) ∧
    ParseReadRegistersResponse (AppendCRC16 [0x01, 0x03, 0x01, 0x07]) 0x01 0x03 =
      some (Returned.err GoError.ErrInvalidLength) ∧
    ParseReadRegistersResponse (AppendCRC16 [0x01, 0x03, 0x04, 0x07]) 0x01 0x03 =
      some (Returned.err GoError.ErrResponseTooShort) :=
  ⟨by decide,
    ParseReadRegistersResponse_inverts.1 0x01 0x03 [0x022B, 0x0000, 0x0064]
      (by decide) (by decide) (by decide),
    (ParseReadRegistersResponse_inverts.2 (AppendCRC16 [0x01, 0x03, 0x01, 0x07]) 0x01 0x03 0x01
      (by decide) (by decide)).1 (by decide) (by decide),
    (ParseReadRegistersResponse_inverts.2 (AppendCRC16 [0x01, 0x03, 0x04, 0x07]) 0x01 0x03 0x04
      (by decide) (by decide)).2 (by decide)⟩

set_option maxRecDepth 100000 in
/-- C25, the claim as it stands fails on the frame `01 03 03 07 B0 EA`: it
passes `ValidateResponse` for the slave 1 and the function code 3, its byte
count 3 is odd, and `ParseReadRegistersResponse` returns
`ErrResponseTooShort`, not `ErrInvalidLength`, because the frame holds one data
byte and the length is checked before the parity. -/
theorem ParseReadRegistersResponse_odd_and_short :
    AppendCRC16 [0x01, 0x03, 0x03, 0x07] = [0x01, 0x03, 0x03, 0x07, 0xB0, 0xEA] ∧
    ValidateResponse [0x01, 0x03, 0x03, 0x07, 0xB0, 0xEA] 0x01 0x03 = some (Returned.ok ()) ∧
    ([0x01, 0x03, 0x03, 0x07, 0xB0, 0xEA] : List (Fin 256))[2]? = some 0x03 ∧
    (0x03 : Fin 256).val % 2 = 1 ∧
    ParseReadRegistersResponse [0x01, 0x03, 0x03, 0x07, 0xB0, 0xEA] 0x01 0x03 =
      some (Returned.err GoError.ErrResponseTooShort) ∧
    ParseReadRegistersResponse [0x01, 0x03, 0x03, 0x07, 0xB0, 0xEA] 0x01 0x03 ≠
      some (Returned.err GoError.ErrInvalidLength) := by
  decide

/-! ## Bit responses -/

theorem bit_mask (b : Fin 256) (j : Nat) (hj : j < 8) :
    decide (b.val &&& (1 <<< j) % 256 ≠ 0) = b.val.testBit j := by
  have h1 : (1 <<< j) % 256 = 2 ^ j := by
    rw [Nat.shiftLeft_eq, Nat.one_mul]
    have : 2 ^ j < 2 ^ 8 := Nat.pow_lt_pow_right (by decide) hj
    exact Nat.mod_eq_of_lt this
  rw [h1, Nat.and_two_pow]
  cases h : b.val.testBit j <;> simp

theorem bitsInner_spec (bitData : List (Fin 256)) (i : Nat) (b : Fin 256)
    (hb : bitData[i]? = some b) (n j : Nat) (result : List Bool)
    (hj : j + n ≤ 8) (hlen : i * 8 + j + n ≤ result.length) :
    ∃ res, bitsInner bitData i n j result = some res ∧ res.length = result.length ∧
      ∀ p, res[p]? =
        if i * 8 + j ≤ p ∧ p < i * 8 + j + n then some (b.val.testBit (p - i * 8))
        else result[p]? := by
  induction n generalizing j result with
  | zero =>
    refine ⟨result, rfl, rfl, fun p => ?_⟩
    rw [if_neg (by omega)]
  | succ n ih =>
    have h1 : i * 8 + j < result.length := by omega
    obtain ⟨res, hres, hl, hp⟩ := ih (j + 1)
      (result.set (i * 8 + j) (b.val.testBit j)) (by omega)
      (by rw [List.length_set]; omega)
    refine ⟨res, ?_, ?_, fun p => ?_⟩
    · simp only [bitsInner, hb, setAt, if_pos h1, bit_mask b j (by omega)]
      exact hres
    · rw [hl, List.length_set]
    · rw [hp p, List.getElem?_set]
      by_cases hp1 : i * 8 + j = p
      · subst hp1
        rw [if_neg (by omega), if_pos rfl, if_pos h1, if_pos (by omega)]
        congr 2
        omega
      · rw [if_neg hp1]
        by_cases hp2 : i * 8 + (j + 1) ≤ p ∧ p < i * 8 + (j + 1) + n
        · rw [if_pos hp2, if_pos (by omega)]
        · rw [if_neg hp2, if_neg (by omega)]

theorem bitsOuter_spec (bitData : List (Fin 256)) (n i : Nat) (result : List Bool)
    (hd : i + n ≤ bitData.length) (hlen : 8 * (i + n) ≤ result.length) :
    ∃ res, bitsOuter bitData n i result = some res ∧ res.length = result.length ∧
      ∀ p, res[p]? =
        if 8 * i ≤ p ∧ p < 8 * (i + n) then
          (bitData[p / 8]?).map fun b => b.val.testBit (p % 8)
        else result[p]? := by
  induction n generalizing i result with
  | zero =>
    refine ⟨result, rfl, rfl, fun p => ?_⟩
    rw [if_neg (by omega)]
  | succ n ih =>
    have hi : i < bitData.length := by omega
    have hb : bitData[i]? = some bitData[i] := List.getElem?_eq_getElem hi
    obtain ⟨r1, hr1, hl1, hp1⟩ := bitsInner_spec bitData i bitData[i] hb 8 0 result
      (by omega) (by omega)
    obtain ⟨res, hres, hl, hp⟩ := ih (i + 1) r1 (by omega) (by rw [hl1]; omega)
    refine ⟨res, ?_, ?_, fun p => ?_⟩
    · simp only [bitsOuter, hr1]
      exact hres
    · rw [hl, hl1]
    · rw [hp p]
      by_cases h2 : 8 * (i + 1) ≤ p ∧ p < 8 * (i + 1 + n)
      · rw [if_pos h2, if_pos (by omega)]
      · rw [if_neg h2, hp1 p]
        by_cases h3 : i * 8 + 0 ≤ p ∧ p < i * 8 + 0 + 8
        · have e1 : p / 8 = i := by omega
          have e2 : p - i * 8 = p % 8 := by omega
          rw [if_pos h3, if_pos (by omega), e1, hb, e2]
          rfl
        · rw [if_neg h3, if_neg (by omega)]

theorem ParseReadBitsResponse_short (r : List (Fin 256)) (s f c : Fin 256)
    (hv : ValidateResponse r s f = some (Returned.ok ())) (hc : r[2]? = some c)
    (hlen : r.length - 2 < 3 + c.val) :
    ParseReadBitsResponse r s f = some (Returned.err GoError.ErrResponseTooShort) := by
  have h4 := validated_length hv
  simp only [ParseReadBitsResponse, hv, slice_frameData r (by omega)]
  by_cases h3 : (r.take (r.length - 2)).length < 3
  · rw [if_pos h3]
  · rw [if_neg h3]
    have h5 : 2 < r.length - 2 := by
      rw [List.length_take] at h3
      omega
    have hg : (r.take (r.length - 2))[2]? = some c := by
      rw [List.getElem?_take, if_pos h5, hc]
    have hl : (r.take (r.length - 2)).length < 3 + c.val := by
      rw [List.length_take]
      omega
    simp only [hg]
    rw [if_pos hl]

theorem ParseReadBitsResponse_bits (r : List (Fin 256)) (s f c : Fin 256)
    (hv : ValidateResponse r s f = some (Returned.ok ())) (hc : r[2]? = some c)
    (hlen : 3 + c.val ≤ r.length - 2) :
    ∃ bits, ParseReadBitsResponse r s f = some (Returned.ok bits) ∧
      bits.length = 8 * c.val ∧
      ∀ i j, i < c.val → j < 8 →
        ∃ b, r[3 + i]? = some b ∧ bits[8 * i + j]? = some (b.val.testBit j) := by
  have h4 := validated_length hv
  have h3 : ¬ (r.take (r.length - 2)).length < 3 := by
    rw [List.length_take]
    omega
  have hg : (r.take (r.length - 2))[2]? = some c := by
    rw [List.getElem?_take, if_pos (by omega), hc]
  have hl : ¬ (r.take (r.length - 2)).length < 3 + c.val := by
    rw [List.length_take]
    omega
  have hs : slice (r.take (r.length - 2)) 3 (3 + (c.val : Int)) =
      some (((r.take (r.length - 2)).take (3 + c.val)).drop 3) := by
    have e : (3 : Int) + (c.val : Int) = ((3 + c.val : Nat) : Int) := by
      push_cast
      rfl
    have e3 : (3 : Int) = ((3 : Nat) : Int) := rfl
    rw [e, e3, slice_natCast _ _ _ (by omega) (by rw [List.length_take]; omega)]
  have hbl : (((r.take (r.length - 2)).take (3 + c.val)).drop 3).length = c.val := by
    rw [List.length_drop, List.length_take, List.length_take]
    omega
  obtain ⟨bits, hbits, hbl2, hp⟩ := bitsOuter_spec
    (((r.take (r.length - 2)).take (3 + c.val)).drop 3) c.val 0
    (List.replicate (c.val * 8) false) (by omega) (by rw [List.length_replicate]; omega)
  refine ⟨bits, ?_, ?_, fun i j hi hj => ?_⟩
  · simp only [ParseReadBitsResponse, hv, slice_frameData r (by omega)]
    rw [if_neg h3]
    simp only [hg]
    rw [if_neg hl, hs]
    simp only [hbits]
  · rw [hbl2, List.length_replicate]
    omega
  · have hlt : 3 + i < r.length := by omega
    refine ⟨r[3 + i], List.getElem?_eq_getElem hlt, ?_⟩
    have e1 : (8 * i + j) / 8 = i := by omega
    have e2 : (8 * i + j) % 8 = j := by omega
    rw [hp (8 * i + j), if_pos (by omega), e1, e2, List.getElem?_drop, List.getElem?_take,
      if_pos (by omega), List.getElem?_take, if_pos (by omega), List.getElem?_eq_getElem hlt]
    rfl

/-- C26. For a response `r` that passes `ValidateResponse`, with the byte count
`c = r[2]`: when `r` holds at least `c` data bytes between the byte count and
the checksum, `ParseReadBitsResponse` returns `8 * c` booleans and a nil error,
and the boolean `8 * i + j` is true exactly when bit `j` (the least significant
being bit 0) of the data byte `i`, which is `r[3 + i]`, is 1; when `r` holds
fewer than `c` data bytes it returns `ErrResponseTooShort`. -/
theorem ParseReadBitsResponse_all_bits (r : List (Fin 256)) (s f c : Fin 256)
    (hv : ValidateResponse r s f = some (Returned.ok ())) (hc : r[2]? = some c) :
    (3 + c.val ≤ r.length - 2 →
      ∃ bits, ParseReadBitsResponse r s f = some (Returned.ok bits) ∧
        bits.length = 8 * c.val ∧
        ∀ i j, i < c.val → j < 8 →
          ∃ b, r[3 + i]? = some b ∧ bits[8 * i + j]? = some (b.val.testBit j)) ∧
    (r.length - 2 < 3 + c.val →
      ParseReadBitsResponse r s f = some (Returned.err GoError.ErrResponseTooShort)) :=
  ⟨fun hlen => ParseReadBitsResponse_bits r s f c hv hc hlen,
    fun hlen => ParseReadBitsResponse_short r s f c hv hc hlen⟩

set_option maxRecDepth 100000 in
/-- C26 on the response `01 01 02 CD 01` with its checksum, which holds the ten
coils `1 0 1 1 0 0 1 1 1 0` and six padding bits: all sixteen bits are
returned.  The frame `01 01 02 CD` with its checksum announces two data bytes
and holds one. -/
theorem ParseReadBitsResponse_all_bits_witness :
    ParseReadBitsResponse (AppendCRC16 [0x01, 0x01, 0x02, 0xCD, 0x01]) 0x01 0x01 =
      some (Returned.ok [true, false, true, true, false, false, true, true,
        true, false, false, false, false, false, false, false]) ∧
    (∃ bits, ParseReadBitsResponse (AppendCRC16 [0x01, 0x01, 0x02, 0xCD, 0x01]) 0x01 0x01 =
        some (Returned.ok bits) ∧
      bits.length = 8 * (0x02 : Fin 256).val ∧
      ∀ i j, i < (0x02 : Fin 256).val → j < 8 →
        ∃ b, (AppendCRC16 [0x01, 0x01, 0x02, 0xCD, 0x01])[3 + i]? = some b ∧
          bits[8 * i + j]? = some (b.val.testBit j)) ∧
    ParseReadBitsResponse (AppendCRC16 [0x01, 0x01, 0x02, 0xCD]) 0x01 0x01 =
      some (Returned.err GoError.ErrResponseTooShort) :=
  ⟨by decide,
    (ParseReadBitsResponse_all_bits (AppendCRC16 [0x01, 0x01, 0x02, 0xCD, 0x01]) 0x01 0x01 0x02
      (by decide) (by decide)).1 (by decide),
    (ParseReadBitsResponse_all_bits (AppendCRC16 [0x01, 0x01, 0x02, 0xCD]) 0x01 0x01 0x02
      (by decide) (by decide)).2 (by decide)⟩

/-! ## The coils of a write request -/

theorem testBit_set_bit (x : Fin 256) (b j : Nat) (hb : b < 8) :
    (byte (x.val ||| (1 <<< b) % 256)).val.testBit j = (x.val.testBit j || decide (b = j)) := by
  have h0 : 2 ^ b < 2 ^ 8 := Nat.pow_lt_pow_right (by decide) hb
  have h1 : (1 <<< b) % 256 = 2 ^ b := by
    rw [Nat.shiftLeft_eq, Nat.one_mul]
    exact Nat.mod_eq_of_lt h0
  have h2 : x.val ||| 2 ^ b < 256 := @Nat.or_lt_two_pow x.val (2 ^ b) 8 x.isLt h0
  rw [h1, byte_val, Nat.mod_eq_of_lt h2, Nat.testBit_or, Nat.testBit_two_pow]

theorem getD_shift (v : Bool) (t : List Bool) (i q : Nat) (h : q ≠ i) :
    (decide (i + 1 ≤ q) && t.getD (q - (i + 1)) false) =
      (decide (i ≤ q) && (v :: t).getD (q - i) false) := by
  by_cases h1 : i < q
  · have e : q - i = (q - (i + 1)) + 1 := by omega
    have e1 : decide (i + 1 ≤ q) = true := decide_eq_true (by omega)
    have e2 : decide (i ≤ q) = true := decide_eq_true (by omega)
    rw [e, List.getD_cons_succ, e1, e2]
  · have e1 : decide (i + 1 ≤ q) = false := decide_eq_false (by omega)
    have e2 : decide (i ≤ q) = false := decide_eq_false (by omega)
    rw [e1, e2]
    rfl

theorem coilsFill_spec (vs : List Bool) (i : Nat) (pre d : List (Fin 256))
    (hpre : pre.length = 7) (hlen : i + vs.length ≤ 8 * d.length) :
    ∃ d1, coilsFill vs i (pre ++ d) = some (pre ++ d1) ∧ d1.length = d.length ∧
      ∀ p j, j < 8 → (d1[p]?).map (fun x => x.val.testBit j) =
        (d[p]?).map (fun x => x.val.testBit j ||
          (decide (i ≤ 8 * p + j) && vs.getD (8 * p + j - i) false)) := by
  induction vs generalizing i d with
  | nil =>
    refine ⟨d, rfl, rfl, fun p j _ => ?_⟩
    simp
  | cons v t ih =>
    simp only [List.length_cons] at hlen
    cases v with
    | false =>
      obtain ⟨d1, h1, hl, hp⟩ := ih (i + 1) d (by omega)
      refine ⟨d1, ?_, hl, fun p j hj => ?_⟩
      · simp only [coilsFill]
        exact h1
      · rw [hp p j hj]
        by_cases hq : 8 * p + j = i
        · subst hq
          congr 1
          funext x
          simp
        · rw [getD_shift false t i (8 * p + j) hq]
    | true =>
      have hk : i / 8 < d.length := by omega
      have hget : (pre ++ d)[7 + i / 8]? = some d[i / 8] := by
        rw [List.getElem?_append_right (by omega), hpre, Nat.add_sub_cancel_left,
          List.getElem?_eq_getElem hk]
      have hset : ∀ y, setAt (pre ++ d) (7 + i / 8) y = some (pre ++ d.set (i / 8) y) := by
        intro y
        have hl : 7 + i / 8 < (pre ++ d).length := by
          rw [List.length_append]
          omega
        rw [setAt, if_pos hl, List.set_append_right _ _ (by omega), hpre,
          Nat.add_sub_cancel_left]
      obtain ⟨d1, h1, hl, hp⟩ := ih (i + 1)
        (d.set (i / 8) (byte ((d[i / 8]).val ||| (1 <<< (i % 8)) % 256)))
        (by rw [List.length_set]; omega)
      refine ⟨d1, ?_, ?_, fun p j hj => ?_⟩
      · simp only [coilsFill, if_true, hget, hset]
        exact h1
      · rw [hl, List.length_set]
      · rw [hp p j hj, List.getElem?_set]
        by_cases hpk : i / 8 = p
        · subst hpk
          rw [if_pos rfl, if_pos hk, List.getElem?_eq_getElem hk]
          simp only [Option.map_some']
          rw [testBit_set_bit _ _ _ (Nat.mod_lt _ (by decide))]
          by_cases hq : 8 * (i / 8) + j = i
          · have e : i % 8 = j := by omega
            rw [hq]
            simp [e]
          · have e : ¬ i % 8 = j := by omega
            rw [getD_shift true t i _ hq]
            simp [e]
        · rw [if_neg hpk]
          have hq : 8 * p + j ≠ i := by omega
          rw [getD_shift true t i _ hq]

theorem NewWriteMultipleCoilsRequest_eq (s : Fin 256) (a : Nat) (vs : List Bool)
    (h : ¬ (vs.length < 1 ∨ vs.length > 1968)) :
    ∃ data, data.length = (vs.length + 7) / 8 ∧
      NewWriteMultipleCoilsRequest s a vs =
        some (some (AppendCRC16
          ([s, 0x0F, byte (a >>> 8), byte a, byte (vs.length >>> 8), byte vs.length,
            byte ((vs.length + 7) / 8)] ++ data))) ∧
      ∀ k j, k < (vs.length + 7) / 8 → j < 8 →
        ∃ b, data[k]? = some b ∧ b.val.testBit j = vs.getD (8 * k + j) false := by
  have hm : vs.length % 65536 = vs.length := Nat.mod_eq_of_lt (by omega)
  obtain ⟨d1, h1, hl, hp⟩ := coilsFill_spec vs 0
    [s, 0x0F, byte (a >>> 8), byte a, byte (vs.length >>> 8), byte vs.length,
      byte ((vs.length + 7) / 8)] (List.replicate ((vs.length + 7) / 8) 0) rfl
    (by rw [List.length_replicate]; omega)
  rw [List.length_replicate] at hl
  refine ⟨d1, hl, ?_, fun k j hk hj => ?_⟩
  · simp only [NewWriteMultipleCoilsRequest, if_neg h, hm]
    simp [setAt, PutUint16, slice, List.replicate_succ, Nat.add_comm 7]
    simp only [List.cons_append, List.nil_append] at h1
    rw [h1]
    rfl
  · have hk1 : k < d1.length := by omega
    refine ⟨d1[k], List.getElem?_eq_getElem hk1, ?_⟩
    have := hp k j hj
    rw [List.getElem?_eq_getElem hk1, List.getElem?_replicate, if_pos hk] at this
    simpa using this

/-- C24. `NewWriteMultipleCoilsRequest(s, a, vs)` returns nil if and only if
`len(vs) < 1` or `len(vs) > 1968`.  Otherwise, with `n = len(vs)` and
`c = (n + 7) / 8`, which is the least number of bytes that hold `n` bits and
is not changed by the conversion to a byte, it is `AppendCRC16` of
`s, 0x0F, high(a), low(a), high(n), low(n), c` followed by `c` data bytes, where
bit `i mod 8` of the data byte `i div 8` is 1 exactly when `vs[i]` is true, and
the bits at the positions from `n` on are 0. -/
theorem NewWriteMultipleCoilsRequest_frame (s : Fin 256) (a : Nat) (vs : List Bool) :
    (NewWriteMultipleCoilsRequest s a vs = some none ↔
      vs.length < 1 ∨ vs.length > 1968) ∧
    (¬ (vs.length < 1 ∨ vs.length > 1968) →
      vs.length ≤ 8 * ((vs.length + 7) / 8) ∧ 8 * ((vs.length + 7) / 8) < vs.length + 8 ∧
      (byte ((vs.length + 7) / 8)).val = (vs.length + 7) / 8 ∧
      ∃ data, data.length = (vs.length + 7) / 8 ∧
        NewWriteMultipleCoilsRequest s a vs =
          some (some (AppendCRC16
            ([s, 0x0F, byte (a >>> 8), byte a, byte (vs.length >>> 8), byte vs.length,
              byte ((vs.length + 7) / 8)] ++ data))) ∧
        (∀ i (hi : i < vs.length),
          ∃ b, data[i / 8]? = some b ∧ b.val.testBit (i % 8) = vs[i]) ∧
        (∀ k j, k < (vs.length + 7) / 8 → j < 8 → vs.length ≤ 8 * k + j →
          ∃ b, data[k]? = some b ∧ b.val.testBit j = false)) := by
  constructor
  · constructor
    · intro hn
      by_contra h
      obtain ⟨data, _, he, _⟩ := NewWriteMultipleCoilsRequest_eq s a vs h
      rw [he] at hn
      cases hn
    · intro h
      rw [NewWriteMultipleCoilsRequest, if_pos h]
  · intro h
    obtain ⟨data, hl, he, hb⟩ := NewWriteMultipleCoilsRequest_eq s a vs h
    refine ⟨by omega, by omega, ?_, data, hl, he, fun i hi => ?_, fun k j hk hj hn => ?_⟩
    · rw [byte_val]
      omega
    · obtain ⟨b, h1, h2⟩ := hb (i / 8) (i % 8) (by omega) (Nat.mod_lt _ (by decide))
      refine ⟨b, h1, ?_⟩
      rw [h2, Nat.div_add_mod, List.getD_eq_getElem _ _ hi]
    · obtain ⟨b, h1, h2⟩ := hb k j hk hj
      refine ⟨b, h1, ?_⟩
      rw [h2, List.getD_eq_default _ _ hn]

set_option maxRecDepth 100000 in
/-- C24 on the ten coils `1 0 1 1 0 0 1 1 1 0` written from the address `0x13`
of the slave 1: the frame is `01 0F 00 13 00 0A 02 CD 01` and the checksum
bytes `72 CB`; an empty list of coils gives nil. -/
theorem NewWriteMultipleCoilsRequest_frame_witness :
    NewWriteMultipleCoilsRequest 0x01 0x13
        [true, false, true, true, false, false, true, true, true, false] =
      some (some [0x01, 0x0F, 0x00, 0x13, 0x00, 0x0A, 0x02, 0xCD, 0x01, 0x72, 0xCB]) ∧
    NewWriteMultipleCoilsRequest 0x01 0x13 [] = some none ∧
    ∃ data, data.length = 2 ∧
      NewWriteMultipleCoilsRequest 0x01 0x13
          [true, false, true, true, false, false, true, true, true, false] =
        some (some (AppendCRC16 ([0x01, 0x0F, 0x00, 0x13, 0x00, 0x0A, 0x02] ++ data))) :=
  ⟨by decide,
    (NewWriteMultipleCoilsRequest_frame 0x01 0x13 []).1.2 (by decide),
    match (NewWriteMultipleCoilsRequest_frame 0x01 0x13
      [true, false, true, true, false, false, true, true, true, false]).2 (by decide) with
    | ⟨_, _, _, data, hl, he, _⟩ => ⟨data, hl, he⟩⟩

/-! ## Totality of the response parsers -/

theorem ValidateResponse_total (r : List (Fin 256)) (s f : Fin 256) :
    ∃ x, ValidateResponse r s f = some x := by
  by_cases h : r.length < 4
  · rw [ValidateResponse, if_pos h]
    exact ⟨_, rfl⟩
  · obtain ⟨b0, b1, rest, x, y, e⟩ := frame_split r (by omega)
    rw [e, ValidateResponse_frame]
    by_cases h1 : CRC16 (b0 :: b1 :: rest) ≠ 256 * y.val + x.val
    · rw [if_pos h1]
      exact ⟨_, rfl⟩
    · rw [if_neg h1]
      by_cases h2 : b0 ≠ s
      · rw [if_pos h2]
        exact ⟨_, rfl⟩
      · rw [if_neg h2]
        by_cases h3 : IsError b1 = true
        · rw [if_pos h3]
          cases rest with
          | nil => exact ⟨_, rfl⟩
          | cons b2 t => exact ⟨_, rfl⟩
        · rw [if_neg h3]
          by_cases h4 : b1 ≠ f
          · rw [if_pos h4]
            exact ⟨_, rfl⟩
          · rw [if_neg h4]
            exact ⟨_, rfl⟩

theorem uint16_at (d : List (Fin 256)) (lo : Nat) (h : lo + 2 ≤ d.length) :
    ∃ v, (slice d (lo : Int) ((lo + 2 : Nat) : Int)).bind Uint16 = some v := by
  rw [slice_natCast d lo (lo + 2) (by omega) h]
  have hl : ((d.take (lo + 2)).drop lo).length = 2 := by
    rw [List.length_drop, List.length_take]
    omega
  match hb : (d.take (lo + 2)).drop lo, hl with
  | [x, y], _ =>
    rw [Option.some_bind, Uint16_pair]
    exact ⟨_, rfl⟩

theorem registersLoop_total (data : List (Fin 256)) (n i : Nat) (result : List Nat)
    (hd : (i + n) * 2 ≤ data.length) (hr : i + n ≤ result.length) :
    ∃ res, registersLoop data n i result = some res := by
  induction n generalizing i result with
  | zero => exact ⟨_, rfl⟩
  | succ n ih =>
    have hs : ∃ b, slice data ((i * 2 : Nat) : Int) (((i * 2 : Nat) : Int) + 2) = some b ∧
        ∃ v, Uint16 b = some v := by
      obtain ⟨v, hv⟩ := uint16_at data (i * 2) (by omega)
      have e : (((i * 2 : Nat) : Int) + 2) = ((i * 2 + 2 : Nat) : Int) := by
        push_cast
        rfl
      rw [e]
      cases hb : slice data ((i * 2 : Nat) : Int) ((i * 2 + 2 : Nat) : Int) with
      | none =>
        rw [hb] at hv
        cases hv
      | some b =>
        rw [hb] at hv
        exact ⟨b, rfl, v, hv⟩
    obtain ⟨b, hb, v, hv⟩ := hs
    have hi : i < result.length := by omega
    obtain ⟨res, hres⟩ := ih (i + 1) (result.set i v) (by omega)
      (by rw [List.length_set]; omega)
    refine ⟨res, ?_⟩
    simp only [registersLoop, hb, hv, setAt, if_pos hi]
    exact hres

theorem ParseReadRegistersResponse_even (r : List (Fin 256)) (s f c : Fin 256)
    (hv : ValidateResponse r s f = some (Returned.ok ())) (hc : r[2]? = some c)
    (hlen : 3 + c.val ≤ r.length - 2) (heven : ¬ c.val % 2 ≠ 0) :
    ∃ regs, ParseReadRegistersResponse r s f = some (Returned.ok regs) := by
  have h4 := validated_length hv
  have h3 : ¬ (r.take (r.length - 2)).length < 3 := by
    rw [List.length_take]
    omega
  have hg : (r.take (r.length - 2))[2]? = some c := by
    rw [List.getElem?_take, if_pos (by omega), hc]
  have hl : ¬ (r.take (r.length - 2)).length < 3 + c.val := by
    rw [List.length_take]
    omega
  have hs : slice (r.take (r.length - 2)) 3 (3 + (c.val : Int)) =
      some (((r.take (r.length - 2)).take (3 + c.val)).drop 3) := by
    have e : (3 : Int) + (c.val : Int) = ((3 + c.val : Nat) : Int) := by
      push_cast
      rfl
    have e3 : (3 : Int) = ((3 : Nat) : Int) := rfl
    rw [e, e3, slice_natCast _ _ _ (by omega) (by rw [List.length_take]; omega)]
  have hbl : (((r.take (r.length - 2)).take (3 + c.val)).drop 3).length = c.val := by
    rw [List.length_drop, List.length_take, List.length_take]
    omega
  obtain ⟨regs, hregs⟩ := registersLoop_total
    (((r.take (r.length - 2)).take (3 + c.val)).drop 3) (c.val / 2) 0
    (List.replicate (c.val / 2) 0) (by omega) (by rw [List.length_replicate]; omega)
  refine ⟨regs, ?_⟩
  simp only [ParseReadRegistersResponse, hv, slice_frameData r (by omega)]
  rw [if_neg h3]
  simp only [hg]
  rw [if_neg hl, if_neg heven, hs]
  simp only [hregs]

theorem parseWrite_total (r : List (Fin 256)) (s f : Fin 256) (a : Nat)
    (rest : List (Fin 256) → Option (Returned Unit))
    (hrest : ∀ d : List (Fin 256), 6 ≤ d.length → ∃ x, rest d = some x) :
    ∃ x, parseWrite r s f a rest = some x := by
  obtain ⟨x, hx⟩ := ValidateResponse_total r s f
  cases x with
  | err e =>
    simp only [parseWrite, hx]
    exact ⟨_, rfl⟩
  | ok u =>
    have h4 := validated_length hx
    simp only [parseWrite, hx, slice_frameData r (by omega)]
    by_cases h6 : (r.take (r.length - 2)).length < 6
    · rw [if_pos h6]
      exact ⟨_, rfl⟩
    · rw [if_neg h6]
      obtain ⟨v, hv⟩ := uint16_at (r.take (r.length - 2)) 2 (by omega)
      have hv1 : (slice (r.take (r.length - 2)) 2 4).bind Uint16 = some v := hv
      simp only [hv1]
      by_cases ha : v ≠ a
      · rw [if_pos ha]
        exact ⟨_, rfl⟩
      · rw [if_neg ha]
        exact hrest _ (by omega)

theorem word_check_total (d : List (Fin 256)) (h : 6 ≤ d.length) (expected : Nat)
    (e : GoError) :
    ∃ x, (match (slice d 4 6).bind Uint16 with
      | none => none
      | some value =>
        if value ≠ expected then some (Returned.err e) else some (Returned.ok ())) =
      some x := by
  obtain ⟨v, hv⟩ := uint16_at d 4 (by omega)
  have hv1 : (slice d 4 6).bind Uint16 = some v := hv
  simp only [hv1]
  by_cases ha : v ≠ expected
  · rw [if_pos ha]
    exact ⟨_, rfl⟩
  · rw [if_neg ha]
    exact ⟨_, rfl⟩

/-- C38. The response parsers are total: for every byte sequence `r`, of any
length, and every expected slave id, function code, address, value and
quantity, each of `ValidateResponse`, `ParseReadBitsResponse`,
`ParseReadRegistersResponse`, `ParseWriteSingleCoilResponse`,
`ParseWriteSingleRegisterResponse`, `ParseWriteMultipleCoilsResponse` and
`ParseWriteMultipleRegistersResponse` returns a result or an error; no index
and no slice bound is out of range, which the model would show as `none`. -/
theorem parsers_total (r : List (Fin 256)) (s f : Fin 256) (a q w : Nat) (v : Bool) :
    (∃ x, ValidateResponse r s f = some x) ∧
    (∃ x, ParseReadBitsResponse r s f = some x) ∧
    (∃ x, ParseReadRegistersResponse r s f = some x) ∧
    (∃ x, ParseWriteSingleCoilResponse r s a v = some x) ∧
    (∃ x, ParseWriteSingleRegisterResponse r s a w = some x) ∧
    (∃ x, ParseWriteMultipleCoilsResponse r s a q = some x) ∧
    (∃ x, ParseWriteMultipleRegistersResponse r s a q = some x) := by
  refine ⟨ValidateResponse_total r s f, ?_, ?_, ?_, ?_, ?_, ?_⟩
  · obtain ⟨x, hx⟩ := ValidateResponse_total r s f
    cases x with
    | err e =>
      simp only [ParseReadBitsResponse, hx]
      exact ⟨_, rfl⟩
    | ok u =>
      have h4 := validated_length hx
      have hc : r[2]? = some r[2] := List.getElem?_eq_getElem (by omega)
      by_cases hl : 3 + (r[2]).val ≤ r.length - 2
      · obtain ⟨bits, hb, _⟩ := ParseReadBitsResponse_bits r s f r[2] hx hc hl
        exact ⟨_, hb⟩
      · exact ⟨_, ParseReadBitsResponse_short r s f r[2] hx hc (by omega)⟩
  · obtain ⟨x, hx⟩ := ValidateResponse_total r s f
    cases x with
    | err e =>
      simp only [ParseReadRegistersResponse, hx]
      exact ⟨_, rfl⟩
    | ok u =>
      have h4 := validated_length hx
      have hc : r[2]? = some r[2] := List.getElem?_eq_getElem (by omega)
      by_cases hl : 3 + (r[2]).val ≤ r.length - 2
      · by_cases hodd : (r[2]).val % 2 ≠ 0
        · exact ⟨_, ParseReadRegistersResponse_odd r s f r[2] hx hc hl (by omega)⟩
        · obtain ⟨regs, hr⟩ := ParseReadRegistersResponse_even r s f r[2] hx hc hl hodd
          exact ⟨_, hr⟩
      · exact ⟨_, ParseReadRegistersResponse_short r s f r[2] hx hc (by omega)⟩
  · refine parseWrite_total r s 0x05 a _ (fun d hd => ?_)
    have h4 : d[4]? = some d[4] := List.getElem?_eq_getElem (by omega)
    have h5 : d[5]? = some d[5] := List.getElem?_eq_getElem (by omega)
    simp only [h4, h5]
    split
    · exact ⟨_, rfl⟩
    · exact ⟨_, rfl⟩
  · exact parseWrite_total r s 0x06 a _ (fun d hd => word_check_total d hd w _)
  · exact parseWrite_total r s 0x0F a _ (fun d hd => word_check_total d hd q _)
  · exact parseWrite_total r s 0x10 a _ (fun d hd => word_check_total d hd q _)

end modbus

namespace intx

/-! ## Decimal digits -/

theorem digitOf_digit {c : Fin 256} (h : isDigit c = true) :
    digitOf c = some (c.val - 0x30) ∧ c.val - 0x30 < 10 := by
  have h1 : 0x30 ≤ c.val ∧ c.val ≤ 0x39 := by simpa [isDigit] using h
  refine ⟨?_, by omega⟩
  rw [digitOf, if_pos h1]

theorem digitOf_other : ∀ c : Fin 256, isDigit c = false →
    digitOf c = none ∨ ∃ d, digitOf c = some d ∧ d ≥ 10 := by
  intro c h
  have h1 : ¬ (0x30 ≤ c.val ∧ c.val ≤ 0x39) := by simpa [isDigit] using h
  rw [digitOf, if_neg h1]
  by_cases h2 : 0x61 ≤ lower c ∧ lower c ≤ 0x7A
  · rw [if_pos h2]
    exact Or.inr ⟨_, rfl, by omega⟩
  · rw [if_neg h2]
    exact Or.inl rfl

theorem le_decimalFrom (ds : List (Fin 256)) (n : Nat) : n ≤ decimalFrom n ds := by
  induction ds generalizing n with
  | nil => exact Nat.le_refl _
  | cons c t ih =>
    have := ih (n * 10 + (c.val - 0x30))
    simp only [decimalFrom, List.foldl_cons] at this ⊢
    omega

theorem decimalFrom_cons (c : Fin 256) (t : List (Fin 256)) (n : Nat) :
    decimalFrom n (c :: t) = decimalFrom (n * 10 + (c.val - 0x30)) t := rfl

theorem decimalFrom_append (n : Nat) (xs ys : List (Fin 256)) :
    decimalFrom n (xs ++ ys) = decimalFrom (decimalFrom n xs) ys := by
  simp [decimalFrom, List.foldl_append]

theorem parseUintLoop_digits (ds : List (Fin 256)) (n : Nat)
    (hall : ds.all isDigit = true) (hn : n < 2 ^ 64) :
    parseUintLoop ds n =
      if decimalFrom n ds ≤ maxUint64 then (decimalFrom n ds, none)
      else (maxUint64, some NumError.ErrRange) := by
  induction ds generalizing n with
  | nil =>
    have : decimalFrom n [] ≤ maxUint64 := by
      simp only [decimalFrom, List.foldl_nil, maxUint64]
      omega
    rw [if_pos this]
    rfl
  | cons c t ih =>
    rw [List.all_cons, Bool.and_eq_true] at hall
    obtain ⟨hd, hlt⟩ := digitOf_digit hall.1
    have hle := le_decimalFrom t (n * 10 + (c.val - 0x30))
    rw [decimalFrom_cons]
    simp only [parseUintLoop, hd]
    rw [if_neg (by omega)]
    by_cases h1 : n ≥ maxUint64 / 10 + 1
    · rw [if_pos h1, if_neg]
      simp only [maxUint64] at h1 ⊢
      omega
    · rw [if_neg h1]
      simp only [maxUint64] at h1
      have e1 : n * 10 % 2 ^ 64 = n * 10 := Nat.mod_eq_of_lt (by omega)
      simp only [e1]
      by_cases h2 : n * 10 + (c.val - 0x30) < 2 ^ 64
      · have e2 : (n * 10 + (c.val - 0x30)) % 2 ^ 64 = n * 10 + (c.val - 0x30) :=
          Nat.mod_eq_of_lt h2
        simp only [e2]
        rw [if_neg, ih _ hall.2 h2]
        simp only [maxUint64]
        omega
      · rw [if_pos, if_neg]
        · simp only [maxUint64]
          omega
        · left
          omega

theorem parseUintLoop_other (ds : List (Fin 256)) (n : Nat)
    (hall : ds.all isDigit = false) :
    parseUintLoop ds n = (0, some NumError.ErrSyntax) ∨
      parseUintLoop ds n = (maxUint64, some NumError.ErrRange) := by
  induction ds generalizing n with
  | nil => simp at hall
  | cons c t ih =>
    cases hc : isDigit c with
    | false =>
      rcases digitOf_other c hc with h | ⟨d, h, hd⟩
      · left
        simp only [parseUintLoop, h]
      · left
        simp only [parseUintLoop, h]
        rw [if_pos hd]
    | true =>
      obtain ⟨hd, hlt⟩ := digitOf_digit hc
      have ht : t.all isDigit = false := by
        rw [List.all_cons, hc, Bool.true_and] at hall
        exact hall
      simp only [parseUintLoop, hd]
      rw [if_neg (by omega)]
      by_cases h1 : n ≥ maxUint64 / 10 + 1
      · rw [if_pos h1]
        exact Or.inr rfl
      · rw [if_neg h1]
        by_cases h2 : (n * 10 % 2 ^ 64 + (c.val - 0x30)) % 2 ^ 64 < n * 10 % 2 ^ 64 ∨
            (n * 10 % 2 ^ 64 + (c.val - 0x30)) % 2 ^ 64 > maxUint64
        · rw [if_pos h2]
          exact Or.inr rfl
        · rw [if_neg h2]
          exact ih _ ht

/-! ## `strconv.ParseInt` -/

theorem ParseUint_digits (t : List (Fin 256)) (ht : t ≠ []) (hall : t.all isDigit = true) :
    ParseUint t =
      if decimalFrom 0 t ≤ maxUint64 then (decimalFrom 0 t, none)
      else (maxUint64, some NumError.ErrRange) := by
  rw [ParseUint, if_neg ht, parseUintLoop_digits t 0 hall (by decide)]

theorem ParseUint_other (t : List (Fin 256)) (h : t = [] ∨ t.all isDigit = false) :
    ParseUint t = (0, some NumError.ErrSyntax) ∨
      ParseUint t = (maxUint64, some NumError.ErrRange) := by
  by_cases ht : t = []
  · left
    rw [ParseUint, if_pos ht]
  · rw [ParseUint, if_neg ht]
    rcases h with h | h
    · exact absurd h ht
    · exact parseUintLoop_other t 0 h

theorem checkRange_syntax (neg : Bool) :
    checkRange neg (0, some NumError.ErrSyntax) = (0, some NumError.ErrSyntax) := by
  cases neg <;> rfl

theorem checkRange_range (neg : Bool) :
    ∃ x, checkRange neg (maxUint64, some NumError.ErrRange) = (x, some NumError.ErrRange) := by
  cases neg
  · exact ⟨_, rfl⟩
  · exact ⟨_, rfl⟩

theorem checkRange_false (u : Nat) :
    checkRange false (u, none) =
      if u < 2 ^ 63 then ((u : Int), none)
      else (((2 ^ 63 - 1 : Nat) : Int), some NumError.ErrRange) := by
  by_cases h : u < 9223372036854775808
  · have h1 : ¬ 9223372036854775808 ≤ u := by omega
    have e : toInt64 (u : Int) = (u : Int) := by
      simp only [toInt64]
      omega
    simp [checkRange, h, h1, e]
  · have h1 : 9223372036854775808 ≤ u := by omega
    simp [checkRange, h, h1]

theorem checkRange_true (u : Nat) :
    checkRange true (u, none) =
      if u ≤ 2 ^ 63 then (-(u : Int), none)
      else (-((2 ^ 63 : Nat) : Int), some NumError.ErrRange) := by
  by_cases h : u ≤ 9223372036854775808
  · have h1 : ¬ 9223372036854775808 < u := by omega
    have e : toInt64 (-toInt64 (u : Int)) = -(u : Int) := by
      simp only [toInt64]
      omega
    simp [checkRange, h, h1, e]
  · have h1 : 9223372036854775808 < u := by omega
    simp [checkRange, h, h1]

theorem checkRange_digits (neg : Bool) (t : List (Fin 256)) (ht : t ≠ [])
    (hall : t.all isDigit = true) (v : Int)
    (hv : v = if neg = true then -((decimalFrom 0 t : Nat) : Int) else (decimalFrom 0 t : Nat)) :
    (-2 ^ 63 ≤ v ∧ v < 2 ^ 63 ∧ checkRange neg (ParseUint t) = (v, none)) ∨
      (¬ (-2 ^ 63 ≤ v ∧ v < 2 ^ 63) ∧
        ∃ x, checkRange neg (ParseUint t) = (x, some NumError.ErrRange)) := by
  rw [ParseUint_digits t ht hall]
  by_cases hD : decimalFrom 0 t ≤ maxUint64
  · rw [if_pos hD]
    cases neg with
    | false =>
      simp only [Bool.false_eq_true, if_false] at hv
      rw [checkRange_false]
      by_cases h : decimalFrom 0 t < 2 ^ 63
      · rw [if_pos h]
        exact Or.inl ⟨by omega, by omega, by rw [hv]⟩
      · rw [if_neg h]
        exact Or.inr ⟨by omega, _, rfl⟩
    | true =>
      simp only [if_true] at hv
      rw [checkRange_true]
      by_cases h : decimalFrom 0 t ≤ 2 ^ 63
      · rw [if_pos h]
        exact Or.inl ⟨by omega, by omega, by rw [hv]⟩
      · rw [if_neg h]
        exact Or.inr ⟨by omega, _, rfl⟩
  · rw [if_neg hD]
    simp only [maxUint64] at hD
    refine Or.inr ⟨?_, checkRange_range neg⟩
    cases neg with
    | false =>
      simp only [Bool.false_eq_true, if_false] at hv
      omega
    | true =>
      simp only [if_true] at hv
      omega

theorem checkRange_other (neg : Bool) (t : List (Fin 256))
    (h : ¬ (t ≠ [] ∧ t.all isDigit = true)) :
    ∃ x e, checkRange neg (ParseUint t) = (x, some e) := by
  have h1 : t = [] ∨ t.all isDigit = false := by
    by_cases ht : t = []
    · exact Or.inl ht
    · right
      cases hb : t.all isDigit with
      | false => rfl
      | true => exact absurd ⟨ht, hb⟩ h
  rcases ParseUint_other t h1 with e | e
  · rw [e, checkRange_syntax]
    exact ⟨_, _, rfl⟩
  · rw [e]
    obtain ⟨x, hx⟩ := checkRange_range neg
    exact ⟨x, _, hx⟩

theorem checkRange_literal (neg : Bool) (t : List (Fin 256)) (lv : Option Int)
    (hlv : lv = if t ≠ [] ∧ t.all isDigit = true then
      some (if neg = true then -((decimalFrom 0 t : Nat) : Int) else (decimalFrom 0 t : Nat))
      else none) :
    (∃ v, lv = some v ∧ -2 ^ 63 ≤ v ∧ v < 2 ^ 63 ∧ checkRange neg (ParseUint t) = (v, none)) ∨
      ((∀ v, lv = some v → ¬ (-2 ^ 63 ≤ v ∧ v < 2 ^ 63)) ∧
        ∃ x e, checkRange neg (ParseUint t) = (x, some e)) := by
  by_cases hg : t ≠ [] ∧ t.all isDigit = true
  · rw [if_pos hg] at hlv
    rcases checkRange_digits neg t hg.1 hg.2 _ rfl with ⟨h1, h2, h3⟩ | ⟨h1, x, h2⟩
    · exact Or.inl ⟨_, hlv, h1, h2, h3⟩
    · refine Or.inr ⟨fun v hv => ?_, x, _, h2⟩
      rw [hlv] at hv
      cases hv
      exact h1
  · rw [if_neg hg] at hlv
    refine Or.inr ⟨fun v hv => ?_, checkRange_other neg t hg⟩
    rw [hlv] at hv
    cases hv

theorem ParseInt_literal (s : List (Fin 256)) :
    (∃ v, literalValue s = some v ∧ -2 ^ 63 ≤ v ∧ v < 2 ^ 63 ∧ ParseInt s = (v, none)) ∨
      ((∀ v, literalValue s = some v → ¬ (-2 ^ 63 ≤ v ∧ v < 2 ^ 63)) ∧
        ∃ x e, ParseInt s = (x, some e)) := by
  cases s with
  | nil =>
    refine Or.inr ⟨fun v hv => ?_, _, _, rfl⟩
    cases hv
  | cons c t =>
    by_cases hp : c = plus
    · simp only [ParseInt, if_pos hp]
      refine checkRange_literal false t _ ?_
      simp [literalValue, hp]
    · by_cases hm : c = minus
      · simp only [ParseInt, if_neg hp, if_pos hm]
        refine checkRange_literal true t _ ?_
        have hpm : ¬ minus = plus := by decide
        subst hm
        simp [literalValue, hpm]
      · simp only [ParseInt, if_neg hp, if_neg hm]
        refine checkRange_literal false (c :: t) _ ?_
        simp [literalValue, hp, hm]

/-! ## `strconv.FormatInt` -/

theorem digit_byte (u : Nat) (h : u < 10) :
    (modbus.byte (0x30 + u)).val = 0x30 + u ∧ isDigit (modbus.byte (0x30 + u)) = true := by
  have e : (modbus.byte (0x30 + u)).val = 0x30 + u := by
    rw [modbus.byte_val]
    omega
  refine ⟨e, ?_⟩
  rw [isDigit, e]
  simp
  omega

theorem formatBits_value (fuel u : Nat) (acc : List (Fin 256)) (h : u < 10 ^ (fuel + 1)) :
    ∃ ds, formatBits fuel u acc = ds ++ acc ∧ ds ≠ [] ∧ ds.all isDigit = true ∧
      ∀ n, decimalFrom n ds = n * 10 ^ ds.length + u := by
  have last : ∀ (u : Nat) (acc : List (Fin 256)), u < 10 →
      ∃ ds, modbus.byte (0x30 + u) :: acc = ds ++ acc ∧ ds ≠ [] ∧ ds.all isDigit = true ∧
        ∀ n, decimalFrom n ds = n * 10 ^ ds.length + u := by
    intro u acc hu
    obtain ⟨e1, e2⟩ := digit_byte u hu
    refine ⟨[modbus.byte (0x30 + u)], rfl, List.cons_ne_nil _ _, by simp [e2], fun n => ?_⟩
    simp only [decimalFrom, List.foldl_cons, List.foldl_nil, e1, List.length_singleton]
    omega
  induction fuel generalizing u acc with
  | zero => exact last u acc (by simpa using h)
  | succ k ih =>
    by_cases hu : u ≥ 10
    · have hk : u / 10 < 10 ^ (k + 1) := by
        rw [Nat.div_lt_iff_lt_mul (by decide)]
        rw [Nat.pow_succ] at h
        exact h
      obtain ⟨ds, h1, _, h3, h4⟩ := ih (u / 10) (modbus.byte (0x30 + u % 10) :: acc) hk
      obtain ⟨e1, e2⟩ := digit_byte (u % 10) (Nat.mod_lt _ (by decide))
      refine ⟨ds ++ [modbus.byte (0x30 + u % 10)], ?_, by simp, ?_, fun n => ?_⟩
      · rw [formatBits, if_pos hu, h1]
        simp
      · rw [List.all_append, h3]
        simp [e2]
      · rw [decimalFrom_append, h4 n, decimalFrom_cons, List.length_append,
          List.length_singleton, Nat.pow_succ, e1]
        simp only [decimalFrom, List.foldl_nil]
        have : 0x30 + u % 10 - 0x30 = u % 10 := by omega
        rw [this, Nat.add_mul, Nat.mul_assoc]
        omega
    · rw [formatBits, if_neg hu]
      exact last u acc (by omega)

theorem formatBits_digits (fuel u : Nat) (acc : List (Fin 256)) (h : u < 10 ^ (fuel + 1)) :
    formatBits fuel u acc =
      (if u = 0 then [0x30]
        else (Nat.digits 10 u).reverse.map fun d => modbus.byte (0x30 + d)) ++ acc := by
  have last : ∀ (u : Nat) (acc : List (Fin 256)), u < 10 →
      modbus.byte (0x30 + u) :: acc =
        (if u = 0 then [0x30]
          else (Nat.digits 10 u).reverse.map fun d => modbus.byte (0x30 + d)) ++ acc := by
    intro u acc hu
    by_cases h0 : u = 0
    · subst h0
      rfl
    · rw [if_neg h0, Nat.digits_of_lt 10 u h0 hu]
      rfl
  induction fuel generalizing u acc with
  | zero => exact last u acc (by simpa using h)
  | succ k ih =>
    by_cases hu : u ≥ 10
    · have hk : u / 10 < 10 ^ (k + 1) := by
        rw [Nat.div_lt_iff_lt_mul (by decide)]
        rw [Nat.pow_succ] at h
        exact h
      have h0 : u ≠ 0 := by omega
      have h1 : u / 10 ≠ 0 := by omega
      have e : Nat.digits 10 u = u % 10 :: Nat.digits 10 (u / 10) :=
        Nat.digits_def' (by decide) (by omega)
      rw [formatBits, if_pos hu, ih _ _ hk, if_neg h0, if_neg h1, e]
      simp
    · rw [formatBits, if_neg hu]
      exact last u acc (by omega)

theorem literalValue_digits (ds : List (Fin 256)) (hne : ds ≠ [])
    (hall : ds.all isDigit = true) :
    literalValue ds = some ((decimalFrom 0 ds : Nat) : Int) := by
  cases ds with
  | nil => exact absurd rfl hne
  | cons c t =>
    have hc : isDigit c = true := by
      rw [List.all_cons, Bool.and_eq_true] at hall
      exact hall.1
    have h1 : 0x30 ≤ c.val ∧ c.val ≤ 0x39 := by simpa [isDigit] using hc
    have hp : c ≠ plus := by
      intro e
      rw [e] at h1
      exact absurd h1 (by decide)
    have hm : c ≠ minus := by
      intro e
      rw [e] at h1
      exact absurd h1 (by decide)
    simp only [literalValue, if_neg hp, if_neg hm]
    rw [if_pos hall]

theorem literalValue_minus (ds : List (Fin 256)) (hne : ds ≠ [])
    (hall : ds.all isDigit = true) :
    literalValue (minus :: ds) = some (-((decimalFrom 0 ds : Nat) : Int)) := by
  have hpm : ¬ minus = plus := by decide
  simp only [literalValue, if_neg hpm, if_true]
  rw [if_pos ⟨hne, hall⟩]

theorem FormatInt_nonneg (i : Int) (h1 : 0 ≤ i) (h2 : i < 2 ^ 63) :
    FormatInt i = formatBits 20 i.natAbs [] := by
  have e : toUint64 i = i.natAbs := by
    simp only [toUint64]
    omega
  rw [FormatInt, if_neg (by omega), e]

theorem FormatInt_neg (i : Int) (h1 : -2 ^ 63 ≤ i) (h2 : i < 0) :
    FormatInt i = minus :: formatBits 20 i.natAbs [] := by
  have e : (2 ^ 64 - toUint64 i) % 2 ^ 64 = i.natAbs := by
    simp only [toUint64]
    omega
  rw [FormatInt, if_pos h2, e]

theorem natAbs_lt (i : Int) (h1 : -2 ^ 63 ≤ i) (h2 : i < 2 ^ 63) : i.natAbs < 10 ^ (20 + 1) := by
  have : (10 : Nat) ^ (20 + 1) = 1000000000000000000000 := by norm_num
  omega

theorem literalValue_FormatInt (i : Int) (h1 : -2 ^ 63 ≤ i) (h2 : i < 2 ^ 63) :
    literalValue (FormatInt i) = some i := by
  obtain ⟨ds, hd, hne, hall, hv⟩ := formatBits_value 20 i.natAbs [] (natAbs_lt i h1 h2)
  rw [List.append_nil] at hd
  have hv0 := hv 0
  rw [Nat.zero_mul, Nat.zero_add] at hv0
  by_cases hneg : i < 0
  · rw [FormatInt_neg i h1 hneg, hd, literalValue_minus ds hne hall, hv0]
    congr 1
    omega
  · rw [FormatInt_nonneg i (by omega) h2, hd, literalValue_digits ds hne hall, hv0]
    congr 1
    omega

theorem FormatInt_bytes (i : Int) (h1 : -2 ^ 63 ≤ i) (h2 : i < 2 ^ 63) :
    FormatInt i ≠ [] ∧ ∀ c ∈ FormatInt i, c ≠ quote := by
  obtain ⟨ds, hd, hne, hall, _⟩ := formatBits_value 20 i.natAbs [] (natAbs_lt i h1 h2)
  rw [List.append_nil] at hd
  have hq : ∀ c ∈ ds, c ≠ quote := by
    intro c hc e
    have := (List.all_eq_true.mp hall) c hc
    rw [e] at this
    exact absurd this (by decide)
  by_cases hneg : i < 0
  · rw [FormatInt_neg i h1 hneg, hd]
    refine ⟨List.cons_ne_nil _ _, fun c hc => ?_⟩
    rcases List.mem_cons.mp hc with e | hc
    · rw [e]
      decide
    · exact hq c hc
  · rw [FormatInt_nonneg i (by omega) h2, hd]
    exact ⟨hne, hq⟩

/-! ## `bytes.Trim` -/

theorem dropWhile_keep (q : Fin 256) (l tl : List (Fin 256)) (hne : l ≠ [])
    (hq : ∀ c ∈ l, c ≠ q) :
    (l ++ tl).dropWhile (fun x => decide (x = q)) = l ++ tl := by
  cases l with
  | nil => exact absurd rfl hne
  | cons c t =>
    have hc : c ≠ q := hq c (List.mem_cons_self _ _)
    simp [List.dropWhile_cons, hc]

theorem Trim_quoted (q : Fin 256) (ds : List (Fin 256)) (hne : ds ≠ [])
    (hq : ∀ c ∈ ds, c ≠ q) : Trim ([q] ++ ds ++ [q]) q = ds := by
  have e1 : ([q] ++ ds ++ [q]).reverse = q :: (ds.reverse ++ [q]) := by simp
  have h0 : ∀ l : List (Fin 256), List.dropWhile (fun x => decide (x = q)) (q :: l) =
      List.dropWhile (fun x => decide (x = q)) l := by
    intro l
    simp [List.dropWhile_cons]
  have h1 := dropWhile_keep q ds.reverse [q] (by simpa using hne)
    (fun c hc => hq c (List.mem_reverse.mp hc))
  have h2 := dropWhile_keep q ds [] hne hq
  rw [List.append_nil] at h2
  rw [Trim, e1, h0, h1, List.reverse_append, List.reverse_reverse]
  simp only [List.reverse_cons, List.reverse_nil, List.nil_append, List.singleton_append]
  rw [h0, h2]

/-! ## The type `Int64String` -/

theorem ParseInt_FormatInt (i : Int) (h1 : -2 ^ 63 ≤ i) (h2 : i < 2 ^ 63) :
    ParseInt (FormatInt i) = (i, none) := by
  have hl := literalValue_FormatInt i h1 h2
  rcases ParseInt_literal (FormatInt i) with ⟨v, hv, _, _, hp⟩ | ⟨hno, _⟩
  · rw [hl] at hv
    cases hv
    exact hp
  · exact absurd ⟨h1, h2⟩ (hno i hl)

theorem FromString_of_ParseInt_ok {s : List (Fin 256)} {v : Int}
    (h : ParseInt s = (v, none)) : FromString s = (v, none) := by
  simp only [FromString, h]

theorem FromString_of_ParseInt_err {s : List (Fin 256)} {x : Int} {e : NumError}
    (h : ParseInt s = (x, some e)) :
    FromString s = (0, some (GoError.parseInt64String e)) := by
  simp only [FromString, h]

/-- C29. For every `int64` value `i`, `MarshalJSON` returns a nil error and the
text of `strconv.FormatInt(i, 10)` between two double quotes; that text is the
base-10 digits of the absolute value of `i`, the most significant first and
without leading zeros (the one digit `0` for zero), after a minus sign when `i`
is negative; and `UnmarshalJSON` on the output of `MarshalJSON` sets the
receiver, whatever it held, to `i` and returns a nil error. -/
theorem Int64String_json_round_trip (i : Int) (h1 : -2 ^ 63 ≤ i) (h2 : i < 2 ^ 63) :
    MarshalJSON i = ([quote] ++ FormatInt i ++ [quote], none) ∧
    FormatInt i =
      (if i < 0 then [minus] else []) ++
        (if i.natAbs = 0 then [0x30]
          else (Nat.digits 10 i.natAbs).reverse.map fun d => modbus.byte (0x30 + d)) ∧
    ∀ r, UnmarshalJSON r (MarshalJSON i).1 = (i, none) := by
  refine ⟨rfl, ?_, fun r => ?_⟩
  · have hd := formatBits_digits 20 i.natAbs [] (natAbs_lt i h1 h2)
    rw [List.append_nil] at hd
    by_cases hneg : i < 0
    · rw [FormatInt_neg i h1 hneg, hd, if_pos hneg]
      rfl
    · rw [FormatInt_nonneg i (by omega) h2, hd, if_neg hneg]
      rfl
  · obtain ⟨hne, hq⟩ := FormatInt_bytes i h1 h2
    simp only [UnmarshalJSON, MarshalJSON, Trim_quoted quote (FormatInt i) hne hq,
      ParseInt_FormatInt i h1 h2]

set_option maxRecDepth 100000 in
/-- C29 on the largest and the smallest `int64`: `9223372036854775807` and
`-9223372036854775808` are marshalled to their decimal texts between quotes,
and unmarshalled from them. -/
theorem Int64String_json_round_trip_witness :
    MarshalJSON 9223372036854775807 =
      ([quote] ++ ascii ['9', '2', '2', '3', '3', '7', '2', '0', '3', '6', '8', '5', '4', '7',
        '7', '5', '8', '0', '7'] ++ [quote], none) ∧
    MarshalJSON (-9223372036854775808) =
      ([quote] ++ ascii ['-', '9', '2', '2', '3', '3', '7', '2', '0', '3', '6', '8', '5', '4',
        '7', '7', '5', '8', '0', '8'] ++ [quote], none) ∧
    UnmarshalJSON 0 ([quote] ++ ascii ['9', '2', '2', '3', '3', '7', '2', '0', '3', '6', '8',
        '5', '4', '7', '7', '5', '8', '0', '7'] ++ [quote]) = (9223372036854775807, none) ∧
    (∀ r, UnmarshalJSON r (MarshalJSON 9223372036854775807).1 = (9223372036854775807, none)) ∧
    (∀ r, UnmarshalJSON r (MarshalJSON (-9223372036854775808)).1 =
      (-9223372036854775808, none)) :=
  ⟨by decide, by decide, by decide,
    (Int64String_json_round_trip 9223372036854775807 (by decide) (by decide)).2.2,
    (Int64String_json_round_trip (-9223372036854775808) (by decide) (by decide)).2.2⟩

/-- C30. `FromString(s)` returns a nil error exactly when `s` is a base-10
literal, an optional sign followed by at least one decimal digit and nothing
else, whose value lies between `-2^63` and `2^63 - 1`; then the result is that
value, also through `Int64()`.  For every other `s` it returns 0 next to an
error.  `FromString` of `strconv.FormatInt(v, 10)` is `FromInt64(v)` for every
`int64` value `v`. -/
theorem FromString_literal :
    (∀ s : List (Fin 256),
      ((FromString s).2 = none ↔
        ∃ v, literalValue s = some v ∧ -2 ^ 63 ≤ v ∧ v < 2 ^ 63) ∧
      (∀ v, literalValue s = some v → -2 ^ 63 ≤ v → v < 2 ^ 63 →
        FromString s = (v, none) ∧ Int64 (FromString s).1 = v) ∧
      ((∀ v, literalValue s = some v → ¬ (-2 ^ 63 ≤ v ∧ v < 2 ^ 63)) →
        ∃ e, FromString s = (0, some e))) ∧
    (∀ v : Int, -2 ^ 63 ≤ v → v < 2 ^ 63 →
      FromString (FormatInt v) = (FromInt64 v, none)) := by
  refine ⟨fun s => ⟨?_, ?_, ?_⟩, fun v h1 h2 => ?_⟩
  · rcases ParseInt_literal s with ⟨v, hv, h1, h2, hp⟩ | ⟨hno, x, e, hp⟩
    · rw [FromString_of_ParseInt_ok hp]
      exact ⟨fun _ => ⟨v, hv, h1, h2⟩, fun _ => rfl⟩
    · rw [FromString_of_ParseInt_err hp]
      refine ⟨fun h => ?_, fun ⟨v, hv, h1, h2⟩ => absurd ⟨h1, h2⟩ (hno v hv)⟩
      cases h
  · intro v hv h1 h2
    rcases ParseInt_literal s with ⟨w, hw, _, _, hp⟩ | ⟨hno, _⟩
    · rw [hv] at hw
      cases hw
      rw [FromString_of_ParseInt_ok hp]
      exact ⟨rfl, rfl⟩
    · exact absurd ⟨h1, h2⟩ (hno v hv)
  · intro hno
    rcases ParseInt_literal s with ⟨v, hv, h1, h2, _⟩ | ⟨_, x, e, hp⟩
    · exact absurd ⟨h1, h2⟩ (hno v hv)
    · exact ⟨_, FromString_of_ParseInt_err hp⟩
  · exact FromString_of_ParseInt_ok (ParseInt_FormatInt v h1 h2)

set_option maxRecDepth 100000 in
/-- C30 on the texts `-123`, which is a literal in the range, the empty text,
`abc` and `9223372036854775808`, which are not, and on the decimal text of the
smallest `int64`. -/
theorem FromString_literal_witness :
    FromString (ascii ['-', '1', '2', '3']) = (-123, none) ∧
    (∃ e, FromString [] = (0, some e)) ∧
    FromString (ascii ['a', 'b', 'c']) =
      (0, some (GoError.parseInt64String NumError.ErrSyntax)) ∧
    FromString (ascii ['9', '2', '2', '3', '3', '7', '2', '0', '3', '6', '8', '5', '4', '7',
        '7', '5', '8', '0', '8']) = (0, some (GoError.parseInt64String NumError.ErrRange)) ∧
    FromString (FormatInt (-9223372036854775808)) = (FromInt64 (-9223372036854775808), none) :=
  ⟨((FromString_literal.1 (ascii ['-', '1', '2', '3'])).2.1 (-123)
      (by decide) (by decide) (by decide)).1,
    (FromString_literal.1 []).2.2 (fun _ hv => Option.noConfusion hv),
    by decide, by decide,
    FromString_literal.2 (-9223372036854775808) (by decide) (by decide)⟩

end intx
